import Mathlib

/-!
Verification of the skool-downloader resumable download pipeline.

The definitions below are a shallow embedding of the TypeScript sources:

* `src/state/progress-tracker.ts` — the lesson ledger (`ProgressTracker`):
  statuses, lesson records, course state, and the mutation operations
  (`addLesson`, `updateLesson`, `markStarted`, `markCompleted`,
  `markFailed`, `markSkipped`), plus the queries `getLesson`,
  `getPendingLessons` and `getStats`.  JavaScript objects of the expected
  shape are modelled as Lean structures; the in-place mutations become
  explicit state passing.

Timestamps (`new Date().toISOString()`) are passed in as explicit `now`
arguments; the debounced `scheduleSave` side effect is persistence, which
is modelled separately (see the JSON layer further below).
-/

namespace SkoolDl

/-- `LessonState.status` values from `progress-tracker.ts`. -/
inductive Status
  | pending
  | downloading
  | completed
  | failed
  | skipped
deriving DecidableEq, Repr

/-- `LessonState` from `progress-tracker.ts`.  Optional (`?`) fields become
`Option`; `attempts` is a non-negative integer in every reachable state. -/
structure LessonState where
  id : String
  moduleIndex : Int
  lessonIndex : Int
  moduleTitle : String
  lessonTitle : String
  videoUrl : Option String := none
  videoProvider : Option String := none
  status : Status
  outputPath : Option String := none
  error : Option String := none
  attempts : Nat
deriving DecidableEq, Repr

/-- `CourseState` from `progress-tracker.ts`. -/
structure CourseState where
  url : String
  courseName : String
  startedAt : String
  lastUpdated : String
  lessons : List LessonState
deriving DecidableEq, Repr

/-- `ProgressTracker.createEmptyState`, with the two timestamps passed in. -/
def createEmptyState (now : String) : CourseState :=
  { url := "", courseName := "", startedAt := now, lastUpdated := now,
    lessons := [] }

/-- The argument of `addLesson`: a `LessonState` minus `status`/`attempts`
(`Omit<LessonState, 'status' | 'attempts'>`). -/
structure LessonSeed where
  id : String
  moduleIndex : Int
  lessonIndex : Int
  moduleTitle : String
  lessonTitle : String
  videoUrl : Option String := none
  videoProvider : Option String := none
  outputPath : Option String := none
  error : Option String := none
deriving DecidableEq, Repr

/-- The record `{...lesson, status: 'pending', attempts: 0}` pushed by
`addLesson`. -/
def LessonSeed.toLesson (l : LessonSeed) : LessonState :=
  { id := l.id, moduleIndex := l.moduleIndex, lessonIndex := l.lessonIndex,
    moduleTitle := l.moduleTitle, lessonTitle := l.lessonTitle,
    videoUrl := l.videoUrl, videoProvider := l.videoProvider,
    status := Status.pending, outputPath := l.outputPath, error := l.error,
    attempts := 0 }

/-- `ProgressTracker.addLesson`: insert with `status='pending'`,
`attempts=0` unless a lesson with the same `id` is already present. -/
def addLesson (st : CourseState) (l : LessonSeed) : CourseState :=
  match st.lessons.find? (fun x => x.id == l.id) with
  | some _ => st
  | none => { st with lessons := st.lessons ++ [l.toLesson] }

/-- A `Partial<LessonState>` as passed to `updateLesson` by the call sites
in the repository.  `none` means the property is absent (left untouched by
`Object.assign`); `some v` means the property is present with value `v`
(an explicit `undefined`, as in `markCompleted`, is `some none`). -/
structure LessonUpdate where
  status : Option Status := none
  attempts : Option Nat := none
  videoUrl : Option (Option String) := none
  videoProvider : Option (Option String) := none
  outputPath : Option (Option String) := none
  error : Option (Option String) := none
deriving Repr

/-- `Object.assign(lesson, updates)` for the fields of `LessonUpdate`. -/
def applyUpdate (u : LessonUpdate) (l : LessonState) : LessonState :=
  { l with
    status := u.status.getD l.status,
    attempts := u.attempts.getD l.attempts,
    videoUrl := u.videoUrl.getD l.videoUrl,
    videoProvider := u.videoProvider.getD l.videoProvider,
    outputPath := u.outputPath.getD l.outputPath,
    error := u.error.getD l.error }

/-- Replace the first element satisfying `p` by its image under `f`
(the effect of `find` followed by in-place mutation). -/
def updateFirst (p : LessonState → Bool) (f : LessonState → LessonState) :
    List LessonState → List LessonState
  | [] => []
  | x :: xs => if p x then f x :: xs else x :: updateFirst p f xs

/-- `ProgressTracker.updateLesson`: merge `updates` into the first lesson
with the given `id`; no-op when the id is unknown. -/
def updateLesson (st : CourseState) (id : String) (u : LessonUpdate) :
    CourseState :=
  { st with lessons := updateFirst (fun l => l.id == id) (applyUpdate u) st.lessons }

/-- `ProgressTracker.getLesson`. -/
def getLesson (st : CourseState) (id : String) : Option LessonState :=
  st.lessons.find? (fun l => l.id == id)

/-- `ProgressTracker.markStarted`: `status='downloading'`,
`attempts = (getLesson(id)?.attempts || 0) + 1` (on `Nat`, `x || 0 = x`). -/
def markStarted (st : CourseState) (id : String) : CourseState :=
  updateLesson st id
    { status := some Status.downloading,
      attempts := some (((getLesson st id).map (fun l => l.attempts)).getD 0 + 1) }

/-- `ProgressTracker.markCompleted`: `status='completed'`, set
`outputPath`, clear `error` (the explicit `error: undefined` is an own
property, so `Object.assign` overwrites `error`). -/
def markCompleted (st : CourseState) (id : String) (outputPath : String) :
    CourseState :=
  updateLesson st id
    { status := some Status.completed,
      outputPath := some (some outputPath),
      error := some none }

/-- `ProgressTracker.markFailed`: `status='failed'`, record reason. -/
def markFailed (st : CourseState) (id : String) (error : String) : CourseState :=
  updateLesson st id
    { status := some Status.failed, error := some (some error) }

/-- `ProgressTracker.markSkipped`: `status='skipped'`, record reason. -/
def markSkipped (st : CourseState) (id : String) (reason : String) : CourseState :=
  updateLesson st id
    { status := some Status.skipped, error := some (some reason) }

/-- `ProgressTracker.initialize` (renamed: sets the identity fields). -/
def initCourse (st : CourseState) (url courseName now : String) : CourseState :=
  { st with url := url, courseName := courseName, startedAt := now }

/-- The scheduling-eligibility predicate of `getPendingLessons`. -/
def isPendingLesson (l : LessonState) : Bool :=
  l.status == Status.pending || (l.status == Status.failed && l.attempts < 3)

/-- `ProgressTracker.getPendingLessons`. -/
def getPendingLessons (st : CourseState) : List LessonState :=
  st.lessons.filter isPendingLesson

/-- Result of `ProgressTracker.getStats`. -/
structure Stats where
  total : Nat
  completed : Nat
  failed : Nat
  pending : Nat
  skipped : Nat
deriving DecidableEq, Repr

/-- `ProgressTracker.getStats`: bucket counts by full scan. -/
def getStats (st : CourseState) : Stats :=
  { total := st.lessons.length,
    completed := (st.lessons.filter (fun l => l.status == Status.completed)).length,
    failed := (st.lessons.filter (fun l => l.status == Status.failed)).length,
    pending := (st.lessons.filter (fun l => l.status == Status.pending)).length,
    skipped := (st.lessons.filter (fun l => l.status == Status.skipped)).length }

/-- The ledger mutations performed by the rest of the program, as an
operation type: `addLesson`, the four `mark*` transitions, `initialize`,
and the one `updateLesson` call the coordinator makes directly (it only
carries `videoUrl`/`videoProvider`, cf. `debug-all-links.ts`). -/
inductive LedgerOp
  | addL (l : LessonSeed)
  | startL (id : String)
  | completeL (id outputPath : String)
  | failL (id err : String)
  | skipL (id reason : String)
  | initL (url courseName now : String)
  | setVideoL (id : String) (videoUrl videoProvider : Option String)

/-- Interpret a `LedgerOp` on a `CourseState`. -/
def applyOp : LedgerOp → CourseState → CourseState
  | LedgerOp.addL l, st => addLesson st l
  | LedgerOp.startL id, st => markStarted st id
  | LedgerOp.completeL id p, st => markCompleted st id p
  | LedgerOp.failL id e, st => markFailed st id e
  | LedgerOp.skipL id r, st => markSkipped st id r
  | LedgerOp.initL u n now, st => initCourse st u n now
  | LedgerOp.setVideoL id vu vp, st =>
      updateLesson st id { videoUrl := some vu, videoProvider := some vp }

/-- A concrete seed used to instantiate the universally quantified
theorems below. -/
def sampleSeed : LessonSeed :=
  { id := "a", moduleIndex := 0, lessonIndex := 0,
    moduleTitle := "m", lessonTitle := "t" }

/-- A concrete one-lesson ledger state. -/
def sampleState : CourseState :=
  addLesson (createEmptyState "2024-01-01T00:00:00Z") sampleSeed

/-!
### Persistence layer

`ProgressTracker.load` does `JSON.parse` on the file contents and assigns
the result to `this.state` without any shape validation; `save` does
`ensureDir` + a single `fs.writeFile` of `JSON.stringify(this.state,
null, 2)` directly to `this.statePath`.  To model this boundary we embed
a JSON value type, a parser standing for `JSON.parse` (full JSON value
syntax; numbers are kept as their lexemes, since only their syntax
matters here), and a 2-space pretty-printer standing for
`JSON.stringify(·, null, 2)` (JavaScript property order is modelled as
the interface declaration order; properties whose value is `undefined`
are omitted, as `JSON.stringify` does).
-/

/-- A JSON document, as produced by `JSON.parse`. -/
inductive Json where
  | null
  | bool (b : Bool)
  | num (lexeme : String)
  | str (s : String)
  | arr (elems : List Json)
  | obj (fields : List (String × Json))
deriving Repr, BEq

/-- Whitespace accepted between JSON tokens. -/
def isWsChar (c : Char) : Bool :=
  c = ' ' || c = '\t' || c = '\n' || c = '\r'

/-- Drop leading JSON whitespace. -/
def skipWs : List Char → List Char
  | [] => []
  | c :: cs => if isWsChar c then skipWs cs else c :: cs

/-- Whether a character is a hexadecimal digit. -/
def isHexDigitChar (c : Char) : Bool :=
  c.isDigit || ('a' ≤ c && c ≤ 'f') || ('A' ≤ c && c ≤ 'F')

/-- Numeric value of a hexadecimal digit. -/
def hexVal (c : Char) : Nat :=
  if c.isDigit then c.toNat - 48
  else if 'a' ≤ c && c ≤ 'f' then c.toNat - 87
  else if 'A' ≤ c && c ≤ 'F' then c.toNat - 55
  else 0

/-- Single-character JSON string escapes. -/
def escChar? (e : Char) : Option Char :=
  if e = '"' then some '"'
  else if e = '\\' then some '\\'
  else if e = '/' then some '/'
  else if e = 'b' then some (Char.ofNat 8)
  else if e = 'f' then some (Char.ofNat 12)
  else if e = 'n' then some '\n'
  else if e = 'r' then some '\r'
  else if e = 't' then some '\t'
  else none

/-- Parse the remainder of a JSON string literal (the opening quote is
already consumed); rejects raw control characters and bad escapes. -/
def parseStr : List Char → Option (String × List Char)
  | [] => none
  | c :: rest =>
      if c = '"' then some ("", rest)
      else if c = '\\' then
        match rest with
        | [] => none
        | e :: rest2 =>
            if e = 'u' then
              match rest2 with
              | h1 :: h2 :: h3 :: h4 :: rest3 =>
                  if isHexDigitChar h1 && isHexDigitChar h2
                      && isHexDigitChar h3 && isHexDigitChar h4 then
                    match parseStr rest3 with
                    | some (s, r) =>
                        some (String.mk (Char.ofNat
                          (((hexVal h1 * 16 + hexVal h2) * 16 + hexVal h3)
                            * 16 + hexVal h4) :: s.data), r)
                    | none => none
                  else none
              | _ => none
            else
              match escChar? e with
              | some ch =>
                  match parseStr rest2 with
                  | some (s, r) => some (String.mk (ch :: s.data), r)
                  | none => none
              | none => none
      else if c.toNat < 32 then none
      else
        match parseStr rest with
        | some (s, r) => some (String.mk (c :: s.data), r)
        | none => none

/-- Split off a maximal run of decimal digits. -/
def takeDigits : List Char → List Char × List Char
  | [] => ([], [])
  | c :: cs =>
      if c.isDigit then
        let p := takeDigits cs
        (c :: p.1, p.2)
      else ([], c :: cs)

/-- Optional fraction part of a JSON number. -/
def parseFracPart : List Char → Option (List Char × List Char)
  | [] => some ([], [])
  | c :: rest =>
      if c = '.' then
        let p := takeDigits rest
        if p.1.isEmpty then none else some ('.' :: p.1, p.2)
      else some ([], c :: rest)

/-- Optional exponent part of a JSON number. -/
def parseExpPart : List Char → Option (List Char × List Char)
  | [] => some ([], [])
  | e :: rest =>
      if e = 'e' ∨ e = 'E' then
        let signAndRest : List Char × List Char :=
          match rest with
          | [] => ([], [])
          | c2 :: r2 =>
              if c2 = '+' then (['+'], r2)
              else if c2 = '-' then (['-'], r2)
              else ([], c2 :: r2)
        let p := takeDigits signAndRest.2
        if p.1.isEmpty then none
        else some (e :: (signAndRest.1 ++ p.1), p.2)
      else some ([], e :: rest)

/-- Assemble a number lexeme after the integer digits are known. -/
def finishNum (neg intDigits : List Char) (cs : List Char) :
    Option (Json × List Char) :=
  match parseFracPart cs with
  | some (frac, cs2) =>
      match parseExpPart cs2 with
      | some (ex, cs3) =>
          some (Json.num (String.mk (neg ++ intDigits ++ frac ++ ex)), cs3)
      | none => none
  | none => none

/-- The integer-digits part of a JSON number after an optional sign. -/
def parseNumBody (neg : List Char) (cs : List Char) :
    Option (Json × List Char) :=
  match cs with
  | [] => none
  | c :: rest =>
      if c = '0' then
        match rest with
        | [] => finishNum neg ['0'] []
        | c2 :: rest2 =>
            if c2.isDigit then none
            else finishNum neg ['0'] (c2 :: rest2)
      else if c.isDigit then
        let d := takeDigits rest
        finishNum neg (c :: d.1) d.2
      else none

/-- Parse a JSON number (no leading zeros, as in `JSON.parse`). -/
def parseNum (cs : List Char) : Option (Json × List Char) :=
  match cs with
  | [] => none
  | c0 :: rest0 =>
      if c0 = '-' then parseNumBody ['-'] rest0
      else parseNumBody [] (c0 :: rest0)

mutual

/-- Parse one JSON value (fuel-indexed recursive descent). -/
def parseValue : Nat → List Char → Option (Json × List Char)
  | 0, _ => none
  | Nat.succ fuel, cs =>
    match skipWs cs with
    | [] => none
    | c :: rest =>
        if c = 'n' then
          match rest with
          | 'u' :: 'l' :: 'l' :: r => some (Json.null, r)
          | _ => none
        else if c = 't' then
          match rest with
          | 'r' :: 'u' :: 'e' :: r => some (Json.bool true, r)
          | _ => none
        else if c = 'f' then
          match rest with
          | 'a' :: 'l' :: 's' :: 'e' :: r => some (Json.bool false, r)
          | _ => none
        else if c = '"' then
          match parseStr rest with
          | some (s, r) => some (Json.str s, r)
          | none => none
        else if c = '[' then parseArray fuel rest
        else if c = '{' then parseObj fuel rest
        else parseNum (c :: rest)

/-- Parse an array body after `[`. -/
def parseArray : Nat → List Char → Option (Json × List Char)
  | 0, _ => none
  | Nat.succ fuel, cs =>
    match skipWs cs with
    | [] => none
    | c :: rest =>
        if c = ']' then some (Json.arr [], rest)
        else
          match parseValue fuel (c :: rest) with
          | some (v, r) => parseArrayTail fuel [v] r
          | none => none

/-- Parse `, value`* `]`. -/
def parseArrayTail : Nat → List Json → List Char → Option (Json × List Char)
  | 0, _, _ => none
  | Nat.succ fuel, acc, cs =>
    match skipWs cs with
    | [] => none
    | c :: rest =>
        if c = ',' then
          match parseValue fuel rest with
          | some (v, r2) => parseArrayTail fuel (acc ++ [v]) r2
          | none => none
        else if c = ']' then some (Json.arr acc, rest)
        else none

/-- Parse an object body after `{`. -/
def parseObj : Nat → List Char → Option (Json × List Char)
  | 0, _ => none
  | Nat.succ fuel, cs =>
    match skipWs cs with
    | [] => none
    | c :: rest =>
        if c = '}' then some (Json.obj [], rest)
        else if c = '"' then
          match parseStr rest with
          | some (k, r2) =>
              (match skipWs r2 with
               | [] => none
               | c2 :: r3 =>
                   if c2 = ':' then
                     match parseValue fuel r3 with
                     | some (v, r4) => parseObjTail fuel [(k, v)] r4
                     | none => none
                   else none)
          | none => none
        else none

/-- Parse `, "key": value`* `}`. -/
def parseObjTail : Nat → List (String × Json) → List Char →
    Option (Json × List Char)
  | 0, _, _ => none
  | Nat.succ fuel, acc, cs =>
    match skipWs cs with
    | [] => none
    | c :: rest =>
        if c = ',' then
          match skipWs rest with
          | [] => none
          | c2 :: r2 =>
              if c2 = '"' then
                match parseStr r2 with
                | some (k, r3) =>
                    (match skipWs r3 with
                     | [] => none
                     | c3 :: r4 =>
                         if c3 = ':' then
                           match parseValue fuel r4 with
                           | some (v, r5) =>
                               parseObjTail fuel (acc ++ [(k, v)]) r5
                           | none => none
                         else none)
                | none => none
              else none
        else if c = '}' then some (Json.obj acc, rest)
        else none

end

/-- `JSON.parse`: a full parse of the string, allowing trailing
whitespace only.  The fuel `2·length + 8` is never exhausted: every two
recursion levels consume at least one character. -/
def Json.parse (s : String) : Option Json :=
  match parseValue (2 * s.length + 8) s.data with
  | some (v, rest) => if (skipWs rest).isEmpty then some v else none
  | none => none

/-- Decimal digit character. -/
def digitChar (n : Nat) : Char :=
  if n = 0 then '0' else if n = 1 then '1' else if n = 2 then '2'
  else if n = 3 then '3' else if n = 4 then '4' else if n = 5 then '5'
  else if n = 6 then '6' else if n = 7 then '7' else if n = 8 then '8'
  else '9'

/-- Lower-case hexadecimal digit character. -/
def hexDigitChar (n : Nat) : Char :=
  if n < 10 then digitChar n
  else if n = 10 then 'a' else if n = 11 then 'b' else if n = 12 then 'c'
  else if n = 13 then 'd' else if n = 14 then 'e' else 'f'

/-- `JSON.stringify` escaping for one character. -/
def jsonEscapeChar (c : Char) : List Char :=
  if c = '"' then ['\\', '"']
  else if c = '\\' then ['\\', '\\']
  else if c = '\n' then ['\\', 'n']
  else if c = '\r' then ['\\', 'r']
  else if c = '\t' then ['\\', 't']
  else if c = Char.ofNat 8 then ['\\', 'b']
  else if c = Char.ofNat 12 then ['\\', 'f']
  else if c.toNat < 32 then
    ['\\', 'u', '0', '0', hexDigitChar (c.toNat / 16), hexDigitChar (c.toNat % 16)]
  else [c]

/-- Escape a string body as `JSON.stringify` does. -/
def escString : List Char → List Char
  | [] => []
  | c :: cs => jsonEscapeChar c ++ escString cs

/-- A JSON string literal for `s`. -/
def jsonQuote (s : String) : String :=
  String.mk ('"' :: (escString s.data ++ ['"']))

mutual

/-- Pretty-print with 2-space indentation, as `JSON.stringify(v, null,
2)` does; `ind` is the current indentation. -/
def renderJson : Json → String → String
  | Json.null, _ => "null"
  | Json.bool b, _ => if b then "true" else "false"
  | Json.num lex, _ => lex
  | Json.str s, _ => jsonQuote s
  | Json.arr [], _ => "[]"
  | Json.arr (x :: xs), ind =>
      "[\n" ++ renderElems (x :: xs) (ind ++ "  ") ++ "\n" ++ ind ++ "]"
  | Json.obj [], _ => "\x7b\x7d"
  | Json.obj (f :: fs), ind =>
      "\x7b\n" ++ renderFields (f :: fs) (ind ++ "  ") ++ "\n" ++ ind ++ "\x7d"

/-- Render array elements, one per line. -/
def renderElems : List Json → String → String
  | [], _ => ""
  | [x], ind => ind ++ renderJson x ind
  | x :: y :: xs, ind =>
      ind ++ renderJson x ind ++ ",\n" ++ renderElems (y :: xs) ind

/-- Render object members, one per line. -/
def renderFields : List (String × Json) → String → String
  | [], _ => ""
  | [(k, v)], ind => ind ++ jsonQuote k ++ ": " ++ renderJson v ind
  | (k, v) :: g :: fs, ind =>
      ind ++ jsonQuote k ++ ": " ++ renderJson v ind ++ ",\n"
        ++ renderFields (g :: fs) ind

end

/-- Decimal digits of `n` (fuel-indexed so the kernel can evaluate it). -/
def natLexAux : Nat → Nat → List Char
  | 0, _ => []
  | Nat.succ f, n =>
      if n < 10 then [digitChar n]
      else natLexAux f (n / 10) ++ [digitChar (n % 10)]

/-- Decimal rendering of a natural number. -/
def natLex (n : Nat) : String := String.mk (natLexAux (n + 1) n)

/-- Decimal rendering of an integer (what `JSON.stringify` prints for
the integral numbers stored in the state). -/
def intLex : Int → String
  | Int.ofNat n => natLex n
  | Int.negSucc n => String.mk ('-' :: (natLex (n + 1)).data)

/-- The string stored for each `status` value. -/
def statusToString : Status → String
  | Status.pending => "pending"
  | Status.downloading => "downloading"
  | Status.completed => "completed"
  | Status.failed => "failed"
  | Status.skipped => "skipped"

/-- The JSON object `JSON.stringify` sees for a lesson: `undefined`
optionals are omitted; property order is the declaration order. -/
def jsonOfLesson (l : LessonState) : Json :=
  Json.obj
    ([("id", Json.str l.id),
      ("moduleIndex", Json.num (intLex l.moduleIndex)),
      ("lessonIndex", Json.num (intLex l.lessonIndex)),
      ("moduleTitle", Json.str l.moduleTitle),
      ("lessonTitle", Json.str l.lessonTitle)]
      ++ (match l.videoUrl with
          | some v => [("videoUrl", Json.str v)]
          | none => [])
      ++ (match l.videoProvider with
          | some v => [("videoProvider", Json.str v)]
          | none => [])
      ++ [("status", Json.str (statusToString l.status))]
      ++ (match l.outputPath with
          | some v => [("outputPath", Json.str v)]
          | none => [])
      ++ (match l.error with
          | some v => [("error", Json.str v)]
          | none => [])
      ++ [("attempts", Json.num (natLex l.attempts))])

/-- The JSON object `JSON.stringify` sees for the course state. -/
def jsonOfCourseState (st : CourseState) : Json :=
  Json.obj
    [("url", Json.str st.url),
     ("courseName", Json.str st.courseName),
     ("startedAt", Json.str st.startedAt),
     ("lastUpdated", Json.str st.lastUpdated),
     ("lessons", Json.arr (st.lessons.map jsonOfLesson))]

/-- `JSON.stringify(this.state, null, 2)`. -/
def serializeCourseState (st : CourseState) : String :=
  renderJson (jsonOfCourseState st) ""

/-- What a read of the persisted state file can yield. -/
inductive FileRead where
  | absent
  | unreadable
  | content (s : String)

/-- `ProgressTracker.load` at the JSON boundary: the in-memory state is a
raw parsed document.  An absent file returns `false`; a read error or a
`JSON.parse` error is caught (warn only) and returns `false` leaving the
state as it was; any string that parses replaces the state wholesale —
the code performs no shape validation. -/
def loadJson (prev : Json) (file : FileRead) : Bool × Json :=
  match file with
  | FileRead.absent => (false, prev)
  | FileRead.unreadable => (false, prev)
  | FileRead.content s =>
      match Json.parse s with
      | some j => (true, j)
      | none => (false, prev)

/-- File-system effects of `save`. -/
inductive FsOp where
  | mkdirp (dir : String)
  | writeFile (path content : String)
  | rename (src dst : String)
deriving Repr, BEq, DecidableEq

/-- Whether an effect is a rename. -/
def FsOp.isRename : FsOp → Bool
  | FsOp.rename _ _ => true
  | _ => false

/-- Characters strictly before the last `/`, if any slash occurs. -/
def beforeLastSlash : List Char → Option (List Char)
  | [] => none
  | c :: cs =>
      match beforeLastSlash cs with
      | some inner => some (c :: inner)
      | none => if c = '/' then some [] else none

/-- `path.dirname` (portion before the last slash; `"."` if none). -/
def dirname (p : String) : String :=
  match beforeLastSlash p.data with
  | some pre => String.mk pre
  | none => "."

/-- `ProgressTracker.save`: stamp `lastUpdated`, `ensureDir` the state
directory, then one direct `fs.writeFile` of the serialized state to
`statePath`.  Returns the new in-memory state and the file-system
effect trace. -/
def save (statePath now : String) (st : CourseState) :
    CourseState × List FsOp :=
  let st2 := { st with lastUpdated := now }
  (st2,
    [FsOp.mkdirp (dirname statePath),
     FsOp.writeFile statePath (serializeCourseState st2)])

/-- `l.id === lesson.id` for a raw JSON array element: true only when the
element is an object whose `id` member is the given string. -/
def elHasId (el : Json) (id : String) : Bool :=
  match el with
  | Json.obj fs =>
      match fs.find? (fun p => p.1 == "id") with
      | some (_, Json.str s) => s == id
      | _ => false
  | _ => false

/-- Assignment to a property: replace in place, append if new. -/
def setField : List (String × Json) → String → Json →
    List (String × Json)
  | [], k, v => [(k, v)]
  | (k2, v2) :: rest, k, v =>
      if k2 == k then (k, v) :: rest else (k2, v2) :: setField rest k v

/-- `ProgressTracker.addLesson` run against a raw loaded document:
`this.state.lessons.find(...)` throws a `TypeError` (`none`) unless the
state is an object whose `lessons` member is an array; otherwise it
pushes `{...lesson, status: 'pending', attempts: 0}` when the id is not
yet present. -/
def jsAddLesson (state : Json) (seed : LessonSeed) : Option Json :=
  match state with
  | Json.obj fields =>
      match fields.find? (fun p => p.1 == "lessons") with
      | some (_, Json.arr ls) =>
          if ls.any (fun el => elHasId el seed.id) then some state
          else
            some (Json.obj (setField fields "lessons"
              (Json.arr (ls ++ [jsonOfLesson seed.toLesson]))))
      | some _ => none
      | none => none
  | _ => none

/-!
### Download executors

`resource-downloader` (direct HTTP executor) and `yt-dlp-wrapper` (media
executor).  Node/OS facilities are shallowly embedded: the network is a
function from the request URL to an outcome; `new URL` validity,
`new URL(rel, base)` resolution, `getFilenameFromUrl` (platform regex +
URL parsing + `sanitize-filename`), the Google-Drive regex conversion and
`sanitize-filename` itself are passed in as function parameters, so every
theorem below holds for all of their behaviours.  A thrown exception that
the source does not catch (a rejected promise) is `Except.error`; every
resolved result is `Except.ok`.
-/

/-- `haystack` starts with `needle`. -/
def startsWithChars : List Char → List Char → Bool
  | [], _ => true
  | _ :: _, [] => false
  | a :: as, b :: bs => a == b && startsWithChars as bs

/-- Substring occurrence over character lists. -/
def containsChars (needle : List Char) : List Char → Bool
  | [] => needle.isEmpty
  | c :: cs => startsWithChars needle (c :: cs) || containsChars needle cs

/-- JavaScript `s.includes(pat)`. -/
def strIncludes (s pat : String) : Bool :=
  containsChars pat.data s.data

/-- JavaScript `v || d` for an optional string: `undefined` and `""` are
falsy. -/
def jsOrStr (v : Option String) (d : String) : String :=
  match v with
  | some s => if s = "" then d else s
  | none => d

/-- Characters after the last `/`. -/
def afterLastSlash (cs : List Char) : List Char :=
  ((cs.reverse.takeWhile (fun c => c ≠ '/')).reverse)

/-- `".ext"` from the last dot of a name, if any dot occurs. -/
def fromLastDot : List Char → Option (List Char)
  | [] => none
  | c :: cs =>
      match fromLastDot cs with
      | some e => some e
      | none => if c = '.' then some ('.' :: cs) else none

/-- `path.extname`: extension of the basename from its last dot; a dot
leading the basename does not count. -/
def extname (p : String) : String :=
  match afterLastSlash p.data with
  | [] => ""
  | _ :: rest =>
      match fromLastDot rest with
      | some e => String.mk e
      | none => ""

/-- Everything before the first `;`. -/
def takeUntilSemi : List Char → List Char
  | [] => []
  | c :: cs => if c = ';' then [] else c :: takeUntilSemi cs

/-- Trim surrounding whitespace. -/
def trimChars (cs : List Char) : List Char :=
  ((cs.dropWhile isWsChar).reverse.dropWhile isWsChar).reverse

/-- `contentType.split(';')[0].trim().toLowerCase()`. -/
def baseMime (ct : String) : String :=
  String.mk ((trimChars (takeUntilSemi ct.data)).map Char.toLower)

/-- The MIME-type-to-extension table of `getExtensionFromContentType`. -/
def mimeToExt (m : String) : String :=
  if m = "application/pdf" then ".pdf"
  else if m = "application/msword" then ".doc"
  else if m = "application/vnd.openxmlformats-officedocument.wordprocessingml.document" then ".docx"
  else if m = "application/vnd.ms-excel" then ".xls"
  else if m = "application/vnd.openxmlformats-officedocument.spreadsheetml.sheet" then ".xlsx"
  else if m = "application/vnd.ms-powerpoint" then ".ppt"
  else if m = "application/vnd.openxmlformats-officedocument.presentationml.presentation" then ".pptx"
  else if m = "application/zip" then ".zip"
  else if m = "application/x-zip-compressed" then ".zip"
  else if m = "text/plain" then ".txt"
  else if m = "text/html" then ".html"
  else if m = "text/markdown" then ".md"
  else if m = "image/png" then ".png"
  else if m = "image/jpeg" then ".jpg"
  else if m = "image/gif" then ".gif"
  else if m = "image/webp" then ".webp"
  else if m = "application/json" then ".json"
  else ""

/-- `getExtensionFromContentType` from `resource-downloader`. -/
def getExtensionFromContentType (contentType : String) : String :=
  mimeToExt (baseMime contentType)

/-- The parts of an HTTP response `downloadFile` inspects.  `writeError`
is a stream error raised while piping the body to disk, if any. -/
structure HttpResp where
  statusCode : Nat
  location : Option String := none
  contentDisposition : Option String := none
  contentType : String := ""
  writeError : Option String := none

/-- Outcome of issuing one HTTP GET. -/
inductive NetOutcome where
  | resp (r : HttpResp)
  | netError (msg : String)
  | timeout

/-- The object `downloadFile` resolves with. -/
structure DlFileResult where
  success : Bool
  finalPath : Option String := none
  error : Option String := none
  requiresAuth : Bool := false
deriving Repr, DecidableEq

/-- The non-redirect tail of `downloadFile`'s response handler: status
classification (401/403 auth, 404, other ≥ 400), extension inference
(Content-Disposition / URL filename via `getFname`, then the MIME
table), then the streamed write. -/
def handleResponse (getFname : String → Option String → String)
    (r : HttpResp) (url outputPath : String) : DlFileResult :=
  if r.statusCode = 401 || r.statusCode = 403 then
    { success := false, requiresAuth := true,
      error := some "Authentication required" }
  else if r.statusCode = 404 then
    { success := false, error := some "File not found (404)" }
  else if 400 ≤ r.statusCode then
    { success := false, error := some ("HTTP " ++ toString r.statusCode) }
  else
    let finalPath :=
      if extname outputPath = "" then
        let urlFilename := getFname url r.contentDisposition
        if urlFilename ≠ "" ∧ extname urlFilename ≠ "" then
          outputPath ++ extname urlFilename
        else
          let ext := getExtensionFromContentType r.contentType
          if ext ≠ "" then outputPath ++ ext else outputPath
      else outputPath
    match r.writeError with
    | some e => { success := false, error := some e }
    | none => { success := true, finalPath := some finalPath }

/-- `downloadFile` from `resource-downloader`.  `urlOk` models whether
`new URL(url)` succeeds (it throws inside the promise executor, i.e.
`Except.error`, when not); `resolveUrl loc base` models
`new URL(loc, base).href`; `fuel` is the `followRedirects` counter
(default 5).  The source guard `redirectUrl && followRedirects > 0` is
realized by the top-level fuel split: with `fuel = 0` every response —
3xx included — falls through to the normal response handler, and with
`fuel > 0` a 3xx response carrying a `location` is followed. -/
def downloadFile (net : String → NetOutcome) (urlOk : String → Bool)
    (resolveUrl : String → String → Option String)
    (getFname : String → Option String → String) :
    Nat → String → String → Except String DlFileResult
  | 0, url, outputPath =>
    if urlOk url then
      match net url with
      | NetOutcome.netError msg =>
          Except.ok { success := false, error := some msg }
      | NetOutcome.timeout =>
          Except.ok { success := false, error := some "Download timeout" }
      | NetOutcome.resp r =>
          Except.ok (handleResponse getFname r url outputPath)
    else Except.error "Invalid URL"
  | Nat.succ fuel2, url, outputPath =>
    if urlOk url then
      match net url with
      | NetOutcome.netError msg =>
          Except.ok { success := false, error := some msg }
      | NetOutcome.timeout =>
          Except.ok { success := false, error := some "Download timeout" }
      | NetOutcome.resp r =>
          if 300 ≤ r.statusCode ∧ r.statusCode < 400 then
            match r.location with
            | some loc =>
                match resolveUrl loc url with
                | some absUrl =>
                    downloadFile net urlOk resolveUrl getFname fuel2 absUrl
                      outputPath
                | none => Except.error "Invalid URL"
            | none => Except.ok (handleResponse getFname r url outputPath)
          else Except.ok (handleResponse getFname r url outputPath)
    else Except.error "Invalid URL"

/-- `ExtractedLink.type` values (from the content extractor). -/
inductive LinkType where
  | pdf
  | googleDoc
  | googleDrive
  | notionPage
  | extLink
  | unknownLink
deriving DecidableEq, Repr

/-- `ExtractedLink` from the content extractor. -/
structure ExtractedLink where
  text : String
  url : String
  type : LinkType
deriving Repr

/-- `DownloadResult` from `resource-downloader`. -/
structure ResourceResult where
  url : String
  success : Bool
  outputPath : Option String := none
  error : Option String := none
  skipped : Option Bool := none
  skipReason : Option String := none
deriving Repr, DecidableEq

/-- The download-URL conversion at the top of `downloadResource`:
Google-Drive/Doc links through the (regex-based, parameterized)
converter, Dropbox links through `getDropboxDirectUrl`. -/
def effectiveUrl (gdrive : String → Option String)
    (dropbox : String → String) (link : ExtractedLink) : String :=
  if link.type = LinkType.googleDrive ∨ link.type = LinkType.googleDoc then
    match gdrive link.url with
    | some d => d
    | none => link.url
  else if strIncludes link.url "dropbox.com" then dropbox link.url
  else link.url

/-- `downloadResource`: convert the URL, skip Notion pages, derive the
destination under `outputDir/resources`, call `downloadFile`
(`followRedirects` defaulted to 5), then map its outcome — an
auth-required result becomes `skipped` with reason
"Requires authentication". -/
def downloadResource (gdrive : String → Option String)
    (dropbox : String → String) (safeName : String → String)
    (net : String → NetOutcome) (urlOk : String → Bool)
    (resolveUrl : String → String → Option String)
    (getFname : String → Option String → String)
    (link : ExtractedLink) (outputDir : String) (index : Nat) :
    Except String ResourceResult :=
  let downloadUrl := effectiveUrl gdrive dropbox link
  if link.type = LinkType.notionPage then
    Except.ok
      { url := link.url, success := false, skipped := some true,
        skipReason := some
          "Notion pages cannot be directly downloaded (link preserved in content)" }
  else
    let safeTitle :=
      jsOrStr (some (safeName link.text)) ("resource_" ++ toString (index + 1))
    let basePath := outputDir ++ "/resources/" ++ safeTitle
    match downloadFile net urlOk resolveUrl getFname 5 downloadUrl basePath with
    | Except.error e => Except.error e
    | Except.ok result =>
        if result.requiresAuth then
          Except.ok
            { url := link.url, success := false, skipped := some true,
              skipReason := some "Requires authentication" }
        else if result.success = false then
          Except.ok
            { url := link.url, success := false, error := result.error }
        else
          Except.ok
            { url := link.url, success := true,
              outputPath := result.finalPath }

/-- JS `String.prototype.replace` with a string pattern: replace the
first occurrence only. -/
def replaceFirstAux (pat rep : List Char) : List Char → List Char
  | [] => []
  | c :: cs =>
      if startsWithChars pat (c :: cs) then
        rep ++ (c :: cs).drop pat.length
      else c :: replaceFirstAux pat rep cs

/-- `s.replace(pat, rep)` for string patterns. -/
def replaceFirst (s pat rep : String) : String :=
  String.mk (replaceFirstAux pat.data rep.data s.data)

/-- `getDropboxDirectUrl` from the content extractor:
`url.replace('dl=0', 'dl=1').replace('www.dropbox.com',
'dl.dropboxusercontent.com')`. -/
def getDropboxDirectUrl (url : String) : String :=
  replaceFirst (replaceFirst url "dl=0" "dl=1") "www.dropbox.com"
    "dl.dropboxusercontent.com"

/-- The character class `[a-zA-Z0-9_-]` of the Drive-file-id capture
groups. -/
def isIdChar (c : Char) : Bool :=
  (decide ('a'.toNat ≤ c.toNat) && decide (c.toNat ≤ 'z'.toNat)) ||
  (decide ('A'.toNat ≤ c.toNat) && decide (c.toNat ≤ 'Z'.toNat)) ||
  (decide ('0'.toNat ≤ c.toNat) && decide (c.toNat ≤ '9'.toNat)) ||
  c = '_' || c = '-'

/-- Leftmost match of the regex `lit([a-zA-Z0-9_-]+)`: at each start
position try the literal followed by at least one id character; on a hit
the capture is the maximal id-character run, otherwise slide one
character right (JS regex leftmost-match semantics). -/
def matchLitThenId (lit : List Char) : List Char → Option (List Char)
  | [] => none
  | c :: cs =>
      if startsWithChars lit (c :: cs) then
        if ((c :: cs).drop lit.length).takeWhile isIdChar = [] then
          matchLitThenId lit cs
        else some (((c :: cs).drop lit.length).takeWhile isIdChar)
      else matchLitThenId lit cs

/-- `getGoogleDriveDirectUrl` from the content extractor: try the three
patterns in order, and on a match build the `uc?export=download` URL
from the captured file id; `null` if none match. -/
def getGoogleDriveDirectUrl (url : String) : Option String :=
  match matchLitThenId "/file/d/".data url.data with
  | some fid =>
      some ("https://drive.google.com/uc?export=download&id="
        ++ String.mk fid)
  | none =>
  match matchLitThenId "id=".data url.data with
  | some fid =>
      some ("https://drive.google.com/uc?export=download&id="
        ++ String.mk fid)
  | none =>
  match matchLitThenId "/d/".data url.data with
  | some fid =>
      some ("https://drive.google.com/uc?export=download&id="
        ++ String.mk fid)
  | none => none

/-- The extension probe order of `findVideoFile`. -/
def videoExtensions : List String := [".mp4", ".mkv", ".webm", ".mov"]

/-- The probe loop of `findVideoFile`, over the filesystem predicate
`fe` (the `fileExists` helper, passed as a parameter). -/
def findVideoFileAux (fe : String → Bool) (basePath : String) :
    List String → Option String
  | [] => none
  | ext :: rest =>
      if fe (basePath ++ ext) then some (basePath ++ ext)
      else findVideoFileAux fe basePath rest

/-- `findVideoFile`: first of `.mp4/.mkv/.webm/.mov` that exists next to
`basePath`, else `null`. -/
def findVideoFile (fe : String → Bool) (basePath : String) : Option String :=
  findVideoFileAux fe basePath videoExtensions

/-- JS `String.padStart(2, '0')`. -/
def padStart2 (s : String) : String :=
  String.mk (List.replicate (2 - s.length) '0') ++ s

/-- `generateOutputPath` from file-utils: `baseDir/courseDir/NN_module/
NN_lesson` with 1-based zero-padded indices (`sanitize-filename` passed
as the `safeName` parameter; `path.join` modeled as `/`-joining). -/
def generateOutputPath (safeName : String → String) (baseDir courseName : String)
    (moduleIndex : Nat) (moduleTitle : String) (lessonIndex : Nat)
    (lessonTitle : String) : String :=
  baseDir ++ "/" ++ safeName courseName ++ "/"
    ++ padStart2 (toString (moduleIndex + 1)) ++ "_" ++ safeName moduleTitle
    ++ "/"
    ++ padStart2 (toString (lessonIndex + 1)) ++ "_" ++ safeName lessonTitle

/-- The file-extension list `isLikelyFile` probes. -/
def fileExtensionsList : List String :=
  [".pdf", ".doc", ".docx", ".xls", ".xlsx", ".ppt", ".pptx", ".zip",
   ".rar", ".7z", ".txt", ".csv", ".mp3", ".wav", ".mp4", ".mov", ".avi",
   ".png", ".jpg", ".jpeg", ".gif", ".webp", ".svg"]

/-- The file-hosting URL patterns `isLikelyFile` probes. -/
def fileHostPatternsList : List String :=
  ["drive.google.com/file", "dropbox.com/s/", "dropbox.com/scl/",
   "dl.dropboxusercontent.com", "amazonaws.com", "s3.", "cloudfront.net",
   "cdn."]

/-- `isLikelyFile`: the lowercased URL contains a known file extension
or a known file-hosting pattern (`toLower` models
`String.prototype.toLowerCase`). -/
def isLikelyFile (toLower : String → String) (url : String) : Bool :=
  fileExtensionsList.any (fun e => strIncludes (toLower url) e)
    || fileHostPatternsList.any (fun p => strIncludes (toLower url) p)

/-- The skipped result `downloadModuleResources` emits for an external
link that does not look like a file. -/
def extLinkSkip (url : String) : ResourceResult :=
  { url := url, success := false, skipped := some true,
    skipReason := some "External link (not a file)" }

/-- The loop body of `downloadModuleResources`: walk the embedded links
with their indices; an `external`-typed link that is not likely a file
is recorded as skipped without any download, every other link goes
through `downloadResource`; a rejection propagates. -/
def downloadModuleResources (gdrive : String → Option String)
    (dropbox : String → String) (safeName : String → String)
    (net : String → NetOutcome) (urlOk : String → Bool)
    (resolveUrl : String → String → Option String)
    (getFname : String → Option String → String)
    (toLower : String → String) (outputDir : String) :
    Nat → List ExtractedLink → Except String (List ResourceResult)
  | _, [] => Except.ok []
  | i, link :: rest =>
      if link.type = LinkType.extLink
          ∧ isLikelyFile toLower link.url = false then
        match downloadModuleResources gdrive dropbox safeName net urlOk
            resolveUrl getFname toLower outputDir (i + 1) rest with
        | Except.ok rs => Except.ok (extLinkSkip link.url :: rs)
        | Except.error e => Except.error e
      else
        match downloadResource gdrive dropbox safeName net urlOk resolveUrl
            getFname link outputDir i with
        | Except.error e => Except.error e
        | Except.ok r =>
            match downloadModuleResources gdrive dropbox safeName net urlOk
                resolveUrl getFname toLower outputDir (i + 1) rest with
            | Except.ok rs => Except.ok (r :: rs)
            | Except.error e => Except.error e

/-- ASCII `toLowerCase` at string level (URLs and MIME strings in this
program are ASCII). -/
def jsToLower (s : String) : String :=
  String.mk (s.data.map Char.toLower)

/-- `detectLinkType` from the content extractor: classify a URL by
substring probes on its lowercased form, in source order. -/
def detectLinkType (toLower : String → String) (url : String) : LinkType :=
  if strIncludes (toLower url) ".pdf" || strIncludes (toLower url) "/pdf/" then
    LinkType.pdf
  else if strIncludes (toLower url) "docs.google.com"
      || strIncludes (toLower url) "drive.google.com/file" then
    LinkType.googleDoc
  else if strIncludes (toLower url) "drive.google.com" then
    LinkType.googleDrive
  else if strIncludes (toLower url) "notion.site"
      || strIncludes (toLower url) "notion.so" then
    LinkType.notionPage
  else LinkType.extLink

/-- `Resource` from the content extractor (`type` is the
`attachment`/`link` string union). -/
structure ResourceItem where
  title : String
  link : String
  rkind : String
deriving Repr

/-- `ModuleContent` from the content extractor. -/
structure ModuleContent where
  description : String
  htmlContent : String
  markdownContent : String
  resources : List ResourceItem
  embeddedLinks : List ExtractedLink
deriving Repr

/-- The string each `LinkType` renders as in `*(type)*` annotations. -/
def linkTypeStr : LinkType → String
  | LinkType.pdf => "pdf"
  | LinkType.googleDoc => "google-doc"
  | LinkType.googleDrive => "google-drive"
  | LinkType.notionPage => "notion"
  | LinkType.extLink => "external"
  | LinkType.unknownLink => "unknown"

/-- Concatenate the per-item lines of a markdown bullet list. -/
def mdLines {α : Type} (f : α → String) (xs : List α) : String :=
  (xs.map f).foldr (· ++ ·) ""

/-- The markdown document `saveModuleContent` writes to
`outputDir/content.md` (`path.relative`/`path.basename` passed as
parameters; the `outputPath!` non-null assertion modeled as `getD ""`).
Returns the document together with the returned file path. -/
def saveModuleContent (relative : String → String → String)
    (basename : String → String) (content : ModuleContent)
    (moduleTitle outputDir : String)
    (resourceResults : List ResourceResult) : String × String :=
  let part1 := "# " ++ moduleTitle ++ "\n\n"
  let part2 :=
    if content.description = "" then ""
    else "## Description\n\n" ++ content.description ++ "\n\n"
  let part3 :=
    if content.markdownContent = "" then ""
    else "## Content\n\n" ++ content.markdownContent ++ "\n\n"
  let nonResourceLinks := content.embeddedLinks.filter
    (fun l => !(content.resources.any (fun r => r.link = l.url)))
  let part4 :=
    if 0 < content.resources.length ∨ 0 < content.embeddedLinks.length then
      "## Resources & Links\n\n"
      ++ (if 0 < content.resources.length then
            "### Attached Resources\n\n"
            ++ mdLines (fun r : ResourceItem =>
                  "- [" ++ r.title ++ "](" ++ r.link ++ ")\n")
                content.resources
            ++ "\n"
          else "")
      ++ (if 0 < nonResourceLinks.length then
            "### Links in Content\n\n"
            ++ mdLines (fun l : ExtractedLink =>
                  "- [" ++ l.text ++ "](" ++ l.url ++ ") *("
                    ++ linkTypeStr l.type ++ ")*\n")
                nonResourceLinks
            ++ "\n"
          else "")
    else ""
  let successfulDownloads := resourceResults.filter (fun r => r.success)
  let part5 :=
    if 0 < successfulDownloads.length then
      "## Downloaded Files\n\n"
      ++ mdLines (fun r : ResourceResult =>
            "- [" ++ basename (r.outputPath.getD "") ++ "](./"
              ++ relative outputDir (r.outputPath.getD "") ++ ")\n")
          successfulDownloads
      ++ "\n"
    else ""
  let skippedOrFailed := resourceResults.filter (fun r => !r.success)
  let part6 :=
    if 0 < skippedOrFailed.length then
      "## Notes\n\n" ++ "Some resources could not be downloaded:\n"
      ++ mdLines (fun r : ResourceResult =>
            "- " ++ r.url ++ ": "
              ++ jsOrStr r.skipReason (jsOrStr r.error "Unknown error")
              ++ "\n")
          skippedOrFailed
      ++ "\n"
    else ""
  (part1 ++ part2 ++ part3 ++ part4 ++ part5 ++ part6,
   outputDir ++ "/content.md")

/-- The `VideoProvider` string union from the video extractor. -/
inductive VideoProvider where
  | wistia
  | vimeo
  | youtube
  | loom
  | native
  | unknownProv
deriving DecidableEq, Repr

/-- `VideoInfo` from the video extractor (`url` is `string | null`). -/
structure VideoInfo where
  provider : VideoProvider
  url : Option String
  embedUrl : Option String := none
  videoId : Option String := none
deriving Repr

/-- JS truthiness of a `string | null | undefined` value. -/
def jsTruthy : Option String → Bool
  | some s => !(s = "")
  | none => false

/-- `detectProvider` from the video extractor: substring probes on the
raw URL, in source order. -/
def detectProvider (url : String) : VideoProvider :=
  if strIncludes url "wistia.com" || strIncludes url "wistia.net" then
    VideoProvider.wistia
  else if strIncludes url "vimeo.com"
      || strIncludes url "player.vimeo.com" then
    VideoProvider.vimeo
  else if strIncludes url "youtube.com" || strIncludes url "youtu.be" then
    VideoProvider.youtube
  else if strIncludes url "loom.com" then
    VideoProvider.loom
  else if strIncludes url ".m3u8" || strIncludes url "skool.com" then
    VideoProvider.native
  else VideoProvider.unknownProv

/-- First two segments of `String.split(c)` (what the Vimeo `id:hash`
destructuring reads). -/
def splitFirstTwo (c : Char) (cs : List Char) : List Char × List Char :=
  (cs.takeWhile (fun x => !(x = c)),
   (cs.drop ((cs.takeWhile (fun x => !(x = c))).length + 1)).takeWhile
     (fun x => !(x = c)))

/-- `getDownloadableUrl` from the video extractor: `null` when both
`url` and `videoId` are missing, otherwise a provider-specific URL
built from the video id, falling back to `info.url`. -/
def getDownloadableUrl (info : VideoInfo) : Option String :=
  if !jsTruthy info.url && !jsTruthy info.videoId then none
  else
    match info.provider with
    | VideoProvider.wistia =>
        if jsTruthy info.videoId then
          some ("https://fast.wistia.com/embed/medias/"
            ++ info.videoId.getD "")
        else info.url
    | VideoProvider.vimeo =>
        if jsTruthy info.videoId then
          if strIncludes (info.videoId.getD "") ":" then
            some ("https://player.vimeo.com/video/"
              ++ String.mk (splitFirstTwo ':' (info.videoId.getD "").data).1
              ++ "?h="
              ++ String.mk (splitFirstTwo ':' (info.videoId.getD "").data).2)
          else some ("https://vimeo.com/" ++ info.videoId.getD "")
        else info.url
    | VideoProvider.youtube =>
        if jsTruthy info.videoId then
          some ("https://www.youtube.com/watch?v=" ++ info.videoId.getD "")
        else info.url
    | VideoProvider.loom =>
        if jsTruthy info.videoId then
          some ("https://www.loom.com/share/" ++ info.videoId.getD "")
        else info.url
    | VideoProvider.native => info.url
    | VideoProvider.unknownProv => info.url

/-- `s.endsWith(pat)`. -/
def strEndsWith (s pat : String) : Bool :=
  startsWithChars pat.data.reverse s.data.reverse

/-- `isPubliclyDownloadable` from the content extractor: exact-suffix
file extensions, Drive `/file/d/` links, public Notion pages (excluding
`/login`), and Dropbox share links. -/
def isPubliclyDownloadable (toLower : String → String) (url : String) : Bool :=
  strEndsWith (toLower url) ".pdf"
  || strEndsWith (toLower url) ".doc"
  || strEndsWith (toLower url) ".docx"
  || strEndsWith (toLower url) ".xls"
  || strEndsWith (toLower url) ".xlsx"
  || strEndsWith (toLower url) ".ppt"
  || strEndsWith (toLower url) ".pptx"
  || strEndsWith (toLower url) ".zip"
  || strEndsWith (toLower url) ".txt"
  || (strIncludes (toLower url) "drive.google.com"
      && strIncludes (toLower url) "/file/d/")
  || (strIncludes (toLower url) "notion.site"
      || (strIncludes (toLower url) "notion.so"
          && !(strIncludes (toLower url) "/login")))
  || (strIncludes (toLower url) "dropbox.com"
      && (strIncludes (toLower url) "/s/"
          || strIncludes (toLower url) "dl="))

/-- Reading a property of a parsed JSON element: `null` elements make
the property access throw (collapsing the whole `map` to the caught
path), other non-objects give `undefined`, objects give the field when
present. -/
def resField (k : String) : Json → Option (Option Json)
  | Json.null => none
  | Json.obj fs => some ((fs.find? (fun p => p.1 = k)).map (fun p => p.2))
  | _ => some none

/-- The `(r.title, r.link)` pair read off one parsed element. -/
def resElem (e : Json) : Option (Option Json × Option Json) :=
  match resField "title" e, resField "link" e with
  | some t, some l => some (t, l)
  | _, _ => none

/-- The `parsed.map(...)` body of `parseResources`: any throwing element
aborts the whole mapping. -/
def parseResourcesAux : List Json → Option (List (Option Json × Option Json))
  | [] => some []
  | e :: es =>
      match resElem e, parseResourcesAux es with
      | some p, some ps => some (p :: ps)
      | _, _ => none

/-- `parseResources` from the content extractor: falsy or `'[]'` input
gives `[]`; a parse error, a non-array document, or a throwing element
is caught and gives `[]`; otherwise the `title`/`link` fields of each
element (each produced `Resource` also carries the constant
`'attachment'` type). -/
def parseResources (resourcesJson : Option String) :
    List (Option Json × Option Json) :=
  match resourcesJson with
  | none => []
  | some s =>
      if s = "" ∨ s = "[]" then []
      else
        match Json.parse s with
        | some (Json.arr elems) =>
            match parseResourcesAux elems with
            | some ps => ps
            | none => []
        | _ => []

/-- `path.dirname` for ordinary slash-separated paths: everything
before the last `/`, or `.` when there is none. -/
def dirnameOf (p : String) : String :=
  if p.data.any (fun c => c = '/') then
    String.mk ((p.data.reverse.dropWhile (fun c => !(c = '/'))).reverse.dropLast)
  else "."

/-- `path.extname` for ordinary filenames: the suffix from the last `.`
of the basename, empty when there is no dot or the dot is the first
character. -/
def extnameChars (base : List Char) : List Char :=
  if base.any (fun c => c = '.') then
    if ((base.reverse.takeWhile (fun c => !(c = '.'))).reverse).length + 1
        = base.length then []
    else '.' :: (base.reverse.takeWhile (fun c => !(c = '.'))).reverse
  else []

/-- The subtitle suffixes the migration script probes next to each
video. -/
def subtitleExts : List String := [".srt", ".vtt", ".en.srt", ".en.vtt"]

/-- One iteration of `planMigration` (the migration script): skip
already-migrated `video.mp4/.mkv/.webm` files, otherwise move the video
into a directory named after it and take along any subtitle file that
exists (`fs.access` passed as the `exists_` predicate).  Actions are
`(from, to)` pairs. -/
def planOne (exists_ : String → Bool) (videoPath : String) :
    List (String × String) :=
  let dir := dirnameOf videoPath
  let filename := String.mk (afterLastSlash videoPath.data)
  let ext := String.mk (extnameChars (afterLastSlash videoPath.data))
  let base := String.mk
    (filename.data.take (filename.data.length - ext.data.length))
  if filename = "video.mp4" ∨ filename = "video.mkv"
      ∨ filename = "video.webm" then []
  else
    (videoPath, dir ++ "/" ++ base ++ "/video" ++ ext) ::
    subtitleExts.filterMap (fun subExt =>
      if exists_ (dir ++ "/" ++ base ++ subExt) then
        some (dir ++ "/" ++ base ++ subExt,
          dir ++ "/" ++ base ++ "/video" ++ subExt)
      else none)

/-- `planMigration`: the concatenated per-video actions, in input
order. -/
def planMigration (exists_ : String → Bool) :
    List String → List (String × String)
  | [] => []
  | v :: vs => planOne exists_ v ++ planMigration exists_ vs

/-- `findOutputFile` from `yt-dlp-wrapper`: list the directory of
`basePath` (`readdir` result passed in; `none` models the caught
read error) and return the first entry whose name starts with the
basename, joined back onto the directory. -/
def findOutputFile (readdir : Option (List String)) (basePath : String) :
    Option String :=
  match readdir with
  | none => none
  | some files =>
      match files.find? (fun f =>
          startsWithChars (afterLastSlash basePath.data) f.data) with
      | some m => some (dirnameOf basePath ++ "/" ++ m)
      | none => none

/-- Leftmost match of `skool\.com\/([^\/]+)`: the literal followed by a
maximal nonempty run of non-slash characters. -/
def matchLitThenNonSlash (lit : List Char) : List Char → Option (List Char)
  | [] => none
  | c :: cs =>
      if startsWithChars lit (c :: cs) then
        if ((c :: cs).drop lit.length).takeWhile (fun x => !(x = '/'))
            = [] then
          matchLitThenNonSlash lit cs
        else
          some (((c :: cs).drop lit.length).takeWhile (fun x => !(x = '/')))
      else matchLitThenNonSlash lit cs

/-- `extractSlug` from the course crawler: the path segment after
`skool.com/`, or `'unknown'` when the URL does not match. -/
def extractSlug (url : String) : String :=
  match matchLitThenNonSlash ("skool.com/").data url.data with
  | some cap => jsOrStr (some (String.mk cap)) "unknown"
  | none => "unknown"

/-- The `Config` interface. -/
structure Config where
  stateDir : String
  downloadDir : String
  cookiesFile : String
  chromeUserDataDir : String
  concurrency : Nat
  quality : String
  downloadSubs : Bool
  subsLang : String
  delayBetweenPages : Nat
  delayBetweenDownloads : Nat
deriving Repr, DecidableEq

/-- `defaultConfig` (the `os.homedir()` platform call passed in). -/
def defaultConfig (homedir : String) : Config :=
  { stateDir := ".skool-state"
    downloadDir := "./downloads"
    cookiesFile := ".skool-state/cookies.json"
    chromeUserDataDir :=
      homedir ++ "/Library/Application Support/Google/Chrome"
    concurrency := 2
    quality := "best"
    downloadSubs := true
    subsLang := "en"
    delayBetweenPages := 2000
    delayBetweenDownloads := 1000 }

/-- `Partial<Config>`: an absent property leaves the default in place. -/
structure ConfigOverrides where
  stateDir : Option String := none
  downloadDir : Option String := none
  cookiesFile : Option String := none
  chromeUserDataDir : Option String := none
  concurrency : Option Nat := none
  quality : Option String := none
  downloadSubs : Option Bool := none
  subsLang : Option String := none
  delayBetweenPages : Option Nat := none
  delayBetweenDownloads : Option Nat := none

/-- `getConfig`: the object-spread merge `\x7b...defaultConfig,
...overrides\x7d`. -/
def getConfig (homedir : String) (o : ConfigOverrides) : Config :=
  { stateDir := o.stateDir.getD (defaultConfig homedir).stateDir
    downloadDir := o.downloadDir.getD (defaultConfig homedir).downloadDir
    cookiesFile := o.cookiesFile.getD (defaultConfig homedir).cookiesFile
    chromeUserDataDir :=
      o.chromeUserDataDir.getD (defaultConfig homedir).chromeUserDataDir
    concurrency := o.concurrency.getD (defaultConfig homedir).concurrency
    quality := o.quality.getD (defaultConfig homedir).quality
    downloadSubs := o.downloadSubs.getD (defaultConfig homedir).downloadSubs
    subsLang := o.subsLang.getD (defaultConfig homedir).subsLang
    delayBetweenPages :=
      o.delayBetweenPages.getD (defaultConfig homedir).delayBetweenPages
    delayBetweenDownloads :=
      o.delayBetweenDownloads.getD
        (defaultConfig homedir).delayBetweenDownloads }

/-- `DownloadOptions` from `yt-dlp-wrapper` (`provider` is a string
union in the source). -/
structure DownloadOptions where
  url : String
  outputPath : String
  provider : String
  cookiesFile : Option String := none
  downloadSubs : Bool
  subsLang : String
  referer : Option String := none
deriving Repr

/-- `if (options.cookiesFile) args.push('--cookies', ...)`. -/
def cookieArgs (o : DownloadOptions) : List String :=
  match o.cookiesFile with
  | some c => if c = "" then [] else ["--cookies", c]
  | none => []

/-- `buildArgs` from `yt-dlp-wrapper`. -/
def buildArgs (o : DownloadOptions) : List String :=
  ["-o", o.outputPath ++ ".%(ext)s"]
    ++ ["-f", "bestvideo+bestaudio/best"]
    ++ ["--merge-output-format", "mp4"]
    ++ ["--no-playlist"]
    ++ (if o.downloadSubs then
          ["--write-subs", "--sub-langs", o.subsLang, "--embed-subs"]
        else [])
    ++ (if o.provider = "wistia" then
          cookieArgs o
            ++ ["--referer", jsOrStr o.referer "https://www.skool.com/"]
        else if o.provider = "vimeo" then
          cookieArgs o
            ++ (match o.referer with
                | some r => if r = "" then [] else ["--referer", r]
                | none => [])
        else if o.provider = "youtube" then
          ["--cookies-from-browser", "chrome"]
        else if o.provider = "loom" then cookieArgs o
        else if o.provider = "native" then
          cookieArgs o
            ++ ["--referer", "https://www.skool.com/", "--add-header",
                "User-Agent: Mozilla/5.0 (Macintosh; Intel Mac OS X 10_15_7) AppleWebKit/537.36"]
        else cookieArgs o)
    ++ ["--progress", "--newline", "--no-overwrites", "--retries", "3",
        "--fragment-retries", "3", o.url]

/-- How the awaited `execa('yt-dlp', args)` ended. -/
structure ExecaOutcome where
  failed : Bool
  message : String := ""
  stderr : String := ""
deriving Repr

/-- `DownloadResult` from `yt-dlp-wrapper`. -/
structure VideoResult where
  success : Bool
  outputFile : Option String := none
  error : Option String := none
deriving Repr, DecidableEq

/-- `downloadVideo`: the whole body is inside `try/catch`, so it always
resolves.  On failure the error message is refined from `stderr` when
non-empty; `found` is `findOutputFile`'s directory scan (external). -/
def downloadVideo (o : DownloadOptions) (exe : ExecaOutcome)
    (found : Option String) : VideoResult :=
  let _args := buildArgs o
  if exe.failed then
    let errorMessage :=
      if exe.stderr ≠ "" then
        if strIncludes exe.stderr "Video unavailable" then
          "Video is unavailable or private"
        else if strIncludes exe.stderr "403" then
          "Access denied - may need fresh cookies"
        else if strIncludes exe.stderr "404" then "Video not found"
        else exe.message
      else exe.message
    { success := false, error := some errorMessage }
  else { success := true, outputFile := found, error := none }

/-!
### Scheduler (`DownloadQueue.processDownload`)

The worker body for one dequeued item, as a state transformer on the
ledger that also emits the sequence of observable calls it makes.
-/

/-- `QueuedDownload` from `download-queue`. -/
structure QueuedDownload where
  lesson : LessonState
  downloadUrl : String
  outputPath : String
  cookiesFile : Option String := none
  referer : Option String := none
  downloadSubs : Bool
  subsLang : String

/-- Observable calls made by `processDownload`, in order
(`evEnsureDir` is the awaited `ensureDir(path.dirname(outputPath))`
between `markStarted` and the executor invocation). -/
inductive QEvent where
  | evStarted (id : String)
  | evEnsureDir (dir : String)
  | evExec (url : String)
  | evCompleted (id path : String)
  | evFailed (id err : String)
deriving DecidableEq, Repr

/-- Whether an event is a terminal ledger transition. -/
def isTerminalEv : QEvent → Bool
  | QEvent.evCompleted _ _ => true
  | QEvent.evFailed _ _ => true
  | _ => false

/-- The `DownloadOptions` `processDownload` builds
(`provider = lesson.videoProvider || 'unknown'`). -/
def optionsOf (d : QueuedDownload) : DownloadOptions :=
  { url := d.downloadUrl, outputPath := d.outputPath,
    provider := jsOrStr d.lesson.videoProvider "unknown",
    cookiesFile := d.cookiesFile, downloadSubs := d.downloadSubs,
    subsLang := d.subsLang, referer := d.referer }

/-- `DownloadQueue.processDownload`: `markStarted`, the awaited
`ensureDir(path.dirname(outputPath))`, invoke the media executor, then
exactly one of `markCompleted` (`result.outputFile || outputPath`) or
`markFailed` (`result.error || 'Unknown error'`).  `ensureDirErr`
models `fs.mkdir`: `some e` is a rejection, which escapes the (un-try/
caught) worker body — the third component is the uncaught rejection,
and on that path the ledger keeps only the `markStarted` mutation with
no terminal transition. -/
def processDownload (ensureDirErr : String → Option String)
    (exe : ExecaOutcome) (found : Option String)
    (st : CourseState) (d : QueuedDownload) :
    CourseState × List QEvent × Option String :=
  let st1 := markStarted st d.lesson.id
  match ensureDirErr (dirnameOf d.outputPath) with
  | some e =>
      (st1,
       [QEvent.evStarted d.lesson.id,
        QEvent.evEnsureDir (dirnameOf d.outputPath)],
       some e)
  | none =>
      let result := downloadVideo (optionsOf d) exe found
      if result.success then
        let outPath := jsOrStr result.outputFile d.outputPath
        (markCompleted st1 d.lesson.id outPath,
         [QEvent.evStarted d.lesson.id,
          QEvent.evEnsureDir (dirnameOf d.outputPath),
          QEvent.evExec d.downloadUrl,
          QEvent.evCompleted d.lesson.id outPath],
         none)
      else
        let err := jsOrStr result.error "Unknown error"
        (markFailed st1 d.lesson.id err,
         [QEvent.evStarted d.lesson.id,
          QEvent.evEnsureDir (dirnameOf d.outputPath),
          QEvent.evExec d.downloadUrl,
          QEvent.evFailed d.lesson.id err],
         none)

/-! ### Concrete instances for witnesses and counterexamples -/

/-- A network where every URL answers 302 redirecting to itself. -/
def loopNet : String → NetOutcome :=
  fun u => NetOutcome.resp { statusCode := 302, location := some u }

/-- A network where every URL answers 403. -/
def authNet : String → NetOutcome :=
  fun _ => NetOutcome.resp { statusCode := 403 }

/-- A network that refuses every connection. -/
def noNet : String → NetOutcome :=
  fun _ => NetOutcome.netError "connect ECONNREFUSED"

/-- URL-validity model: `new URL` needs a scheme. -/
def urlHasScheme (s : String) : Bool :=
  strIncludes s "://"

/-- Accept every URL. -/
def allUrlsOk : String → Bool := fun _ => true

/-- Resolution model for absolute redirect targets:
`new URL(abs, base).href = abs`. -/
def keepUrl : String → String → Option String := fun loc _ => some loc

/-- A `getFilenameFromUrl` instance that never finds a filename. -/
def noFname : String → Option String → String := fun _ _ => ""

/-- A Google-Drive converter that never matches. -/
def noConv : String → Option String := fun _ => none

/-- Identity stand-ins for `getDropboxDirectUrl` / `safeFilename`. -/
def idConv : String → String := fun s => s

/-- A concrete non-Notion resource link. -/
def sampleLink : ExtractedLink :=
  { text := "Doc", url := "http://files.example/doc.pdf",
    type := LinkType.pdf }

/-- Concrete media-executor options. -/
def sampleOpts : DownloadOptions :=
  { url := "http://x/v", outputPath := "out/video", provider := "wistia",
    downloadSubs := false, subsLang := "en" }

/-- A failed `execa` outcome with a 403 in stderr. -/
def failedExe : ExecaOutcome :=
  { failed := true, message := "Command failed with exit code 1",
    stderr := "ERROR: unable to download video data: HTTP Error 403" }

/-- A concrete queued download for the sample lesson. -/
def sampleQueued : QueuedDownload :=
  { lesson := sampleSeed.toLesson, downloadUrl := "http://x/v",
    outputPath := "out/01_m/01_t", downloadSubs := false, subsLang := "en" }

/-- An `fs.mkdir` that always resolves. -/
def mkdirOk : String → Option String := fun _ => none

/-- An `fs.mkdir` that always rejects (e.g. a permission error). -/
def mkdirDenied : String → Option String :=
  fun _ => some "EACCES: permission denied"

/-!
### A structural scanner for JSON text

Used to show that a partially-written state file — a strict prefix of
the serialized state — can never parse: any successful parse consumes a
bracket-balanced, string-closed piece of text, while every nonempty
strict prefix of the serializer's output is unbalanced.
-/

/-- Scanner mode: outside any string literal, inside one, or right
after a backslash inside one. -/
inductive SMode where
  | out
  | strMode
  | escMode
deriving DecidableEq, Repr

/-- Scanner state: net brace/bracket depth and string mode. -/
structure SState where
  depth : Int
  mode : SMode
deriving DecidableEq, Repr

/-- One scanner step. -/
def scanChar (s : SState) (c : Char) : SState :=
  match s.mode with
  | SMode.out =>
      if c = '"' then { s with mode := SMode.strMode }
      else if c = '{' ∨ c = '[' then { s with depth := s.depth + 1 }
      else if c = '}' ∨ c = ']' then { s with depth := s.depth - 1 }
      else s
  | SMode.strMode =>
      if c = '"' then { s with mode := SMode.out }
      else if c = '\\' then { s with mode := SMode.escMode }
      else s
  | SMode.escMode => { s with mode := SMode.strMode }

/-- Scan a character list. -/
def scanList (s : SState) (cs : List Char) : SState :=
  cs.foldl scanChar s

/-- A character the scanner ignores in `out` mode and that cannot open
or close a string. -/
def plainChar (c : Char) : Bool :=
  !(c = '"' || c = '\\' || c = '{' || c = '}' || c = '[' || c = ']')

/-- A piece of text that is scanner-neutral from `out` mode and whose
prefixes never take the depth below the starting depth. -/
def GoodPiece (C : List Char) : Prop :=
  (∀ d : Int, scanList ⟨d, SMode.out⟩ C = ⟨d, SMode.out⟩)
  ∧ ∀ (d : Int) (pre : List Char), pre <+: C →
      d ≤ (scanList ⟨d, SMode.out⟩ pre).depth

/-- A string-literal body: scanned from inside a string it ends inside
the string, and no prefix changes the depth. -/
def StrPiece (C : List Char) : Prop :=
  (∀ d : Int, scanList ⟨d, SMode.strMode⟩ C = ⟨d, SMode.strMode⟩)
  ∧ ∀ (d : Int) (pre : List Char), pre <+: C →
      (scanList ⟨d, SMode.strMode⟩ pre).depth = d

/-- Values whose number lexemes contain no structural characters (true
of everything this program serializes: decimal integers). -/
inductive ScanOk : Json → Prop
  | null : ScanOk Json.null
  | bool (b : Bool) : ScanOk (Json.bool b)
  | num (lex : String) (h : ∀ c ∈ lex.data, plainChar c = true) :
      ScanOk (Json.num lex)
  | str (s : String) : ScanOk (Json.str s)
  | arr (xs : List Json) (h : ∀ x ∈ xs, ScanOk x) : ScanOk (Json.arr xs)
  | obj (fs : List (String × Json)) (h : ∀ kv ∈ fs, ScanOk kv.2) :
      ScanOk (Json.obj fs)

/-- The values `JSON.stringify` is fed by this program: every number
lexeme is a decimal integer rendering (`intLex` / `natLex`). -/
inductive RTval : Json → Prop
  | null : RTval Json.null
  | bool (b : Bool) : RTval (Json.bool b)
  | str (s : String) : RTval (Json.str s)
  | numInt (i : Int) : RTval (Json.num (intLex i))
  | numNat (n : Nat) : RTval (Json.num (natLex n))
  | arr (xs : List Json) (h : ∀ x ∈ xs, RTval x) : RTval (Json.arr xs)
  | obj (fs : List (String × Json)) (h : ∀ kv ∈ fs, RTval kv.2) :
      RTval (Json.obj fs)

/-- Text that can follow a number lexeme in the renderer's output: end
of input, a separator, or a closing bracket (never a digit, `.`, `e`). -/
def numStop (cs : List Char) : Prop :=
  cs = [] ∨ ∃ c cs2, cs = c :: cs2
    ∧ (c = ',' ∨ c = '\n' ∨ c = '\x7d' ∨ c = ']')

end SkoolDl

namespace SkoolDl

/-! ### Helper lemmas about the ledger -/

theorem applyUpdate_id (u : LessonUpdate) (l : LessonState) :
    (applyUpdate u l).id = l.id := rfl

theorem attempts_applyUpdate_none (u : LessonUpdate) (l : LessonState)
    (h : u.attempts = none) : (applyUpdate u l).attempts = l.attempts := by
  simp [applyUpdate, h]

theorem find_updateFirst_self (u : LessonUpdate) (id : String)
    (ls : List LessonState) :
    (updateFirst (fun l => l.id == id) (applyUpdate u) ls).find?
        (fun l => l.id == id)
      = (ls.find? (fun l => l.id == id)).map (applyUpdate u) := by
  induction ls with
  | nil => rfl
  | cons x xs ih =>
    by_cases h : (x.id == id) = true
    · simp [updateFirst, h, List.find?, applyUpdate_id]
    · simp [updateFirst, h, List.find?, applyUpdate_id, ih]

theorem find_updateFirst_other (u : LessonUpdate) (tid id : String)
    (h : id ≠ tid) (ls : List LessonState) :
    (updateFirst (fun l => l.id == tid) (applyUpdate u) ls).find?
        (fun l => l.id == id)
      = ls.find? (fun l => l.id == id) := by
  induction ls with
  | nil => rfl
  | cons x xs ih =>
    by_cases hx : (x.id == tid) = true
    · have hxid : x.id = tid := by simpa using hx
      have hno : (x.id == id) = false := by
        rw [hxid]; exact beq_eq_false_iff_ne.mpr (Ne.symm h)
      simp [updateFirst, hx, List.find?, applyUpdate_id, hno]
    · by_cases hxi : (x.id == id) = true
      · simp [updateFirst, hx, List.find?, hxi]
      · simp [updateFirst, hx, List.find?, hxi, ih]

theorem getLesson_updateLesson_self (st : CourseState) (tid : String)
    (u : LessonUpdate) :
    getLesson (updateLesson st tid u) tid
      = (getLesson st tid).map (applyUpdate u) :=
  find_updateFirst_self u tid st.lessons

theorem getLesson_updateLesson_other (st : CourseState) (tid id : String)
    (u : LessonUpdate) (h : id ≠ tid) :
    getLesson (updateLesson st tid u) id = getLesson st id :=
  find_updateFirst_other u tid id h st.lessons

theorem find_append_none {p : LessonState → Bool} {l₁ : List LessonState}
    (l₂ : List LessonState) (h : l₁.find? p = none) :
    (l₁ ++ l₂).find? p = l₂.find? p := by
  induction l₁ with
  | nil => rfl
  | cons x xs ih =>
    by_cases hx : p x = true
    · rw [List.find?_cons_of_pos _ hx] at h; cases h
    · rw [List.find?_cons_of_neg _ hx] at h
      rw [List.cons_append, List.find?_cons_of_neg _ hx, ih h]

theorem find_append_some {p : LessonState → Bool} {l₁ : List LessonState}
    {x : LessonState} (l₂ : List LessonState) (h : l₁.find? p = some x) :
    (l₁ ++ l₂).find? p = some x := by
  induction l₁ with
  | nil => cases h
  | cons y ys ih =>
    by_cases hy : p y = true
    · rw [List.find?_cons_of_pos _ hy] at h
      rw [List.cons_append, List.find?_cons_of_pos _ hy]; exact h
    · rw [List.find?_cons_of_neg _ hy] at h
      rw [List.cons_append, List.find?_cons_of_neg _ hy, ih h]

theorem isPendingLesson_iff (l : LessonState) :
    isPendingLesson l = true
      ↔ (l.status = Status.pending
          ∨ (l.status = Status.failed ∧ l.attempts < 3)) := by
  simp [isPendingLesson, Bool.or_eq_true, Bool.and_eq_true, beq_iff_eq,
    decide_eq_true_eq]

theorem status_partition (ls : List LessonState) :
    (ls.filter (fun l => l.status == Status.completed)).length
      + (ls.filter (fun l => l.status == Status.failed)).length
      + (ls.filter (fun l => l.status == Status.pending)).length
      + (ls.filter (fun l => l.status == Status.skipped)).length
      + (ls.filter (fun l => l.status == Status.downloading)).length
      = ls.length := by
  induction ls with
  | nil => rfl
  | cons x xs ih =>
    cases hx : x.status <;> simp [List.filter_cons, hx] <;> omega

/-! ### Claim theorems -/

/-- C1: `getPendingLessons` returns exactly the lessons whose status is
`pending` together with the `failed` ones having fewer than 3 attempts,
as a sublist of the ledger's lesson list (hence in original insertion
order); lessons with any other status are never included. -/
theorem c1_getPending_exact (st : CourseState) :
    List.Sublist (getPendingLessons st) st.lessons
      ∧ (∀ l, l ∈ getPendingLessons st
            ↔ l ∈ st.lessons
              ∧ (l.status = Status.pending
                  ∨ (l.status = Status.failed ∧ l.attempts < 3)))
      ∧ (∀ l ∈ getPendingLessons st,
          l.status ≠ Status.completed ∧ l.status ≠ Status.skipped
            ∧ l.status ≠ Status.downloading) := by
  refine ⟨List.filter_sublist _, ?_, ?_⟩
  · intro l
    rw [getPendingLessons, List.mem_filter, isPendingLesson_iff]
  · intro l hl
    have hp := (isPendingLesson_iff l).mp (List.mem_filter.mp hl).2
    rcases hp with hp | ⟨hp, _⟩ <;> rw [hp] <;> exact by decide

/-- C1 witness: on the concrete one-lesson state, the pending lesson is
in `getPendingLessons`. -/
theorem c1_getPending_exact_witness :
    sampleSeed.toLesson ∈ getPendingLessons sampleState :=
  ((c1_getPending_exact sampleState).2.1 sampleSeed.toLesson).mpr (by decide)

/-- C4: `addLesson` is idempotent on `id`: adding the same seed twice is
the same as adding it once, and if the id is already present the call is
a strict no-op (the whole state, including the existing record's
`status`/`attempts`, is unchanged). -/
theorem c4_addLesson_idempotent (st : CourseState) (l : LessonSeed) :
    addLesson (addLesson st l) l = addLesson st l
      ∧ ((getLesson st l.id).isSome → addLesson st l = st) := by
  constructor
  · cases hf : st.lessons.find? (fun x => x.id == l.id) with
    | some y =>
      simp only [addLesson, hf]
    | none =>
      have hsingle :
          List.find? (fun x => x.id == l.id) [l.toLesson]
            = some l.toLesson := by
        simp [List.find?, LessonSeed.toLesson]
      simp only [addLesson, hf, find_append_none _ hf, hsingle]
  · intro h
    rcases Option.isSome_iff_exists.mp h with ⟨y, hy⟩
    simp only [getLesson] at hy
    simp only [addLesson, hy]

/-- C4 witness: re-adding the already-present seed leaves the concrete
state unchanged. -/
theorem c4_addLesson_idempotent_witness :
    addLesson sampleState sampleSeed = sampleState :=
  (c4_addLesson_idempotent sampleState sampleSeed).2 (by decide)

/-- `markStarted` increments the lesson's attempts by exactly one. -/
theorem markStarted_attempts (st : CourseState) (id : String)
    (l : LessonState) (hl : getLesson st id = some l) :
    (getLesson (markStarted st id) id).map (fun x => x.attempts)
      = some (l.attempts + 1) := by
  rw [markStarted, getLesson_updateLesson_self, hl]
  simp [applyUpdate, hl]

/-- `markFailed` leaves the lesson's attempts unchanged. -/
theorem markFailed_attempts (st : CourseState) (id err : String)
    (l : LessonState) (hl : getLesson st id = some l) :
    (getLesson (markFailed st id err) id).map (fun x => x.attempts)
      = some l.attempts := by
  rw [markFailed, getLesson_updateLesson_self, hl]
  simp [applyUpdate]

/-- `attempts` never decreases under a single ledger operation. -/
theorem attempts_mono_op :
    ∀ (op : LedgerOp) (st : CourseState) (id : String)
      (l l2 : LessonState),
      getLesson st id = some l → getLesson (applyOp op st) id = some l2 →
      l.attempts ≤ l2.attempts := by
  intro op st id l l2 hl hl2
  cases op with
  | addL s =>
    have : getLesson (applyOp (LedgerOp.addL s) st) id = some l := by
      simp only [applyOp]
      cases hf : st.lessons.find? (fun x => x.id == s.id) with
      | some y => simp only [addLesson, hf]; exact hl
      | none =>
        simp only [addLesson, hf, getLesson]
        exact find_append_some _ hl
    rw [this] at hl2
    cases hl2
    exact Nat.le_refl _
  | startL tid =>
    by_cases hid : id = tid
    · subst hid
      have := markStarted_attempts st id l hl
      simp only [applyOp] at hl2
      rw [hl2] at this
      simp only [Option.map_some', Option.some.injEq] at this
      omega
    · simp only [applyOp, markStarted] at hl2
      rw [getLesson_updateLesson_other _ _ _ _ hid, hl] at hl2
      cases hl2
      exact Nat.le_refl _
  | completeL tid p =>
    by_cases hid : id = tid
    · subst hid
      simp only [applyOp, markCompleted] at hl2
      rw [getLesson_updateLesson_self, hl] at hl2
      simp only [Option.map_some'] at hl2
      cases hl2
      simp [applyUpdate]
    · simp only [applyOp, markCompleted] at hl2
      rw [getLesson_updateLesson_other _ _ _ _ hid, hl] at hl2
      cases hl2
      exact Nat.le_refl _
  | failL tid e =>
    by_cases hid : id = tid
    · subst hid
      simp only [applyOp, markFailed] at hl2
      rw [getLesson_updateLesson_self, hl] at hl2
      simp only [Option.map_some'] at hl2
      cases hl2
      simp [applyUpdate]
    · simp only [applyOp, markFailed] at hl2
      rw [getLesson_updateLesson_other _ _ _ _ hid, hl] at hl2
      cases hl2
      exact Nat.le_refl _
  | skipL tid r =>
    by_cases hid : id = tid
    · subst hid
      simp only [applyOp, markSkipped] at hl2
      rw [getLesson_updateLesson_self, hl] at hl2
      simp only [Option.map_some'] at hl2
      cases hl2
      simp [applyUpdate]
    · simp only [applyOp, markSkipped] at hl2
      rw [getLesson_updateLesson_other _ _ _ _ hid, hl] at hl2
      cases hl2
      exact Nat.le_refl _
  | initL u n now =>
    simp only [applyOp, initCourse, getLesson] at hl2
    simp only [getLesson] at hl
    rw [hl] at hl2
    cases hl2
    exact Nat.le_refl _
  | setVideoL tid vu vp =>
    by_cases hid : id = tid
    · subst hid
      simp only [applyOp] at hl2
      rw [getLesson_updateLesson_self, hl] at hl2
      simp only [Option.map_some'] at hl2
      cases hl2
      simp [applyUpdate]
    · simp only [applyOp] at hl2
      rw [getLesson_updateLesson_other _ _ _ _ hid, hl] at hl2
      cases hl2
      exact Nat.le_refl _

/-- Every ledger operation except `initialize` preserves the presence of
a lesson (the lessons list is only ever appended to or updated in
place). -/
theorem getLesson_applyOp_preserved (op : LedgerOp) (st : CourseState)
    (id : String) (l : LessonState)
    (hni : ∀ u n now, op ≠ LedgerOp.initL u n now)
    (hl : getLesson st id = some l) :
    ∃ l2, getLesson (applyOp op st) id = some l2 := by
  cases op with
  | addL s =>
    refine ⟨l, ?_⟩
    simp only [applyOp]
    cases hf : st.lessons.find? (fun x => x.id == s.id) with
    | some y =>
      simp only [addLesson, hf]
      exact hl
    | none =>
      simp only [addLesson, hf, getLesson]
      exact find_append_some _ hl
  | startL tid =>
    by_cases hid : id = tid
    · subst hid
      apply Option.isSome_iff_exists.mp
      simp only [applyOp, markStarted]
      rw [getLesson_updateLesson_self, hl]
      rfl
    · refine ⟨l, ?_⟩
      simp only [applyOp, markStarted]
      rw [getLesson_updateLesson_other _ _ _ _ hid]
      exact hl
  | completeL tid p =>
    by_cases hid : id = tid
    · subst hid
      apply Option.isSome_iff_exists.mp
      simp only [applyOp, markCompleted]
      rw [getLesson_updateLesson_self, hl]
      rfl
    · refine ⟨l, ?_⟩
      simp only [applyOp, markCompleted]
      rw [getLesson_updateLesson_other _ _ _ _ hid]
      exact hl
  | failL tid e =>
    by_cases hid : id = tid
    · subst hid
      apply Option.isSome_iff_exists.mp
      simp only [applyOp, markFailed]
      rw [getLesson_updateLesson_self, hl]
      rfl
    · refine ⟨l, ?_⟩
      simp only [applyOp, markFailed]
      rw [getLesson_updateLesson_other _ _ _ _ hid]
      exact hl
  | skipL tid r =>
    by_cases hid : id = tid
    · subst hid
      apply Option.isSome_iff_exists.mp
      simp only [applyOp, markSkipped]
      rw [getLesson_updateLesson_self, hl]
      rfl
    · refine ⟨l, ?_⟩
      simp only [applyOp, markSkipped]
      rw [getLesson_updateLesson_other _ _ _ _ hid]
      exact hl
  | initL u n now => exact absurd rfl (hni u n now)
  | setVideoL tid vu vp =>
    by_cases hid : id = tid
    · subst hid
      apply Option.isSome_iff_exists.mp
      simp only [applyOp]
      rw [getLesson_updateLesson_self, hl]
      rfl
    · refine ⟨l, ?_⟩
      simp only [applyOp]
      rw [getLesson_updateLesson_other _ _ _ _ hid]
      exact hl

/-- `attempts` never decreases across any sequence of ledger operations
that does not re-initialize the course. -/
theorem attempts_mono_ops :
    ∀ (ops : List LedgerOp) (st : CourseState) (id : String)
      (l l2 : LessonState),
      (∀ op ∈ ops, ∀ u n now, op ≠ LedgerOp.initL u n now) →
      getLesson st id = some l →
      getLesson (ops.foldl (fun s op => applyOp op s) st) id = some l2 →
      l.attempts ≤ l2.attempts := by
  intro ops
  induction ops with
  | nil =>
    intro st id l l2 _ hl hl2
    rw [List.foldl_nil, hl] at hl2
    cases hl2
    exact Nat.le_refl _
  | cons op ops ih =>
    intro st id l l2 hni hl hl2
    rw [List.foldl_cons] at hl2
    obtain ⟨l1, hl1⟩ := getLesson_applyOp_preserved op st id l
      (hni op (List.mem_cons_self _ _)) hl
    exact Nat.le_trans (attempts_mono_op op st id l l1 hl hl1)
      (ih _ id l1 l2 (fun o ho => hni o (List.mem_cons_of_mem _ ho)) hl1
        hl2)

/-- C8: the `attempts` counter of a lesson (as observed through
`getLesson`) never decreases — under every single ledger operation, and
across every operation sequence that does not re-initialize the course;
`markStarted` increments it by exactly one; `markFailed` leaves it
unchanged. -/
theorem c8_attempts_monotone :
    (∀ (op : LedgerOp) (st : CourseState) (id : String)
        (l l2 : LessonState),
        getLesson st id = some l → getLesson (applyOp op st) id = some l2 →
        l.attempts ≤ l2.attempts)
      ∧ (∀ (ops : List LedgerOp) (st : CourseState) (id : String)
          (l l2 : LessonState),
          (∀ op ∈ ops, ∀ u n now, op ≠ LedgerOp.initL u n now) →
          getLesson st id = some l →
          getLesson (ops.foldl (fun s op => applyOp op s) st) id
            = some l2 →
          l.attempts ≤ l2.attempts)
      ∧ (∀ (st : CourseState) (id : String) (l : LessonState),
          getLesson st id = some l →
          (getLesson (markStarted st id) id).map (fun x => x.attempts)
            = some (l.attempts + 1))
      ∧ (∀ (st : CourseState) (id err : String) (l : LessonState),
          getLesson st id = some l →
          (getLesson (markFailed st id err) id).map (fun x => x.attempts)
            = some l.attempts) :=
  ⟨attempts_mono_op, attempts_mono_ops, markStarted_attempts,
   markFailed_attempts⟩

/-- C8 witness: on the concrete state, `markStarted` takes the lesson's
attempts from 0 to 1. -/
theorem c8_attempts_monotone_witness :
    (getLesson (markStarted sampleState "a") "a").map (fun x => x.attempts)
      = some (sampleSeed.toLesson.attempts + 1) :=
  c8_attempts_monotone.2.2.1 sampleState "a" sampleSeed.toLesson (by decide)

/-- C10: a lesson left in status `downloading` (e.g. by a crash) is never
returned by `getPendingLessons`, and it is counted in none of the four
`getStats` buckets: the buckets sum to `total` minus the number of
`downloading` lessons. -/
theorem c10_downloading_lost (st : CourseState) :
    (∀ l ∈ getPendingLessons st, l.status ≠ Status.downloading)
      ∧ (getStats st).completed + (getStats st).failed
          + (getStats st).pending + (getStats st).skipped
        = (getStats st).total
          - (st.lessons.filter
              (fun l => l.status == Status.downloading)).length := by
  constructor
  · intro l hl
    have hp := (isPendingLesson_iff l).mp (List.mem_filter.mp hl).2
    rcases hp with hp | ⟨hp, _⟩ <;> rw [hp] <;> exact by decide
  · have hp := status_partition st.lessons
    simp only [getStats]
    omega

/-- C10 witness: the concrete pending lesson is not `downloading`. -/
theorem c10_downloading_lost_witness :
    sampleSeed.toLesson.status ≠ Status.downloading :=
  (c10_downloading_lost sampleState).1 sampleSeed.toLesson (by decide)

/-- C2 counterexample: `save` has no temp-file-and-rename step — its
whole effect trace is `ensureDir` of the state directory followed by one
direct `writeFile` to the final state path; no rename occurs. -/
theorem c2_counterexample :
    (save "dir/slug-progress.json" "2024-01-02T00:00:00Z" sampleState).2
        = [FsOp.mkdirp "dir",
           FsOp.writeFile "dir/slug-progress.json"
             (serializeCourseState
               { sampleState with lastUpdated := "2024-01-02T00:00:00Z" })]
      ∧ ((save "dir/slug-progress.json" "2024-01-02T00:00:00Z"
            sampleState).2.any FsOp.isRename) = false :=
  ⟨rfl, rfl⟩

/-- C3 counterexample: the state-file content `\x7b\x7d` is corrupt (it is
not a serialized `CourseState`), yet `load` parses it, replaces the
in-memory state with it, and returns `true` — not `false` — and the
next `addLesson` then throws (`this.state.lessons` is `undefined`)
instead of succeeding as if starting fresh. -/
theorem c3_counterexample :
    Json.parse "\x7b\x7d" = some (Json.obj [])
      ∧ loadJson (jsonOfCourseState (createEmptyState "2024-01-01T00:00:00Z"))
          (FileRead.content "\x7b\x7d")
          = (true, Json.obj [])
      ∧ jsAddLesson (Json.obj []) sampleSeed = none :=
  ⟨rfl, rfl, rfl⟩

/-- C3 as amended: for file contents that fail JSON parsing (truncated
documents, invalid JSON), `load` returns `false` and leaves the fresh
empty state in place, and the next `addLesson` succeeds exactly as on a
fresh start, appending the seeded lesson. -/
theorem c3_corrupt_fresh_start (s : String) (seed : LessonSeed)
    (now : String) (h : Json.parse s = none) :
    loadJson (jsonOfCourseState (createEmptyState now)) (FileRead.content s)
        = (false, jsonOfCourseState (createEmptyState now))
      ∧ jsAddLesson (jsonOfCourseState (createEmptyState now)) seed
        = some (jsonOfCourseState (addLesson (createEmptyState now) seed)) := by
  refine ⟨by simp [loadJson, h], ?_⟩
  rfl

/-- C3 witness: a concrete truncated document is rejected and the next
`addLesson` seeds the fresh state. -/
theorem c3_corrupt_fresh_start_witness :
    loadJson (jsonOfCourseState (createEmptyState "T0"))
        (FileRead.content "\x7b\"url\": ")
        = (false, jsonOfCourseState (createEmptyState "T0"))
      ∧ jsAddLesson (jsonOfCourseState (createEmptyState "T0")) sampleSeed
        = some (jsonOfCourseState
            (addLesson (createEmptyState "T0") sampleSeed)) :=
  c3_corrupt_fresh_start "\x7b\"url\": " sampleSeed "T0" (by rfl)

/-- Every failing result of the response handler carries an error tag. -/
theorem handleResponse_tagged (g : String → Option String → String)
    (r : HttpResp) (url out : String) :
    (handleResponse g r url out).success = false →
    (handleResponse g r url out).error ≠ none := by
  unfold handleResponse
  cases hw : r.writeError <;> split_ifs <;> simp [hw]

/-- Unfolding `downloadFile` on a response with remaining hops. -/
theorem downloadFile_succ_resp (net : String → NetOutcome)
    (urlOk : String → Bool) (resolveUrl : String → String → Option String)
    (getFname : String → Option String → String) (f : Nat)
    (url out : String) (r : HttpResp)
    (hok : urlOk url = true) (hnet : net url = NetOutcome.resp r) :
    downloadFile net urlOk resolveUrl getFname (Nat.succ f) url out
      = if 300 ≤ r.statusCode ∧ r.statusCode < 400 then
          match r.location with
          | some loc =>
              (match resolveUrl loc url with
               | some absUrl =>
                   downloadFile net urlOk resolveUrl getFname f absUrl out
               | none => Except.error "Invalid URL")
          | none => Except.ok (handleResponse getFname r url out)
        else Except.ok (handleResponse getFname r url out) := by
  rw [downloadFile, hok, if_pos rfl, hnet]

/-- With a `new URL` model that accepts every string, `downloadFile`
always resolves, and a failing resolution is tagged. -/
theorem downloadFile_total (net : String → NetOutcome)
    (urlOk : String → Bool) (resolveUrl : String → String → Option String)
    (getFname : String → Option String → String)
    (hok : ∀ u, urlOk u = true)
    (hres : ∀ l b, (resolveUrl l b).isSome = true) :
    ∀ (fuel : Nat) (url out : String),
      ∃ res, downloadFile net urlOk resolveUrl getFname fuel url out
          = Except.ok res
        ∧ (res.success = false → res.error ≠ none) := by
  intro fuel
  induction fuel with
  | zero =>
    intro url out
    rw [downloadFile, hok url, if_pos rfl]
    cases hnet : net url with
    | netError m => exact ⟨_, rfl, by simp⟩
    | timeout => exact ⟨_, rfl, by simp⟩
    | resp r => exact ⟨_, rfl, handleResponse_tagged getFname r url out⟩
  | succ f ih =>
    intro url out
    cases hnet : net url with
    | netError m =>
      rw [downloadFile, hok url, if_pos rfl, hnet]
      exact ⟨_, rfl, by simp⟩
    | timeout =>
      rw [downloadFile, hok url, if_pos rfl, hnet]
      exact ⟨_, rfl, by simp⟩
    | resp r =>
      rw [downloadFile_succ_resp net urlOk resolveUrl getFname f url out r
        (hok url) hnet]
      by_cases hred : 300 ≤ r.statusCode ∧ r.statusCode < 400
      · rw [if_pos hred]
        cases hloc : r.location with
        | some loc =>
          rcases Option.isSome_iff_exists.mp (hres loc url) with ⟨abs, habs⟩
          simp only [habs]
          exact ih abs out
        | none => exact ⟨_, rfl, handleResponse_tagged getFname r url out⟩
      · rw [if_neg hred]
        exact ⟨_, rfl, handleResponse_tagged getFname r url out⟩

/-- A 302 response that is not followed falls through every failure
check of the response handler and is streamed to disk as a successful
download. -/
theorem handleResponse_302_page (url out : String) :
    handleResponse noFname { statusCode := 302, location := some url }
        url out
      = { success := true, finalPath := some out } := by
  have hext : getExtensionFromContentType "" = "" := rfl
  by_cases hx : extname out = ""
  · simp [handleResponse, noFname, hx, hext]
  · simp [handleResponse, hx]

/-- C5: pointed at a URL that redirects to itself, `downloadFile`
terminates for every hop budget — in particular the default 5 — but
instead of a bounded-hop failure it falls through once the budget is
exhausted and resolves with `success = true`, saving the last redirect
response's body as the output file. -/
theorem c5_redirect_loop_reports_success :
    (∀ (fuel : Nat) (url out : String),
        downloadFile loopNet allUrlsOk keepUrl noFname fuel url out
          = Except.ok { success := true, finalPath := some out })
      ∧ downloadFile loopNet allUrlsOk keepUrl noFname 5 "http://x/a" "out"
          = Except.ok { success := true, finalPath := some "out" } := by
  constructor
  · intro fuel
    induction fuel with
    | zero =>
      intro url out
      rw [downloadFile]
      simp [allUrlsOk, loopNet, handleResponse_302_page]
    | succ f ihf =>
      intro url out
      rw [downloadFile_succ_resp loopNet allUrlsOk keepUrl noFname f url out
        { statusCode := 302, location := some url } rfl rfl]
      rw [if_pos (show (300 : Nat) ≤ 302 ∧ (302 : Nat) < 400 by decide)]
      show downloadFile loopNet allUrlsOk keepUrl noFname f url out
        = Except.ok { success := true, finalPath := some out }
      exact ihf url out
  · rfl

/-- C6 counterexample: for a concrete resource fetch answered with HTTP
403, the caller's skip reason is "Requires authentication", not the
claimed "Authentication required". -/
theorem c6_counterexample :
    downloadResource noConv idConv idConv authNet allUrlsOk keepUrl noFname
        sampleLink "out" 0
        = Except.ok
            { url := sampleLink.url, success := false, skipped := some true,
              skipReason := some "Requires authentication" }
      ∧ some "Requires authentication" ≠ some "Authentication required" :=
  ⟨rfl, by decide⟩

/-- C6 as amended: a resource fetch whose response status is 401 or 403
is classified `requiresAuth` by the executor (whose internal error field
is "Authentication required"), and the caller returns a skipped — not
failed — result with reason "Requires authentication". -/
theorem c6_auth_classification (gdrive : String → Option String)
    (dropbox : String → String) (safeName : String → String)
    (net : String → NetOutcome) (urlOk : String → Bool)
    (resolveUrl : String → String → Option String)
    (getFname : String → Option String → String)
    (link : ExtractedLink) (outputDir : String) (index : Nat) (r : HttpResp)
    (hn : link.type ≠ LinkType.notionPage)
    (hr : net (effectiveUrl gdrive dropbox link) = NetOutcome.resp r)
    (hs : r.statusCode = 401 ∨ r.statusCode = 403)
    (hok : urlOk (effectiveUrl gdrive dropbox link) = true) :
    (∀ (fuel : Nat) (outputPath : String),
        downloadFile net urlOk resolveUrl getFname fuel
            (effectiveUrl gdrive dropbox link) outputPath
          = Except.ok
              { success := false, requiresAuth := true,
                error := some "Authentication required" })
      ∧ downloadResource gdrive dropbox safeName net urlOk resolveUrl
          getFname link outputDir index
        = Except.ok
            { url := link.url, success := false, skipped := some true,
              skipReason := some "Requires authentication" } := by
  have hd : ∀ (fuel : Nat) (outputPath : String),
      downloadFile net urlOk resolveUrl getFname fuel
          (effectiveUrl gdrive dropbox link) outputPath
        = Except.ok
            { success := false, requiresAuth := true,
              error := some "Authentication required" } := by
    intro fuel outputPath
    rcases hs with h4 | h4 <;> cases fuel <;>
      simp [downloadFile, hok, hr, handleResponse, h4]
  refine ⟨hd, ?_⟩
  simp [downloadResource, hn, hd]

/-- C6 witness: the amended claim at a concrete 403 network. -/
theorem c6_auth_classification_witness :
    downloadResource noConv idConv idConv authNet allUrlsOk keepUrl noFname
        sampleLink "resources-out" 0
      = Except.ok
          { url := sampleLink.url, success := false, skipped := some true,
            skipReason := some "Requires authentication" } :=
  (c6_auth_classification noConv idConv idConv authNet allUrlsOk keepUrl
    noFname sampleLink "resources-out" 0 { statusCode := 403 }
    (by decide) rfl (Or.inr rfl) rfl).2

/-- C7: the media executor always resolves with a tagged error on
failure, and `downloadFile` resolves all network/HTTP/stream failures —
but a URL rejected by `new URL` escapes `downloadFile` as a rejected
promise (`Except.error`), for example the malformed URL "not a url". -/
theorem c7_fault_containment_gap :
    (∀ (o : DownloadOptions) (exe : ExecaOutcome) (found : Option String),
        (downloadVideo o exe found).success = false →
        (downloadVideo o exe found).error ≠ none)
      ∧ downloadFile noNet urlHasScheme keepUrl noFname 5 "not a url" "out"
          = Except.error "Invalid URL"
      ∧ (∀ (net : String → NetOutcome) (urlOk : String → Bool)
            (resolveUrl : String → String → Option String)
            (getFname : String → Option String → String)
            (fuel : Nat) (url out : String),
          urlOk url = false →
          downloadFile net urlOk resolveUrl getFname fuel url out
            = Except.error "Invalid URL")
      ∧ (∀ (net : String → NetOutcome)
            (resolveUrl : String → String → Option String)
            (getFname : String → Option String → String)
            (fuel : Nat) (url out : String),
          (∀ l b, (resolveUrl l b).isSome = true) →
          ∃ res, downloadFile net allUrlsOk resolveUrl getFname fuel url out
              = Except.ok res
            ∧ (res.success = false → res.error ≠ none)) := by
  refine ⟨?_, rfl, ?_, ?_⟩
  · intro o exe found h
    cases hf : exe.failed <;> simp [downloadVideo, hf] at h ⊢
  · intro net urlOk resolveUrl getFname fuel url out h
    cases fuel <;> simp [downloadFile, h]
  · intro net resolveUrl getFname fuel url out hres
    exact downloadFile_total net allUrlsOk resolveUrl getFname
      (fun _ => rfl) hres fuel url out

/-- C7 witness: a concrete failed invocation carries a tagged error. -/
theorem c7_fault_containment_gap_witness :
    (downloadVideo sampleOpts failedExe none).error ≠ none :=
  c7_fault_containment_gap.1 sampleOpts failedExe none (by rfl)

/-- C9 (amended): on every run where the awaited
`ensureDir(path.dirname(outputPath))` resolves, the worker processes
one item as `markStarted`, then `ensureDir`, then the executor
invocation, then exactly one terminal transition matching the
executor's outcome (`markCompleted` on success, `markFailed` on
failure), with `markStarted` preceding the terminal call in the trace;
but when `fs.mkdir` rejects, the worker aborts with the rejection
uncaught: the ledger keeps the `markStarted` mutation and the item
receives no terminal transition at all. -/
theorem c9_worker_sequence (ensureDirErr : String → Option String)
    (exe : ExecaOutcome) (found : Option String)
    (st : CourseState) (d : QueuedDownload) :
    (∀ e, ensureDirErr (dirnameOf d.outputPath) = some e →
        (processDownload ensureDirErr exe found st d).2.1
            = [QEvent.evStarted d.lesson.id,
               QEvent.evEnsureDir (dirnameOf d.outputPath)]
          ∧ ((processDownload ensureDirErr exe found st d).2.1.countP
              (fun ev => isTerminalEv ev)) = 0
          ∧ (processDownload ensureDirErr exe found st d).1
              = markStarted st d.lesson.id
          ∧ (processDownload ensureDirErr exe found st d).2.2 = some e)
    ∧ (ensureDirErr (dirnameOf d.outputPath) = none →
        ∃ t, (processDownload ensureDirErr exe found st d).2.1
            = [QEvent.evStarted d.lesson.id,
               QEvent.evEnsureDir (dirnameOf d.outputPath),
               QEvent.evExec d.downloadUrl, t]
          ∧ isTerminalEv t = true
          ∧ ((processDownload ensureDirErr exe found st d).2.1.countP
              (fun ev => isTerminalEv ev)) = 1
          ∧ (processDownload ensureDirErr exe found st d).2.2 = none
          ∧ (exe.failed = false →
              t = QEvent.evCompleted d.lesson.id (jsOrStr found d.outputPath)
                ∧ (processDownload ensureDirErr exe found st d).1
                  = markCompleted (markStarted st d.lesson.id) d.lesson.id
                      (jsOrStr found d.outputPath))
          ∧ (exe.failed = true →
              ∃ e, t = QEvent.evFailed d.lesson.id e
                ∧ (processDownload ensureDirErr exe found st d).1
                  = markFailed (markStarted st d.lesson.id) d.lesson.id e)) := by
  constructor
  · intro e he
    refine ⟨?_, ?_, ?_, ?_⟩ <;>
      simp [processDownload, he, List.countP_cons, isTerminalEv]
  · intro he
    cases hf : exe.failed with
    | false =>
      refine ⟨QEvent.evCompleted d.lesson.id (jsOrStr found d.outputPath),
        ?_, rfl, ?_, ?_, ?_, ?_⟩
      · simp [processDownload, he, downloadVideo, hf]
      · simp [List.countP_cons, isTerminalEv, processDownload, he,
          downloadVideo, hf]
      · simp [processDownload, he, downloadVideo, hf]
      · intro hc
        exact ⟨rfl, by simp [processDownload, he, downloadVideo, hf]⟩
      · intro hc
        simp [hf] at hc
    | true =>
      refine ⟨QEvent.evFailed d.lesson.id
          (jsOrStr (downloadVideo (optionsOf d) exe found).error
            "Unknown error"),
        ?_, rfl, ?_, ?_, ?_, ?_⟩
      · simp [processDownload, he, hf, downloadVideo]
      · simp [List.countP_cons, isTerminalEv, processDownload, he,
          downloadVideo, hf]
      · simp [processDownload, he, downloadVideo, hf]
      · intro hc
        simp [hf] at hc
      · intro hc
        exact ⟨_, rfl, by simp [processDownload, he, hf, downloadVideo]⟩

/-- C9 counterexample to the original claim: with a concrete rejecting
`fs.mkdir`, the dequeued item gets `markStarted` and then neither
`markCompleted` nor `markFailed` — the executor is never invoked and
the rejection escapes the worker — so the claimed unconditional
exactly-one-terminal sequence fails for this reachable input. -/
theorem c9_counterexample :
    (processDownload mkdirDenied failedExe none sampleState
        sampleQueued).2.1
      = [QEvent.evStarted sampleQueued.lesson.id,
         QEvent.evEnsureDir "out/01_m"]
    ∧ ((processDownload mkdirDenied failedExe none sampleState
        sampleQueued).2.1.countP (fun ev => isTerminalEv ev)) = 0
    ∧ (processDownload mkdirDenied failedExe none sampleState
        sampleQueued).1
      = markStarted sampleState sampleQueued.lesson.id
    ∧ (processDownload mkdirDenied failedExe none sampleState
        sampleQueued).2.2 = some "EACCES: permission denied" := by
  exact ⟨rfl, rfl, rfl, rfl⟩

/-- C9 witness: at a concrete run whose `ensureDir` resolves and whose
executor fails, the trace has exactly one terminal transition; at the
rejecting-`mkdir` run it has none. -/
theorem c9_worker_sequence_witness :
    ((processDownload mkdirOk failedExe none sampleState
        sampleQueued).2.1.countP (fun ev => isTerminalEv ev)) = 1
    ∧ ((processDownload mkdirDenied failedExe none sampleState
        sampleQueued).2.1.countP (fun ev => isTerminalEv ev)) = 0 := by
  constructor
  · obtain ⟨t, h1, h2, h3, h4⟩ :=
      (c9_worker_sequence mkdirOk failedExe none sampleState
        sampleQueued).2 rfl
    exact h3
  · exact ((c9_worker_sequence mkdirDenied failedExe none sampleState
      sampleQueued).1 "EACCES: permission denied" rfl).2.1

/-! ### Scanner lemmas -/

theorem scanList_nil (s : SState) : scanList s [] = s := rfl

theorem scanList_cons (s : SState) (c : Char) (cs : List Char) :
    scanList s (c :: cs) = scanList (scanChar s c) cs := rfl

theorem scanList_append (s : SState) (a b : List Char) :
    scanList s (a ++ b) = scanList (scanList s a) b := by
  simp [scanList, List.foldl_append]

theorem scanChar_out_plain {c : Char} (h : plainChar c = true) (d : Int) :
    scanChar ⟨d, SMode.out⟩ c = ⟨d, SMode.out⟩ := by
  simp only [plainChar, Bool.not_eq_eq_eq_not, Bool.not_true, Bool.or_eq_false_iff,
    decide_eq_false_iff_not] at h
  obtain ⟨⟨⟨⟨⟨h1, h2⟩, h3⟩, h4⟩, h5⟩, h6⟩ := h
  simp [scanChar, h1, h2, h3, h4, h5, h6]

theorem scanList_out_plain {cs : List Char}
    (h : ∀ c ∈ cs, plainChar c = true) (d : Int) :
    scanList ⟨d, SMode.out⟩ cs = ⟨d, SMode.out⟩ := by
  induction cs with
  | nil => rfl
  | cons c cs ih =>
    rw [scanList_cons, scanChar_out_plain (h c (by simp))]
    exact ih (fun x hx => h x (by simp [hx]))

theorem scanChar_str_plain {c : Char} (h : plainChar c = true) (d : Int) :
    scanChar ⟨d, SMode.strMode⟩ c = ⟨d, SMode.strMode⟩ := by
  simp only [plainChar, Bool.not_eq_eq_eq_not, Bool.not_true, Bool.or_eq_false_iff,
    decide_eq_false_iff_not] at h
  obtain ⟨⟨⟨⟨⟨h1, h2⟩, h3⟩, h4⟩, h5⟩, h6⟩ := h
  simp [scanChar, h1, h2]

theorem wsChar_plain {c : Char} (h : isWsChar c = true) : plainChar c = true := by
  simp only [isWsChar, Bool.or_eq_true, decide_eq_true_eq] at h
  rcases h with ((h | h) | h) | h <;> subst h <;> decide

theorem digit_plain {c : Char} (h : c.isDigit = true) : plainChar c = true := by
  simp only [plainChar, Bool.not_eq_eq_eq_not, Bool.not_true, Bool.or_eq_false_iff,
    decide_eq_false_iff_not]
  refine ⟨⟨⟨⟨⟨?_, ?_⟩, ?_⟩, ?_⟩, ?_⟩, ?_⟩ <;> intro he <;> subst he <;>
    exact absurd h (by decide)

theorem hex_not_special {c : Char} (h : isHexDigitChar c = true) :
    ¬c = '"' ∧ ¬c = '\\' := by
  constructor <;> intro he <;> subst he <;> exact absurd h (by decide)

theorem skipWs_split (cs : List Char) :
    ∃ W, cs = W ++ skipWs cs ∧ ∀ c ∈ W, isWsChar c = true := by
  induction cs with
  | nil => exact ⟨[], rfl, by simp⟩
  | cons c cs ih =>
    by_cases h : isWsChar c = true
    · obtain ⟨W, hW, hall⟩ := ih
      refine ⟨c :: W, ?_, ?_⟩
      · rw [skipWs, if_pos h, List.cons_append]
        exact congrArg (c :: ·) hW
      · intro x hx
        rcases List.mem_cons.mp hx with hx | hx
        · subst hx; exact h
        · exact hall x hx
    · exact ⟨[], by rw [skipWs, if_neg h]; rfl, by simp⟩

theorem ws_scan {W : List Char} (hW : ∀ c ∈ W, isWsChar c = true) (d : Int) :
    scanList ⟨d, SMode.out⟩ W = ⟨d, SMode.out⟩ :=
  scanList_out_plain (fun c hc => wsChar_plain (hW c hc)) d

theorem scanChar_str_other {c : Char} (h1 : ¬c = '"') (h2 : ¬c = '\\')
    (d : Int) : scanChar ⟨d, SMode.strMode⟩ c = ⟨d, SMode.strMode⟩ := by
  simp [scanChar, h1, h2]

theorem scanChar_str_quote (d : Int) :
    scanChar ⟨d, SMode.strMode⟩ '"' = ⟨d, SMode.out⟩ := by
  simp [scanChar]

theorem scanChar_str_bslash (d : Int) :
    scanChar ⟨d, SMode.strMode⟩ '\\' = ⟨d, SMode.escMode⟩ := by
  simp [scanChar]

theorem scanChar_esc (c : Char) (d : Int) :
    scanChar ⟨d, SMode.escMode⟩ c = ⟨d, SMode.strMode⟩ := rfl

theorem takeDigits_split (cs : List Char) :
    cs = (takeDigits cs).1 ++ (takeDigits cs).2
      ∧ ∀ c ∈ (takeDigits cs).1, c.isDigit = true := by
  induction cs with
  | nil => exact ⟨rfl, by simp [takeDigits]⟩
  | cons c cs ih =>
    by_cases h : c.isDigit = true
    · refine ⟨?_, ?_⟩
      · rw [takeDigits, if_pos h]
        exact congrArg (c :: ·) ih.1
      · intro x hx
        rw [takeDigits, if_pos h] at hx
        rcases List.mem_cons.mp hx with hx | hx
        · subst hx; exact h
        · exact ih.2 x hx
    · rw [takeDigits, if_neg h]
      exact ⟨rfl, by simp⟩

/-- A successful string-literal parse consumes text that, scanned from
inside the string, closes it and changes nothing else. -/
theorem parseStr_balanced :
    ∀ (n : Nat) (cs : List Char), cs.length ≤ n →
    ∀ s rest, parseStr cs = some (s, rest) →
    ∃ C, cs = C ++ rest ∧
      ∀ d : Int, scanList ⟨d, SMode.strMode⟩ C = ⟨d, SMode.out⟩ := by
  intro n
  induction n with
  | zero =>
    intro cs hlen s rest h
    have hnil : cs = [] := List.length_eq_zero.mp (Nat.le_zero.mp hlen)
    subst hnil
    simp [parseStr] at h
  | succ n ih =>
    intro cs hlen s rest h
    cases cs with
    | nil => simp [parseStr] at h
    | cons c cs2 =>
      rw [parseStr.eq_def] at h
      simp only [] at h
      by_cases hq : c = '"'
      · rw [if_pos hq] at h
        simp only [Option.some.injEq, Prod.mk.injEq] at h
        obtain ⟨hs, hr⟩ := h
        rw [← hr, hq]
        refine ⟨['"'], rfl, fun d => ?_⟩
        rw [scanList_cons, scanChar_str_quote, scanList_nil]
      · rw [if_neg hq] at h
        by_cases hb : c = '\\'
        · rw [if_pos hb] at h
          split at h
          · exact Option.noConfusion h
          · rename_i e rest2
            by_cases hu : e = 'u'
            · rw [if_pos hu] at h
              split at h
              · rename_i h1 h2 h3 h4 rest3
                split at h
                · rename_i hhex
                  split at h
                  · rename_i s0 r0 hps
                    simp only [Option.some.injEq, Prod.mk.injEq] at h
                    obtain ⟨hs, hr⟩ := h
                    rw [← hr]
                    have hlen0 : rest3.length ≤ n := by
                      simp only [List.length_cons] at hlen
                      omega
                    obtain ⟨C0, hC0, hscan0⟩ := ih rest3 hlen0 s0 r0 hps
                    simp only [Bool.and_eq_true] at hhex
                    rw [hb, hu]
                    refine ⟨'\\' :: 'u' :: h1 :: h2 :: h3 :: h4 :: C0,
                      ?_, fun d => ?_⟩
                    · simp [hC0]
                    · rw [scanList_cons, scanChar_str_bslash, scanList_cons,
                        scanChar_esc, scanList_cons,
                        scanChar_str_other (hex_not_special hhex.1.1.1).1
                          (hex_not_special hhex.1.1.1).2,
                        scanList_cons,
                        scanChar_str_other (hex_not_special hhex.1.1.2).1
                          (hex_not_special hhex.1.1.2).2,
                        scanList_cons,
                        scanChar_str_other (hex_not_special hhex.1.2).1
                          (hex_not_special hhex.1.2).2,
                        scanList_cons,
                        scanChar_str_other (hex_not_special hhex.2).1
                          (hex_not_special hhex.2).2]
                      exact hscan0 d
                  · exact Option.noConfusion h
                · exact Option.noConfusion h
              · exact Option.noConfusion h
            · rw [if_neg hu] at h
              split at h
              · rename_i ch hesc
                split at h
                · rename_i s0 r0 hps
                  simp only [Option.some.injEq, Prod.mk.injEq] at h
                  obtain ⟨hs, hr⟩ := h
                  rw [← hr]
                  have hlen0 : rest2.length ≤ n := by
                    simp only [List.length_cons] at hlen
                    omega
                  obtain ⟨C0, hC0, hscan0⟩ := ih rest2 hlen0 s0 r0 hps
                  rw [hb]
                  refine ⟨'\\' :: e :: C0, ?_, fun d => ?_⟩
                  · simp [hC0]
                  · rw [scanList_cons, scanChar_str_bslash, scanList_cons,
                      scanChar_esc]
                    exact hscan0 d
                · exact Option.noConfusion h
              · exact Option.noConfusion h
        · rw [if_neg hb] at h
          split at h
          · exact Option.noConfusion h
          · rename_i hctl
            split at h
            · rename_i s0 r0 hps
              simp only [Option.some.injEq, Prod.mk.injEq] at h
              obtain ⟨hs, hr⟩ := h
              rw [← hr]
              have hlen0 : cs2.length ≤ n := by
                simp only [List.length_cons] at hlen
                omega
              obtain ⟨C0, hC0, hscan0⟩ := ih cs2 hlen0 s0 r0 hps
              refine ⟨c :: C0, ?_, fun d => ?_⟩
              · simp [hC0]
              · rw [scanList_cons, scanChar_str_other hq hb]
                exact hscan0 d
            · exact Option.noConfusion h

theorem parseFracPart_split {cs F rest : List Char}
    (h : parseFracPart cs = some (F, rest)) :
    cs = F ++ rest ∧ ∀ c ∈ F, plainChar c = true := by
  cases cs with
  | nil =>
    simp only [parseFracPart, Option.some.injEq, Prod.mk.injEq] at h
    obtain ⟨hF, hr⟩ := h
    subst hF; subst hr
    exact ⟨rfl, by simp⟩
  | cons c rest0 =>
    rw [parseFracPart.eq_def] at h
    simp only [] at h
    by_cases hdot : c = '.'
    · rw [if_pos hdot] at h
      split at h
      · exact Option.noConfusion h
      · rename_i hne
        simp only [Option.some.injEq, Prod.mk.injEq] at h
        obtain ⟨hF, hr⟩ := h
        obtain ⟨hsplit, hdig⟩ := takeDigits_split rest0
        subst hdot
        refine ⟨?_, ?_⟩
        · rw [← hF, ← hr, List.cons_append]
          exact congrArg ('.' :: ·) hsplit
        · intro x hx
          rw [← hF] at hx
          rcases List.mem_cons.mp hx with hx | hx
          · subst hx; decide
          · exact digit_plain (hdig x hx)
    · rw [if_neg hdot] at h
      simp only [Option.some.injEq, Prod.mk.injEq] at h
      obtain ⟨hF, hr⟩ := h
      subst hF
      rw [← hr]
      exact ⟨rfl, by simp⟩

theorem parseExpPart_split {cs F rest : List Char}
    (h : parseExpPart cs = some (F, rest)) :
    cs = F ++ rest ∧ ∀ c ∈ F, plainChar c = true := by
  cases cs with
  | nil =>
    simp only [parseExpPart, Option.some.injEq, Prod.mk.injEq] at h
    obtain ⟨hF, hr⟩ := h
    subst hF; subst hr
    exact ⟨rfl, by simp⟩
  | cons e rest0 =>
    rw [parseExpPart.eq_def] at h
    simp only [] at h
    by_cases he0 : e = 'e' ∨ e = 'E'
    · rw [if_pos he0] at h
      have heplain : plainChar e = true := by
        rcases he0 with he1 | he1 <;> subst he1 <;> decide
      cases rest0 with
      | nil =>
        simp only [] at h
        split at h
        · exact Option.noConfusion h
        · rename_i hne
          simp only [takeDigits, Option.some.injEq, Prod.mk.injEq] at h hne
          exact absurd rfl hne
      | cons c2 r2 =>
        simp only [] at h
        by_cases hp : c2 = '+'
        · rw [if_pos hp] at h
          split at h
          · exact Option.noConfusion h
          · rename_i hne
            simp only [Option.some.injEq, Prod.mk.injEq] at h
            obtain ⟨hF, hr⟩ := h
            obtain ⟨hsplit, hdig⟩ := takeDigits_split r2
            subst hp
            refine ⟨?_, ?_⟩
            · rw [← hF, ← hr]
              simp only [List.cons_append, List.append_assoc,
                List.singleton_append]
              exact congrArg (e :: ·) (congrArg ('+' :: ·) hsplit)
            · intro x hx
              rw [← hF] at hx
              simp only [List.cons_append, List.singleton_append,
                List.mem_cons] at hx
              rcases hx with hx | hx | hx
              · subst hx; exact heplain
              · subst hx; decide
              · exact digit_plain (hdig x hx)
        · rw [if_neg hp] at h
          by_cases hm : c2 = '-'
          · rw [if_pos hm] at h
            split at h
            · exact Option.noConfusion h
            · rename_i hne
              simp only [Option.some.injEq, Prod.mk.injEq] at h
              obtain ⟨hF, hr⟩ := h
              obtain ⟨hsplit, hdig⟩ := takeDigits_split r2
              subst hm
              refine ⟨?_, ?_⟩
              · rw [← hF, ← hr]
                simp only [List.cons_append, List.append_assoc,
                  List.singleton_append]
                exact congrArg (e :: ·) (congrArg ('-' :: ·) hsplit)
              · intro x hx
                rw [← hF] at hx
                simp only [List.cons_append, List.singleton_append,
                  List.mem_cons] at hx
                rcases hx with hx | hx | hx
                · subst hx; exact heplain
                · subst hx; decide
                · exact digit_plain (hdig x hx)
          · rw [if_neg hm] at h
            split at h
            · exact Option.noConfusion h
            · rename_i hne
              simp only [Option.some.injEq, Prod.mk.injEq] at h
              obtain ⟨hF, hr⟩ := h
              obtain ⟨hsplit, hdig⟩ := takeDigits_split (c2 :: r2)
              refine ⟨?_, ?_⟩
              · rw [← hF, ← hr]
                simp only [List.cons_append, List.nil_append]
                exact congrArg (e :: ·) hsplit
              · intro x hx
                rw [← hF] at hx
                simp only [List.nil_append, List.mem_cons] at hx
                rcases hx with hx | hx
                · subst hx; exact heplain
                · exact digit_plain (hdig x hx)
    · rw [if_neg he0] at h
      simp only [Option.some.injEq, Prod.mk.injEq] at h
      obtain ⟨hF, hr⟩ := h
      subst hF
      rw [← hr]
      exact ⟨rfl, by simp⟩

theorem finishNum_split {neg ints cs : List Char} {v : Json}
    {rest : List Char} (h : finishNum neg ints cs = some (v, rest)) :
    ∃ F, cs = F ++ rest ∧ ∀ c ∈ F, plainChar c = true := by
  rw [finishNum.eq_def] at h
  split at h
  · rename_i frac cs2 hfrac
    split at h
    · rename_i ex cs3 hexp
      simp only [Option.some.injEq, Prod.mk.injEq] at h
      obtain ⟨hv, hr⟩ := h
      obtain ⟨hs1, hp1⟩ := parseFracPart_split hfrac
      obtain ⟨hs2, hp2⟩ := parseExpPart_split hexp
      refine ⟨frac ++ ex, ?_, ?_⟩
      · rw [hs1, hs2, ← hr, List.append_assoc]
      · intro x hx
        rcases List.mem_append.mp hx with hx | hx
        · exact hp1 x hx
        · exact hp2 x hx
    · exact Option.noConfusion h
  · exact Option.noConfusion h

theorem parseNumBody_balanced {neg cs : List Char} {v : Json}
    {rest : List Char} (h : parseNumBody neg cs = some (v, rest)) :
    ∃ C, cs = C ++ rest ∧ ∀ c ∈ C, plainChar c = true := by
  cases cs with
  | nil => simp [parseNumBody] at h
  | cons c rest0 =>
    rw [parseNumBody.eq_def] at h
    simp only [] at h
    by_cases h0 : c = '0'
    · rw [if_pos h0] at h
      subst h0
      split at h
      · obtain ⟨F, hF, hp⟩ := finishNum_split h
        have h2 : F = [] ∧ rest = [] := List.append_eq_nil.mp hF.symm
        rw [h2.2]
        exact ⟨['0'], rfl, by intro x hx; simp at hx; subst hx; decide⟩
      · rename_i c2 rest2
        split at h
        · exact Option.noConfusion h
        · rename_i hnd
          obtain ⟨F, hF, hp⟩ := finishNum_split h
          refine ⟨'0' :: F, ?_, ?_⟩
          · rw [List.cons_append]
            exact congrArg ('0' :: ·) hF
          · intro x hx
            rcases List.mem_cons.mp hx with hx | hx
            · subst hx; decide
            · exact hp x hx
    · rw [if_neg h0] at h
      split at h
      · rename_i hdigit
        obtain ⟨hsplit, hdig⟩ := takeDigits_split rest0
        obtain ⟨F, hF, hp⟩ := finishNum_split h
        refine ⟨c :: ((takeDigits rest0).1 ++ F), ?_, ?_⟩
        · rw [List.cons_append, List.append_assoc, ← hF]
          exact congrArg (c :: ·) hsplit
        · intro x hx
          rcases List.mem_cons.mp hx with hx | hx
          · subst hx; exact digit_plain hdigit
          · rcases List.mem_append.mp hx with hx | hx
            · exact digit_plain (hdig x hx)
            · exact hp x hx
      · exact Option.noConfusion h

theorem parseNum_balanced {cs : List Char} {v : Json} {rest : List Char}
    (h : parseNum cs = some (v, rest)) :
    ∃ C, cs = C ++ rest ∧ ∀ c ∈ C, plainChar c = true := by
  cases cs with
  | nil => simp [parseNum] at h
  | cons c0 rest0 =>
    have hred : parseNum (c0 :: rest0)
        = if c0 = '-' then parseNumBody ['-'] rest0
          else parseNumBody [] (c0 :: rest0) := rfl
    rw [hred] at h
    by_cases hneg : c0 = '-'
    · rw [if_pos hneg] at h
      subst hneg
      obtain ⟨C, hC, hp⟩ := parseNumBody_balanced h
      refine ⟨'-' :: C, ?_, ?_⟩
      · rw [List.cons_append]
        exact congrArg ('-' :: ·) hC
      · intro x hx
        rcases List.mem_cons.mp hx with hx | hx
        · subst hx; decide
        · exact hp x hx
    · rw [if_neg hneg] at h
      exact parseNumBody_balanced h

theorem scanChar_out_quote (d : Int) :
    scanChar ⟨d, SMode.out⟩ '"' = ⟨d, SMode.strMode⟩ := by
  simp [scanChar]

theorem scanChar_out_obrace (d : Int) :
    scanChar ⟨d, SMode.out⟩ '{' = ⟨d + 1, SMode.out⟩ := by
  simp [scanChar]

theorem scanChar_out_obrack (d : Int) :
    scanChar ⟨d, SMode.out⟩ '[' = ⟨d + 1, SMode.out⟩ := by
  simp [scanChar]

theorem scanChar_out_cbrace (d : Int) :
    scanChar ⟨d, SMode.out⟩ '}' = ⟨d - 1, SMode.out⟩ := by
  simp [scanChar]

theorem scanChar_out_cbrack (d : Int) :
    scanChar ⟨d, SMode.out⟩ ']' = ⟨d - 1, SMode.out⟩ := by
  simp [scanChar]

/-- The balance invariant family for the fuel-indexed parsers: a
successful parse consumes text that is scanner-neutral (for a value) or
closes exactly one bracket (for the body parsers, whose опening bracket
the caller consumed). -/
theorem parse_balanced : ∀ fuel : Nat,
    (∀ cs v restF, parseValue fuel cs = some (v, restF) →
      ∃ C, cs = C ++ restF ∧
        ∀ d : Int, scanList ⟨d, SMode.out⟩ C = ⟨d, SMode.out⟩)
    ∧ (∀ cs v restF, parseArray fuel cs = some (v, restF) →
      ∃ C, cs = C ++ restF ∧
        ∀ d : Int, scanList ⟨d, SMode.out⟩ C = ⟨d - 1, SMode.out⟩)
    ∧ (∀ acc cs v restF, parseArrayTail fuel acc cs = some (v, restF) →
      ∃ C, cs = C ++ restF ∧
        ∀ d : Int, scanList ⟨d, SMode.out⟩ C = ⟨d - 1, SMode.out⟩)
    ∧ (∀ cs v restF, parseObj fuel cs = some (v, restF) →
      ∃ C, cs = C ++ restF ∧
        ∀ d : Int, scanList ⟨d, SMode.out⟩ C = ⟨d - 1, SMode.out⟩)
    ∧ (∀ acc cs v restF, parseObjTail fuel acc cs = some (v, restF) →
      ∃ C, cs = C ++ restF ∧
        ∀ d : Int, scanList ⟨d, SMode.out⟩ C = ⟨d - 1, SMode.out⟩) := by
  intro fuel
  induction fuel with
  | zero =>
    refine ⟨?_, ?_, ?_, ?_, ?_⟩ <;> intro cs v restF h <;>
      first
        | exact Option.noConfusion h
        | skip
    all_goals intro h2
    all_goals exact Option.noConfusion h2
  | succ f ih =>
    obtain ⟨ihV, ihA, ihAT, ihO, ihOT⟩ := ih
    have hval : ∀ cs v restF, parseValue (Nat.succ f) cs = some (v, restF) →
        ∃ C, cs = C ++ restF ∧
          ∀ d : Int, scanList ⟨d, SMode.out⟩ C = ⟨d, SMode.out⟩ := by
      intro cs v restF h
      obtain ⟨W, hWs, hWw⟩ := skipWs_split cs
      have hred : parseValue (Nat.succ f) cs
          = match skipWs cs with
            | [] => none
            | c :: rest =>
                if c = 'n' then
                  match rest with
                  | 'u' :: 'l' :: 'l' :: r => some (Json.null, r)
                  | _ => none
                else if c = 't' then
                  match rest with
                  | 'r' :: 'u' :: 'e' :: r => some (Json.bool true, r)
                  | _ => none
                else if c = 'f' then
                  match rest with
                  | 'a' :: 'l' :: 's' :: 'e' :: r => some (Json.bool false, r)
                  | _ => none
                else if c = '"' then
                  match parseStr rest with
                  | some (s, r) => some (Json.str s, r)
                  | none => none
                else if c = '[' then parseArray f rest
                else if c = '{' then parseObj f rest
                else parseNum (c :: rest) := rfl
      rw [hred] at h
      split at h
      · exact Option.noConfusion h
      · rename_i c rest heq
        by_cases hn : c = 'n'
        · rw [if_pos hn] at h
          split at h
          · rename_i r
            simp only [Option.some.injEq, Prod.mk.injEq] at h
            obtain ⟨hv, hr⟩ := h
            refine ⟨W ++ ['n', 'u', 'l', 'l'], ?_, fun d => ?_⟩
            · rw [hWs, heq, hn, ← hr]
              simp [List.append_assoc]
            · rw [scanList_append, ws_scan hWw]
              exact scanList_out_plain (by intro x hx; fin_cases hx <;> decide) d
          · exact Option.noConfusion h
        · rw [if_neg hn] at h
          by_cases ht : c = 't'
          · rw [if_pos ht] at h
            split at h
            · rename_i r
              simp only [Option.some.injEq, Prod.mk.injEq] at h
              obtain ⟨hv, hr⟩ := h
              refine ⟨W ++ ['t', 'r', 'u', 'e'], ?_, fun d => ?_⟩
              · rw [hWs, heq, ht, ← hr]
                simp [List.append_assoc]
              · rw [scanList_append, ws_scan hWw]
                exact scanList_out_plain
                  (by intro x hx; fin_cases hx <;> decide) d
            · exact Option.noConfusion h
          · rw [if_neg ht] at h
            by_cases hfa : c = 'f'
            · rw [if_pos hfa] at h
              split at h
              · rename_i r
                simp only [Option.some.injEq, Prod.mk.injEq] at h
                obtain ⟨hv, hr⟩ := h
                refine ⟨W ++ ['f', 'a', 'l', 's', 'e'], ?_, fun d => ?_⟩
                · rw [hWs, heq, hfa, ← hr]
                  simp [List.append_assoc]
                · rw [scanList_append, ws_scan hWw]
                  exact scanList_out_plain
                    (by intro x hx; fin_cases hx <;> decide) d
              · exact Option.noConfusion h
            · rw [if_neg hfa] at h
              by_cases hq : c = '"'
              · rw [if_pos hq] at h
                split at h
                · rename_i s r hps
                  simp only [Option.some.injEq, Prod.mk.injEq] at h
                  obtain ⟨hv, hr⟩ := h
                  obtain ⟨Ck, hCk, hCkscan⟩ :=
                    parseStr_balanced rest.length rest (Nat.le_refl _)
                      s r hps
                  refine ⟨W ++ '"' :: Ck, ?_, fun d => ?_⟩
                  · rw [hWs, heq, hq, ← hr, hCk]
                    simp [List.append_assoc]
                  · rw [scanList_append, ws_scan hWw, scanList_cons,
                      scanChar_out_quote]
                    exact hCkscan d
                · exact Option.noConfusion h
              · rw [if_neg hq] at h
                by_cases hbk : c = '['
                · rw [if_pos hbk] at h
                  obtain ⟨C0, hC0, hC0scan⟩ := ihA rest v restF h
                  refine ⟨W ++ '[' :: C0, ?_, fun d => ?_⟩
                  · rw [hWs, heq, hbk, hC0]
                    simp [List.append_assoc]
                  · rw [scanList_append, ws_scan hWw, scanList_cons,
                      scanChar_out_obrack]
                    have := hC0scan (d + 1)
                    simpa using this
                · rw [if_neg hbk] at h
                  by_cases hbc : c = '{'
                  · rw [if_pos hbc] at h
                    obtain ⟨C0, hC0, hC0scan⟩ := ihO rest v restF h
                    refine ⟨W ++ '{' :: C0, ?_, fun d => ?_⟩
                    · rw [hWs, heq, hbc, hC0]
                      simp [List.append_assoc]
                    · rw [scanList_append, ws_scan hWw, scanList_cons,
                        scanChar_out_obrace]
                      have := hC0scan (d + 1)
                      simpa using this
                  · rw [if_neg hbc] at h
                    obtain ⟨C0, hC0, hC0p⟩ := parseNum_balanced h
                    refine ⟨W ++ C0, ?_, fun d => ?_⟩
                    · rw [hWs, heq, hC0]
                      simp [List.append_assoc]
                    · rw [scanList_append, ws_scan hWw]
                      exact scanList_out_plain hC0p d
    have harr : ∀ cs v restF, parseArray (Nat.succ f) cs = some (v, restF) →
        ∃ C, cs = C ++ restF ∧
          ∀ d : Int, scanList ⟨d, SMode.out⟩ C = ⟨d - 1, SMode.out⟩ := by
      intro cs v restF h
      obtain ⟨W, hWs, hWw⟩ := skipWs_split cs
      have hred : parseArray (Nat.succ f) cs
          = match skipWs cs with
            | [] => none
            | c :: rest =>
                if c = ']' then some (Json.arr [], rest)
                else
                  match parseValue f (c :: rest) with
                  | some (v, r) => parseArrayTail f [v] r
                  | none => none := rfl
      rw [hred] at h
      split at h
      · exact Option.noConfusion h
      · rename_i c rest heq
        by_cases hc : c = ']'
        · rw [if_pos hc] at h
          simp only [Option.some.injEq, Prod.mk.injEq] at h
          obtain ⟨hv, hr⟩ := h
          refine ⟨W ++ [']'], ?_, fun d => ?_⟩
          · rw [hWs, heq, hc, ← hr]
            simp [List.append_assoc]
          · rw [scanList_append, ws_scan hWw, scanList_cons,
              scanChar_out_cbrack, scanList_nil]
        · rw [if_neg hc] at h
          split at h
          · rename_i v0 r hpv
            obtain ⟨C1, hC1, hC1scan⟩ := ihV (c :: rest) v0 r hpv
            obtain ⟨C2, hC2, hC2scan⟩ := ihAT [v0] r v restF h
            refine ⟨W ++ C1 ++ C2, ?_, fun d => ?_⟩
            · rw [hWs, heq, hC1, hC2]
              simp [List.append_assoc]
            · rw [scanList_append, scanList_append, ws_scan hWw,
                hC1scan d, hC2scan d]
          · exact Option.noConfusion h
    have harrT : ∀ acc cs v restF,
        parseArrayTail (Nat.succ f) acc cs = some (v, restF) →
        ∃ C, cs = C ++ restF ∧
          ∀ d : Int, scanList ⟨d, SMode.out⟩ C = ⟨d - 1, SMode.out⟩ := by
      intro acc cs v restF h
      obtain ⟨W, hWs, hWw⟩ := skipWs_split cs
      have hred : parseArrayTail (Nat.succ f) acc cs
          = match skipWs cs with
            | [] => none
            | c :: rest =>
                if c = ',' then
                  match parseValue f rest with
                  | some (v, r2) => parseArrayTail f (acc ++ [v]) r2
                  | none => none
                else if c = ']' then some (Json.arr acc, rest)
                else none := rfl
      rw [hred] at h
      split at h
      · exact Option.noConfusion h
      · rename_i c rest heq
        by_cases hc : c = ','
        · rw [if_pos hc] at h
          split at h
          · rename_i v0 r2 hpv
            obtain ⟨C1, hC1, hC1scan⟩ := ihV rest v0 r2 hpv
            obtain ⟨C2, hC2, hC2scan⟩ := ihAT (acc ++ [v0]) r2 v restF h
            refine ⟨W ++ ',' :: (C1 ++ C2), ?_, fun d => ?_⟩
            · rw [hWs, heq, hc, hC1, hC2]
              simp [List.append_assoc]
            · rw [scanList_append, ws_scan hWw, scanList_cons,
                scanChar_out_plain (by decide) d, scanList_append,
                hC1scan d, hC2scan d]
          · exact Option.noConfusion h
        · rw [if_neg hc] at h
          by_cases hc2 : c = ']'
          · rw [if_pos hc2] at h
            simp only [Option.some.injEq, Prod.mk.injEq] at h
            obtain ⟨hv, hr⟩ := h
            refine ⟨W ++ [']'], ?_, fun d => ?_⟩
            · rw [hWs, heq, hc2, ← hr]
              simp [List.append_assoc]
            · rw [scanList_append, ws_scan hWw, scanList_cons,
                scanChar_out_cbrack, scanList_nil]
          · rw [if_neg hc2] at h
            exact Option.noConfusion h
    have hobj : ∀ cs v restF, parseObj (Nat.succ f) cs = some (v, restF) →
        ∃ C, cs = C ++ restF ∧
          ∀ d : Int, scanList ⟨d, SMode.out⟩ C = ⟨d - 1, SMode.out⟩ := by
      intro cs v restF h
      obtain ⟨W, hWs, hWw⟩ := skipWs_split cs
      have hred : parseObj (Nat.succ f) cs
          = match skipWs cs with
            | [] => none
            | c :: rest =>
                if c = '}' then some (Json.obj [], rest)
                else if c = '"' then
                  match parseStr rest with
                  | some (k, r2) =>
                      (match skipWs r2 with
                       | [] => none
                       | c2 :: r3 =>
                           if c2 = ':' then
                             match parseValue f r3 with
                             | some (v, r4) => parseObjTail f [(k, v)] r4
                             | none => none
                           else none)
                  | none => none
                else none := rfl
      rw [hred] at h
      split at h
      · exact Option.noConfusion h
      · rename_i c rest heq
        by_cases hc : c = '}'
        · rw [if_pos hc] at h
          simp only [Option.some.injEq, Prod.mk.injEq] at h
          obtain ⟨hv, hr⟩ := h
          refine ⟨W ++ ['}'], ?_, fun d => ?_⟩
          · rw [hWs, heq, hc, ← hr]
            simp [List.append_assoc]
          · rw [scanList_append, ws_scan hWw, scanList_cons,
              scanChar_out_cbrace, scanList_nil]
        · rw [if_neg hc] at h
          by_cases hq : c = '"'
          · rw [if_pos hq] at h
            split at h
            · rename_i k r2 hps
              obtain ⟨W2, hW2s, hW2w⟩ := skipWs_split r2
              obtain ⟨Ck, hCk, hCkscan⟩ :=
                parseStr_balanced rest.length rest (Nat.le_refl _) k r2 hps
              split at h
              · exact Option.noConfusion h
              · rename_i c2 r3 heq2
                by_cases hcl : c2 = ':'
                · rw [if_pos hcl] at h
                  split at h
                  · rename_i v0 r4 hpv
                    obtain ⟨Cv, hCv, hCvscan⟩ := ihV r3 v0 r4 hpv
                    obtain ⟨C2, hC2, hC2scan⟩ :=
                      ihOT [(k, v0)] r4 v restF h
                    refine ⟨W ++ '"' :: (Ck ++ W2 ++ ':' :: (Cv ++ C2)),
                      ?_, fun d => ?_⟩
                    · rw [hWs, heq, hq, hCk, hW2s, heq2, hcl, hCv, hC2]
                      simp [List.append_assoc]
                    · rw [scanList_append, ws_scan hWw, scanList_cons,
                        scanChar_out_quote, scanList_append,
                        scanList_append, hCkscan d, ws_scan hW2w,
                        scanList_cons, scanChar_out_plain (by decide) d,
                        scanList_append, hCvscan d, hC2scan d]
                  · exact Option.noConfusion h
                · rw [if_neg hcl] at h
                  exact Option.noConfusion h
            · exact Option.noConfusion h
          · rw [if_neg hq] at h
            exact Option.noConfusion h
    have hobjT : ∀ acc cs v restF,
        parseObjTail (Nat.succ f) acc cs = some (v, restF) →
        ∃ C, cs = C ++ restF ∧
          ∀ d : Int, scanList ⟨d, SMode.out⟩ C = ⟨d - 1, SMode.out⟩ := by
      intro acc cs v restF h
      obtain ⟨W, hWs, hWw⟩ := skipWs_split cs
      have hred : parseObjTail (Nat.succ f) acc cs
          = match skipWs cs with
            | [] => none
            | c :: rest =>
                if c = ',' then
                  match skipWs rest with
                  | [] => none
                  | c2 :: r2 =>
                      if c2 = '"' then
                        match parseStr r2 with
                        | some (k, r3) =>
                            (match skipWs r3 with
                             | [] => none
                             | c3 :: r4 =>
                                 if c3 = ':' then
                                   match parseValue f r4 with
                                   | some (v, r5) =>
                                       parseObjTail f (acc ++ [(k, v)]) r5
                                   | none => none
                                 else none)
                        | none => none
                      else none
                else if c = '}' then some (Json.obj acc, rest)
                else none := rfl
      rw [hred] at h
      split at h
      · exact Option.noConfusion h
      · rename_i c rest heq
        by_cases hc : c = ','
        · rw [if_pos hc] at h
          obtain ⟨W2, hW2s, hW2w⟩ := skipWs_split rest
          split at h
          · exact Option.noConfusion h
          · rename_i c2 r2 heq2
            by_cases hq : c2 = '"'
            · rw [if_pos hq] at h
              split at h
              · rename_i k r3 hps
                obtain ⟨W3, hW3s, hW3w⟩ := skipWs_split r3
                obtain ⟨Ck, hCk, hCkscan⟩ :=
                  parseStr_balanced r2.length r2 (Nat.le_refl _) k r3 hps
                split at h
                · exact Option.noConfusion h
                · rename_i c3 r4 heq3
                  by_cases hcl : c3 = ':'
                  · rw [if_pos hcl] at h
                    split at h
                    · rename_i v0 r5 hpv
                      obtain ⟨Cv, hCv, hCvscan⟩ := ihV r4 v0 r5 hpv
                      obtain ⟨C2, hC2, hC2scan⟩ :=
                        ihOT (acc ++ [(k, v0)]) r5 v restF h
                      refine ⟨W ++ ',' ::
                          (W2 ++ '"' :: (Ck ++ W3 ++ ':' :: (Cv ++ C2))),
                        ?_, fun d => ?_⟩
                      · rw [hWs, heq, hc, hW2s, heq2, hq, hCk, hW3s, heq3,
                          hcl, hCv, hC2]
                        simp [List.append_assoc]
                      · rw [scanList_append, ws_scan hWw, scanList_cons,
                          scanChar_out_plain (by decide) d, scanList_append,
                          ws_scan hW2w, scanList_cons, scanChar_out_quote,
                          scanList_append, scanList_append, hCkscan d,
                          ws_scan hW3w, scanList_cons,
                          scanChar_out_plain (by decide) d,
                          scanList_append, hCvscan d, hC2scan d]
                    · exact Option.noConfusion h
                  · rw [if_neg hcl] at h
                    exact Option.noConfusion h
              · exact Option.noConfusion h
            · rw [if_neg hq] at h
              exact Option.noConfusion h
        · rw [if_neg hc] at h
          by_cases hc2 : c = '}'
          · rw [if_pos hc2] at h
            simp only [Option.some.injEq, Prod.mk.injEq] at h
            obtain ⟨hv, hr⟩ := h
            refine ⟨W ++ ['}'], ?_, fun d => ?_⟩
            · rw [hWs, heq, hc2, ← hr]
              simp [List.append_assoc]
            · rw [scanList_append, ws_scan hWw, scanList_cons,
                scanChar_out_cbrace, scanList_nil]
          · rw [if_neg hc2] at h
            exact Option.noConfusion h
    exact ⟨hval, harr, harrT, hobj, hobjT⟩

/-- A successful `Json.parse` means the whole text is scanner-neutral. -/
theorem parse_implies_neutral {p : String} {w : Json}
    (h : Json.parse p = some w) :
    scanList ⟨0, SMode.out⟩ p.data = ⟨0, SMode.out⟩ := by
  unfold Json.parse at h
  split at h
  · rename_i v rest hpv
    split at h
    · rename_i hws
      obtain ⟨C, hC, hscan⟩ := (parse_balanced _).1 p.data v rest hpv
      obtain ⟨W, hWs, hWw⟩ := skipWs_split rest
      have hrest : rest = W := by
        rw [List.isEmpty_iff.mp hws, List.append_nil] at hWs
        exact hWs
      rw [hC, scanList_append, hscan 0, hrest]
      exact ws_scan hWw 0
    · exact Option.noConfusion h
  · exact Option.noConfusion h

/-! ### Renderer pieces are balanced -/

theorem prefix_cons_cases {p : List Char} {x : Char} {xs : List Char}
    (h : p <+: x :: xs) :
    p = [] ∨ ∃ p2, p = x :: p2 ∧ p2 <+: xs := by
  cases p with
  | nil => exact Or.inl rfl
  | cons y ys =>
    obtain ⟨t, ht⟩ := h
    rw [List.cons_append] at ht
    injection ht with h1 h2
    exact Or.inr ⟨ys, by rw [h1], ⟨t, h2⟩⟩

theorem prefix_append_cases {p a b : List Char} (h : p <+: a ++ b) :
    p <+: a ∨ ∃ p2, p = a ++ p2 ∧ p2 <+: b := by
  induction a generalizing p with
  | nil => exact Or.inr ⟨p, rfl, by simpa using h⟩
  | cons x xs ih =>
    rcases prefix_cons_cases h with rfl | ⟨p2, rfl, hp2⟩
    · exact Or.inl (List.nil_prefix)
    · rcases ih hp2 with h2 | ⟨p3, rfl, hp3⟩
      · exact Or.inl (List.cons_prefix_cons.mpr ⟨rfl, h2⟩)
      · exact Or.inr ⟨p3, by rw [List.cons_append], hp3⟩

theorem good_nil : GoodPiece [] := by
  refine ⟨fun d => rfl, fun d pre hpre => ?_⟩
  rw [List.prefix_nil.mp hpre]
  exact le_refl d

theorem good_append {a b : List Char} (ha : GoodPiece a)
    (hb : GoodPiece b) : GoodPiece (a ++ b) := by
  refine ⟨fun d => ?_, fun d pre hpre => ?_⟩
  · rw [scanList_append, ha.1 d, hb.1 d]
  · rcases prefix_append_cases hpre with hp | ⟨p2, rfl, hp2⟩
    · exact ha.2 d pre hp
    · rw [scanList_append, ha.1 d]
      exact hb.2 d p2 hp2

theorem good_plain {C : List Char} (h : ∀ c ∈ C, plainChar c = true) :
    GoodPiece C := by
  refine ⟨fun d => scanList_out_plain h d, fun d pre hpre => ?_⟩
  rw [scanList_out_plain (fun c hc => h c (hpre.subset hc)) d]

theorem good_ws {s : String} (h : ∀ c ∈ s.data, isWsChar c = true) :
    GoodPiece s.data :=
  good_plain (fun c hc => wsChar_plain (h c hc))

theorem prefix_single_cases {p : List Char} {x : Char} (h : p <+: [x]) :
    p = [] ∨ p = [x] := by
  rcases prefix_cons_cases h with rfl | ⟨p2, rfl, hp2⟩
  · exact Or.inl rfl
  · rw [List.prefix_nil.mp hp2]
    exact Or.inr rfl

theorem good_wrap_brace {inner : List Char} (h : GoodPiece inner) :
    GoodPiece ('{' :: (inner ++ ['}'])) := by
  refine ⟨fun d => ?_, fun d pre hpre => ?_⟩
  · rw [scanList_cons, scanChar_out_obrace, scanList_append, h.1 (d + 1),
      scanList_cons, scanChar_out_cbrace, scanList_nil]
    simp
  · rcases prefix_cons_cases hpre with rfl | ⟨p2, rfl, hp2⟩
    · exact le_refl d
    · rw [scanList_cons, scanChar_out_obrace]
      rcases prefix_append_cases hp2 with hp | ⟨p3, rfl, hp3⟩
      · have := h.2 (d + 1) p2 hp
        omega
      · rw [scanList_append, h.1 (d + 1)]
        rcases prefix_single_cases hp3 with rfl | rfl
        · show d ≤ d + 1
          omega
        · rw [scanList_cons, scanChar_out_cbrace, scanList_nil]
          simp

theorem good_wrap_brack {inner : List Char} (h : GoodPiece inner) :
    GoodPiece ('[' :: (inner ++ [']'])) := by
  refine ⟨fun d => ?_, fun d pre hpre => ?_⟩
  · rw [scanList_cons, scanChar_out_obrack, scanList_append, h.1 (d + 1),
      scanList_cons, scanChar_out_cbrack, scanList_nil]
    simp
  · rcases prefix_cons_cases hpre with rfl | ⟨p2, rfl, hp2⟩
    · exact le_refl d
    · rw [scanList_cons, scanChar_out_obrack]
      rcases prefix_append_cases hp2 with hp | ⟨p3, rfl, hp3⟩
      · have := h.2 (d + 1) p2 hp
        omega
      · rw [scanList_append, h.1 (d + 1)]
        rcases prefix_single_cases hp3 with rfl | rfl
        · show d ≤ d + 1
          omega
        · rw [scanList_cons, scanChar_out_cbrack, scanList_nil]
          simp

theorem str_nil : StrPiece [] :=
  ⟨fun d => rfl, fun d pre hpre => by rw [List.prefix_nil.mp hpre]; rfl⟩

theorem str_append {a b : List Char} (ha : StrPiece a) (hb : StrPiece b) :
    StrPiece (a ++ b) := by
  refine ⟨fun d => ?_, fun d pre hpre => ?_⟩
  · rw [scanList_append, ha.1 d, hb.1 d]
  · rcases prefix_append_cases hpre with hp | ⟨p2, rfl, hp2⟩
    · exact ha.2 d pre hp
    · rw [scanList_append, ha.1 d]
      exact hb.2 d p2 hp2

theorem str_esc_pair (x : Char) : StrPiece ['\\', x] := by
  refine ⟨fun d => ?_, fun d pre hpre => ?_⟩
  · rw [scanList_cons, scanChar_str_bslash, scanList_cons, scanChar_esc,
      scanList_nil]
  · rcases prefix_cons_cases hpre with rfl | ⟨p2, rfl, hp2⟩
    · rfl
    · rcases prefix_single_cases hp2 with rfl | rfl
      · rw [scanList_cons, scanChar_str_bslash, scanList_nil]
      · rw [scanList_cons, scanChar_str_bslash, scanList_cons,
          scanChar_esc, scanList_nil]

theorem str_plain_single {c : Char} (h1 : ¬c = '"') (h2 : ¬c = '\\') :
    StrPiece [c] := by
  refine ⟨fun d => ?_, fun d pre hpre => ?_⟩
  · rw [scanList_cons, scanChar_str_other h1 h2, scanList_nil]
  · rcases prefix_single_cases hpre with rfl | rfl
    · rfl
    · rw [scanList_cons, scanChar_str_other h1 h2, scanList_nil]

theorem digitChar_not_special (n : Nat) :
    ¬digitChar n = '"' ∧ ¬digitChar n = '\\' := by
  unfold digitChar
  split_ifs <;> exact ⟨by decide, by decide⟩

theorem hexDigitChar_not_special (n : Nat) :
    ¬hexDigitChar n = '"' ∧ ¬hexDigitChar n = '\\' := by
  unfold hexDigitChar
  split_ifs
  · exact digitChar_not_special n
  all_goals exact ⟨by decide, by decide⟩

theorem escPiece (c : Char) : StrPiece (jsonEscapeChar c) := by
  unfold jsonEscapeChar
  split_ifs with h1 h2 h3 h4 h5 h6 h7 h8
  · exact str_esc_pair _
  · exact str_esc_pair _
  · exact str_esc_pair _
  · exact str_esc_pair _
  · exact str_esc_pair _
  · exact str_esc_pair _
  · exact str_esc_pair _
  · have e1 := hexDigitChar_not_special (c.toNat / 16)
    have e2 := hexDigitChar_not_special (c.toNat % 16)
    have : ('\\' :: 'u' :: '0' :: '0' :: hexDigitChar (c.toNat / 16)
        :: [hexDigitChar (c.toNat % 16)])
        = ['\\', 'u'] ++ ['0'] ++ ['0'] ++ [hexDigitChar (c.toNat / 16)]
          ++ [hexDigitChar (c.toNat % 16)] := rfl
    rw [this]
    exact str_append (str_append (str_append (str_append (str_esc_pair 'u')
      (str_plain_single (by decide) (by decide)))
      (str_plain_single (by decide) (by decide)))
      (str_plain_single e1.1 e1.2)) (str_plain_single e2.1 e2.2)
  · exact str_plain_single h1 h2

theorem escString_strPiece (cs : List Char) : StrPiece (escString cs) := by
  induction cs with
  | nil => exact str_nil
  | cons c cs ih =>
    rw [escString]
    exact str_append (escPiece c) ih

theorem good_quote (s : String) : GoodPiece (jsonQuote s).data := by
  have hdata : (jsonQuote s).data = '"' :: (escString s.data ++ ['"']) := rfl
  rw [hdata]
  have hstr := escString_strPiece s.data
  refine ⟨fun d => ?_, fun d pre hpre => ?_⟩
  · rw [scanList_cons, scanChar_out_quote, scanList_append, hstr.1 d,
      scanList_cons, scanChar_str_quote, scanList_nil]
  · rcases prefix_cons_cases hpre with rfl | ⟨p2, rfl, hp2⟩
    · exact le_refl d
    · rw [scanList_cons, scanChar_out_quote]
      rcases prefix_append_cases hp2 with hp | ⟨p3, rfl, hp3⟩
      · rw [hstr.2 d p2 hp]
      · rw [scanList_append, hstr.1 d]
        rcases prefix_single_cases hp3 with rfl | rfl
        · exact le_refl d
        · rw [scanList_cons, scanChar_str_quote, scanList_nil]

/-! ### The number lexemes the serializer emits are plain -/

theorem digitChar_plain (n : Nat) : plainChar (digitChar n) = true := by
  unfold digitChar
  split_ifs <;> decide

theorem natLexAux_plain :
    ∀ (f n : Nat), ∀ c ∈ natLexAux f n, plainChar c = true := by
  intro f
  induction f with
  | zero =>
    intro n c hc
    simp [natLexAux] at hc
  | succ f ih =>
    intro n c hc
    simp only [natLexAux] at hc
    split_ifs at hc with h
    · simp only [List.mem_singleton] at hc
      rw [hc]
      exact digitChar_plain n
    · rcases List.mem_append.mp hc with h1 | h1
      · exact ih _ c h1
      · simp only [List.mem_singleton] at h1
        rw [h1]
        exact digitChar_plain _

theorem natLex_plain (n : Nat) : ∀ c ∈ (natLex n).data, plainChar c = true :=
  fun c hc => natLexAux_plain (n + 1) n c hc

theorem intLex_plain (i : Int) : ∀ c ∈ (intLex i).data, plainChar c = true := by
  cases i with
  | ofNat n => exact natLex_plain n
  | negSucc n =>
    intro c hc
    have hc2 : c ∈ '-' :: (natLex (n + 1)).data := hc
    rcases List.mem_cons.mp hc2 with h | h
    · rw [h]
      decide
    · exact natLex_plain (n + 1) c h

/-! ### The serialized state only contains plain number lexemes -/

theorem scanOk_jsonOfLesson (l : LessonState) : ScanOk (jsonOfLesson l) := by
  refine ScanOk.obj _ ?_
  intro kv hkv
  simp only [List.mem_append] at hkv
  rcases hkv with ((((((h | h) | h) | h) | h) | h) | h)
  · simp only [List.mem_cons, List.not_mem_nil, or_false] at h
    rcases h with h | h | h | h | h <;> subst h <;>
      first
        | exact ScanOk.str _
        | exact ScanOk.num _ (intLex_plain _)
  · split at h
    · simp only [List.mem_singleton] at h
      subst h
      exact ScanOk.str _
    · simp at h
  · split at h
    · simp only [List.mem_singleton] at h
      subst h
      exact ScanOk.str _
    · simp at h
  · simp only [List.mem_singleton] at h
    subst h
    exact ScanOk.str _
  · split at h
    · simp only [List.mem_singleton] at h
      subst h
      exact ScanOk.str _
    · simp at h
  · split at h
    · simp only [List.mem_singleton] at h
      subst h
      exact ScanOk.str _
    · simp at h
  · simp only [List.mem_singleton] at h
    subst h
    exact ScanOk.num _ (natLex_plain _)

theorem scanOk_jsonOfCourseState (st : CourseState) :
    ScanOk (jsonOfCourseState st) := by
  refine ScanOk.obj _ ?_
  intro kv hkv
  simp only [List.mem_cons, List.not_mem_nil, or_false] at hkv
  rcases hkv with h | h | h | h | h <;> subst h
  · exact ScanOk.str _
  · exact ScanOk.str _
  · exact ScanOk.str _
  · exact ScanOk.str _
  · refine ScanOk.arr _ ?_
    intro x hx
    rcases List.mem_map.mp hx with ⟨l, _, rfl⟩
    exact scanOk_jsonOfLesson l

/-! ### The renderer only emits balanced text -/

theorem ws_append_ind {ind : String} (h : ∀ c ∈ ind.data, isWsChar c = true) :
    ∀ c ∈ (ind ++ "  ").data, isWsChar c = true := by
  intro c hc
  rw [String.data_append] at hc
  rcases List.mem_append.mp hc with h1 | h1
  · exact h c h1
  · have h2 : c ∈ [' ', ' '] := h1
    simp only [List.mem_cons, List.not_mem_nil, or_false] at h2
    rcases h2 with h2 | h2 <;> rw [h2] <;> decide

theorem render_good_all : ∀ N : Nat,
    (∀ (v : Json) (ind : String), sizeOf v < N → ScanOk v →
        (∀ c ∈ ind.data, isWsChar c = true) →
        GoodPiece (renderJson v ind).data)
    ∧ (∀ (xs : List Json) (ind : String), sizeOf xs < N →
        (∀ x ∈ xs, ScanOk x) → (∀ c ∈ ind.data, isWsChar c = true) →
        GoodPiece (renderElems xs ind).data)
    ∧ (∀ (fs : List (String × Json)) (ind : String), sizeOf fs < N →
        (∀ kv ∈ fs, ScanOk kv.2) → (∀ c ∈ ind.data, isWsChar c = true) →
        GoodPiece (renderFields fs ind).data) := by
  intro N
  induction N with
  | zero =>
    exact ⟨fun v ind hv _ _ => absurd hv (by omega),
      fun xs ind hx _ _ => absurd hx (by omega),
      fun fs ind hf _ _ => absurd hf (by omega)⟩
  | succ N ih =>
    obtain ⟨ihV, ihE, ihF⟩ := ih
    refine ⟨?_, ?_, ?_⟩
    · intro v ind hv hok hws
      cases v with
      | null =>
        simp only [renderJson]
        exact good_plain (by decide)
      | bool b =>
        simp only [renderJson]
        split
        · exact good_plain (by decide)
        · exact good_plain (by decide)
      | num lex =>
        simp only [renderJson]
        cases hok with
        | num _ h => exact good_plain h
      | str s =>
        simp only [renderJson]
        exact good_quote s
      | arr xs =>
        cases xs with
        | nil =>
          simp only [renderJson]
          exact good_wrap_brack good_nil
        | cons x ys =>
          simp only [renderJson]
          have hsz1 : sizeOf (Json.arr (x :: ys)) = 1 + sizeOf (x :: ys) := by
            simp
          have hElems :
              GoodPiece (renderElems (x :: ys) (ind ++ "  ")).data := by
            refine ihE (x :: ys) (ind ++ "  ") (by omega) ?_
              (ws_append_ind hws)
            cases hok with
            | arr _ h => exact h
          have hdata :
              ("[\n" ++ renderElems (x :: ys) (ind ++ "  ") ++ "\n"
                  ++ ind ++ "]").data
                = '[' :: ((['\n'] ++ ((renderElems (x :: ys)
                    (ind ++ "  ")).data ++ (['\n'] ++ ind.data))) ++ [']']) := by
            simp [String.data_append]
          rw [hdata]
          exact good_wrap_brack (good_append (good_plain (by decide))
            (good_append hElems
              (good_append (good_plain (by decide)) (good_ws hws))))
      | obj fs =>
        cases fs with
        | nil =>
          simp only [renderJson]
          exact good_wrap_brace good_nil
        | cons f gs =>
          simp only [renderJson]
          have hsz1 : sizeOf (Json.obj (f :: gs)) = 1 + sizeOf (f :: gs) := by
            simp
          have hFields :
              GoodPiece (renderFields (f :: gs) (ind ++ "  ")).data := by
            refine ihF (f :: gs) (ind ++ "  ") (by omega) ?_
              (ws_append_ind hws)
            cases hok with
            | obj _ h => exact h
          have hdata :
              ("\x7b\n" ++ renderFields (f :: gs) (ind ++ "  ") ++ "\n"
                  ++ ind ++ "\x7d").data
                = '\x7b' :: ((['\n'] ++ ((renderFields (f :: gs)
                    (ind ++ "  ")).data ++ (['\n'] ++ ind.data)))
                  ++ ['\x7d']) := by
            simp [String.data_append]
          rw [hdata]
          exact good_wrap_brace (good_append (good_plain (by decide))
            (good_append hFields
              (good_append (good_plain (by decide)) (good_ws hws))))
    · intro xs ind hx hok hws
      cases xs with
      | nil =>
        simp only [renderElems]
        exact good_nil
      | cons x ys =>
        have hsz1 : sizeOf (x :: ys) = 1 + sizeOf x + sizeOf ys := by
          simp
        cases ys with
        | nil =>
          simp only [renderElems]
          have hgx : GoodPiece (renderJson x ind).data :=
            ihV x ind (by omega) (hok x (List.mem_cons_self x _)) hws
          rw [String.data_append]
          exact good_append (good_ws hws) hgx
        | cons y zs =>
          simp only [renderElems]
          have hgx : GoodPiece (renderJson x ind).data :=
            ihV x ind (by omega) (hok x (List.mem_cons_self x _)) hws
          have hge : GoodPiece (renderElems (y :: zs) ind).data := by
            refine ihE (y :: zs) ind (by omega) ?_ hws
            intro z hz
            exact hok z (List.mem_cons_of_mem _ hz)
          have hdata :
              (ind ++ renderJson x ind ++ ",\n"
                  ++ renderElems (y :: zs) ind).data
                = ind.data ++ ((renderJson x ind).data
                    ++ ([',', '\n'] ++ (renderElems (y :: zs) ind).data)) := by
            simp [String.data_append]
          rw [hdata]
          exact good_append (good_ws hws) (good_append hgx
            (good_append (good_plain (by decide)) hge))
    · intro fs ind hf hok hws
      cases fs with
      | nil =>
        simp only [renderFields]
        exact good_nil
      | cons kv gs =>
        obtain ⟨k, v⟩ := kv
        have hsz1 : sizeOf ((k, v) :: gs)
            = 1 + sizeOf ((k, v) : String × Json) + sizeOf gs := by
          simp
        have hsz2 : sizeOf ((k, v) : String × Json)
            = 1 + sizeOf k + sizeOf v := by
          simp
        cases gs with
        | nil =>
          simp only [renderFields]
          have hgv : GoodPiece (renderJson v ind).data :=
            ihV v ind (by omega) (hok (k, v) (List.mem_cons_self _ _)) hws
          have hdata :
              (ind ++ jsonQuote k ++ ": " ++ renderJson v ind).data
                = ind.data ++ ((jsonQuote k).data
                    ++ ([':', ' '] ++ (renderJson v ind).data)) := by
            simp [String.data_append]
          rw [hdata]
          exact good_append (good_ws hws) (good_append (good_quote k)
            (good_append (good_plain (by decide)) hgv))
        | cons g hs =>
          simp only [renderFields]
          have hgv : GoodPiece (renderJson v ind).data :=
            ihV v ind (by omega) (hok (k, v) (List.mem_cons_self _ _)) hws
          have hgf : GoodPiece (renderFields (g :: hs) ind).data := by
            refine ihF (g :: hs) ind (by omega) ?_ hws
            intro z hz
            exact hok z (List.mem_cons_of_mem _ hz)
          have hdata :
              (ind ++ jsonQuote k ++ ": " ++ renderJson v ind ++ ",\n"
                  ++ renderFields (g :: hs) ind).data
                = ind.data ++ ((jsonQuote k).data
                    ++ ([':', ' '] ++ ((renderJson v ind).data
                      ++ ([',', '\n']
                        ++ (renderFields (g :: hs) ind).data)))) := by
            simp [String.data_append]
          rw [hdata]
          exact good_append (good_ws hws) (good_append (good_quote k)
            (good_append (good_plain (by decide)) (good_append hgv
              (good_append (good_plain (by decide)) hgf))))

/-! ### The serialized state is a brace-wrapped balanced piece -/

theorem renderJson_obj_cons (f : String × Json) (gs : List (String × Json))
    (ind : String) :
    renderJson (Json.obj (f :: gs)) ind
      = "\x7b\n" ++ renderFields (f :: gs) (ind ++ "  ") ++ "\n"
          ++ ind ++ "\x7d" := by
  simp only [renderJson]

theorem renderJson_obj_shape (f : String × Json) (gs : List (String × Json))
    (h : ∀ kv ∈ f :: gs, ScanOk kv.2) :
    ∃ inner : List Char,
      (renderJson (Json.obj (f :: gs)) "").data
          = '\x7b' :: (inner ++ ['\x7d'])
        ∧ GoodPiece inner := by
  have hFields : GoodPiece (renderFields (f :: gs) ("" ++ "  ")).data := by
    refine (render_good_all (sizeOf (f :: gs) + 1)).2.2 (f :: gs)
      ("" ++ "  ") (by omega) h ?_
    intro c hc
    have hc2 : c ∈ [' ', ' '] := hc
    simp only [List.mem_cons, List.not_mem_nil, or_false] at hc2
    rcases hc2 with hc2 | hc2 <;> rw [hc2] <;> decide
  refine ⟨'\n' :: ((renderFields (f :: gs) ("" ++ "  ")).data ++ ['\n']),
    ?_, ?_⟩
  · rw [renderJson_obj_cons]
    simp [String.data_append]
  · have h1 : GoodPiece ['\n'] := good_plain (by decide)
    exact good_append h1 (good_append hFields h1)

theorem serialize_shape (st : CourseState) :
    ∃ inner : List Char,
      (serializeCourseState st).data = '\x7b' :: (inner ++ ['\x7d'])
        ∧ GoodPiece inner := by
  have hok := scanOk_jsonOfCourseState st
  simp only [jsonOfCourseState] at hok
  have hmem : ∀ kv ∈ ("url", Json.str st.url) ::
      [("courseName", Json.str st.courseName),
       ("startedAt", Json.str st.startedAt),
       ("lastUpdated", Json.str st.lastUpdated),
       ("lessons", Json.arr (st.lessons.map jsonOfLesson))],
      ScanOk kv.2 := by
    cases hok with
    | obj _ h => exact h
  exact renderJson_obj_shape _ _ hmem

/-- No strict prefix of the serialized state parses as JSON: the text up
to any cut point before the end is still inside the outermost brace (or
empty), so the parser rejects it. -/
theorem serialize_strict_prefix_no_parse (st : CourseState)
    (p q : List Char) (h : (serializeCourseState st).data = p ++ q)
    (hq : q ≠ []) : Json.parse (String.mk p) = none := by
  obtain ⟨inner, hshape, hgood⟩ := serialize_shape st
  by_contra hne
  obtain ⟨w, hw⟩ : ∃ w, Json.parse (String.mk p) = some w := by
    cases hp : Json.parse (String.mk p) with
    | none => exact absurd hp hne
    | some w => exact ⟨w, rfl⟩
  have hneutral := parse_implies_neutral hw
  have hpd : (String.mk p).data = p := rfl
  rw [hpd] at hneutral
  have hpre : p <+: '\x7b' :: (inner ++ ['\x7d']) := by
    rw [← hshape, h]
    exact ⟨q, rfl⟩
  rcases prefix_cons_cases hpre with rfl | ⟨p2, rfl, hp2⟩
  · rw [show Json.parse (String.mk ([] : List Char)) = none from rfl] at hw
    exact Option.noConfusion hw
  · rcases prefix_append_cases hp2 with hp | ⟨p3, rfl, hp3⟩
    · have hd := hgood.2 1 p2 hp
      rw [scanList_cons, scanChar_out_obrace] at hneutral
      have hd0 : (scanList ⟨0 + 1, SMode.out⟩ p2).depth = 0 := by
        rw [hneutral]
      rw [show ((0 : Int) + 1) = 1 from rfl] at hd0
      omega
    · rcases prefix_single_cases hp3 with rfl | rfl
      · rw [List.append_nil, scanList_cons, scanChar_out_obrace,
          hgood.1 (0 + 1)] at hneutral
        have h2 : ((0 : Int) + 1) = 0 := congrArg SState.depth hneutral
        omega
      · have heq := hshape.symm.trans h
        have hlen := congrArg List.length heq
        rw [List.length_append] at hlen
        have hq0 : q.length = 0 := by omega
        exact hq (List.length_eq_zero.mp hq0)


/-!
### Round trip: the parser re-reads exactly what the renderer wrote

The converse of the strict-prefix theorem: a complete `save` output is
re-parsed by `load` into exactly the document that was serialized.
-/

theorem isHexDigitChar_hexDigitChar {n : Nat} (h : n < 16) :
    isHexDigitChar (hexDigitChar n) = true :=
  (by decide : ∀ m : Fin 16, isHexDigitChar (hexDigitChar m.val) = true)
    ⟨n, h⟩

theorem hexVal_hexDigitChar {n : Nat} (h : n < 16) :
    hexVal (hexDigitChar n) = n :=
  (by decide : ∀ m : Fin 16, hexVal (hexDigitChar m.val) = m.val) ⟨n, h⟩

theorem parseStr_escString (s : List Char) (rest : List Char) :
    parseStr (escString s ++ '"' :: rest) = some (String.mk s, rest) := by
  induction s with
  | nil =>
    rw [show escString [] ++ '"' :: rest = '"' :: rest from rfl,
      parseStr.eq_def]
    simp
  | cons c cs ih =>
    rw [show escString (c :: cs) = jsonEscapeChar c ++ escString cs from rfl]
    unfold jsonEscapeChar
    split_ifs with h1 h2 h3 h4 h5 h6 h7 h8
    · rw [h1]
      simp only [List.cons_append, List.nil_append, List.append_assoc]
      rw [parseStr.eq_def]
      simp [escChar?, ih]
    · rw [h2]
      simp only [List.cons_append, List.nil_append, List.append_assoc]
      rw [parseStr.eq_def]
      simp [escChar?, ih]
    · rw [h3]
      simp only [List.cons_append, List.nil_append, List.append_assoc]
      rw [parseStr.eq_def]
      simp [escChar?, ih]
    · rw [h4]
      simp only [List.cons_append, List.nil_append, List.append_assoc]
      rw [parseStr.eq_def]
      simp [escChar?, ih]
    · rw [h5]
      simp only [List.cons_append, List.nil_append, List.append_assoc]
      rw [parseStr.eq_def]
      simp [escChar?, ih]
    · rw [h6]
      simp only [List.cons_append, List.nil_append, List.append_assoc]
      rw [parseStr.eq_def]
      simp [escChar?, ih]
    · rw [h7]
      simp only [List.cons_append, List.nil_append, List.append_assoc]
      rw [parseStr.eq_def]
      simp [escChar?, ih]
    · have hd : c.toNat / 16 < 16 := by omega
      have hm : c.toNat % 16 < 16 := by omega
      have hval : ((hexVal '0' * 16 + hexVal '0') * 16 + c.toNat / 16) * 16
          + c.toNat % 16 = c.toNat := by
        rw [show hexVal '0' = 0 from rfl]
        omega
      simp only [List.cons_append, List.nil_append, List.append_assoc]
      rw [parseStr.eq_def]
      simp [ih, isHexDigitChar_hexDigitChar hd, isHexDigitChar_hexDigitChar hm,
        hexVal_hexDigitChar hd, hexVal_hexDigitChar hm, hval,
        Char.ofNat_toNat]
      decide
    · simp only [List.cons_append, List.nil_append, List.append_assoc]
      rw [parseStr.eq_def]
      simp [ih, h1, h2, h8]

theorem digitChar_isDigit (n : Nat) : (digitChar n).isDigit = true := by
  unfold digitChar
  split_ifs <;> decide

theorem digitChar_ne_zero {n : Nat} (h : n ≠ 0) : ¬digitChar n = '0' := by
  unfold digitChar
  split_ifs with h0 h1 h2 h3 h4 h5 h6 h7 h8
  · exact absurd h0 h
  all_goals decide

theorem natLexAux_digits :
    ∀ (f n : Nat), ∀ c ∈ natLexAux f n, c.isDigit = true := by
  intro f
  induction f with
  | zero =>
    intro n c hc
    simp [natLexAux] at hc
  | succ f ih =>
    intro n c hc
    simp only [natLexAux] at hc
    split_ifs at hc with h
    · simp only [List.mem_singleton] at hc
      rw [hc]
      exact digitChar_isDigit n
    · rcases List.mem_append.mp hc with h1 | h1
      · exact ih _ c h1
      · simp only [List.mem_singleton] at h1
        rw [h1]
        exact digitChar_isDigit _

theorem natLexAux_ne_nil : ∀ (f n : Nat), 1 ≤ f → natLexAux f n ≠ [] := by
  intro f n hf
  cases f with
  | zero => omega
  | succ f =>
    rw [natLexAux]
    split_ifs
    · exact List.cons_ne_nil _ _
    · simp

theorem natLexAux_head_ne_zero : ∀ (f n : Nat), n ≠ 0 → n < f →
    ∀ d D, natLexAux f n = d :: D → ¬d = '0' := by
  intro f
  induction f with
  | zero =>
    intro n h0 hf
    exact absurd hf (by omega)
  | succ f ih =>
    intro n h0 hf d D hA
    rw [natLexAux] at hA
    split_ifs at hA with h10
    · injection hA with hd hD
      rw [← hd]
      exact digitChar_ne_zero h0
    · have hne : natLexAux f (n / 10) ≠ [] :=
        natLexAux_ne_nil f (n / 10) (by omega)
      cases hB : natLexAux f (n / 10) with
      | nil => exact absurd hB hne
      | cons d2 D2 =>
        rw [hB, List.cons_append] at hA
        injection hA with hd _
        rw [← hd]
        exact ih (n / 10) (by omega) (by omega) d2 D2 hB

theorem natLex_pos_head (n : Nat) (h : n ≠ 0) :
    ∃ d D, (natLex n).data = d :: D ∧ ¬d = '0' ∧ d.isDigit = true
      ∧ ∀ c ∈ D, c.isDigit = true := by
  have hne : natLexAux (n + 1) n ≠ [] := natLexAux_ne_nil _ _ (by omega)
  cases hA : natLexAux (n + 1) n with
  | nil => exact absurd hA hne
  | cons d D =>
    refine ⟨d, D, hA, ?_, ?_, ?_⟩
    · exact natLexAux_head_ne_zero (n + 1) n h (by omega) d D hA
    · exact natLexAux_digits (n + 1) n d
        (by rw [hA]; exact List.mem_cons_self _ _)
    · intro c hc
      exact natLexAux_digits (n + 1) n c
        (by rw [hA]; exact List.mem_cons_of_mem _ hc)

theorem takeDigits_digits :
    ∀ (D rest : List Char), (∀ c ∈ D, c.isDigit = true) →
    (∀ c cs2, rest = c :: cs2 → c.isDigit = false) →
    takeDigits (D ++ rest) = (D, rest) := by
  intro D
  induction D with
  | nil =>
    intro rest _ hr
    rw [List.nil_append]
    cases rest with
    | nil => rfl
    | cons c cs2 =>
      have hc := hr c cs2 rfl
      simp [takeDigits, hc]
  | cons d D ih =>
    intro rest hD hr
    have hd := hD d (List.mem_cons_self _ _)
    have hrec := ih rest (fun c hc => hD c (List.mem_cons_of_mem _ hc)) hr
    rw [List.cons_append]
    simp [takeDigits, hd, hrec]

theorem numStop_head_not_digit {rest : List Char} (h : numStop rest) :
    ∀ c cs2, rest = c :: cs2 → c.isDigit = false := by
  rcases h with rfl | ⟨c2, cs3, rfl, hc⟩
  · intro c cs2 hh
    simp at hh
  · intro c cs2 hh
    injection hh with h1 h2
    rw [← h1]
    rcases hc with rfl | rfl | rfl | rfl <;> decide

theorem parseFracPart_numStop {rest : List Char} (h : numStop rest) :
    parseFracPart rest = some ([], rest) := by
  rcases h with rfl | ⟨c, cs2, rfl, hc⟩
  · rfl
  · rcases hc with rfl | rfl | rfl | rfl <;> rfl

theorem parseExpPart_numStop {rest : List Char} (h : numStop rest) :
    parseExpPart rest = some ([], rest) := by
  rcases h with rfl | ⟨c, cs2, rfl, hc⟩
  · rfl
  · rcases hc with rfl | rfl | rfl | rfl <;> rfl

theorem finishNum_numStop (neg digits : List Char) {rest : List Char}
    (h : numStop rest) :
    finishNum neg digits rest
      = some (Json.num (String.mk (neg ++ digits)), rest) := by
  unfold finishNum
  rw [parseFracPart_numStop h]
  simp [parseExpPart_numStop h]

theorem parseNumBody_natLex (neg : List Char) (n : Nat) {rest : List Char}
    (h : numStop rest) :
    parseNumBody neg ((natLex n).data ++ rest)
      = some (Json.num (String.mk (neg ++ (natLex n).data)), rest) := by
  by_cases h0 : n = 0
  · subst h0
    rw [show (natLex 0).data = ['0'] from rfl]
    rw [List.cons_append, List.nil_append]
    cases hr : rest with
    | nil =>
      rw [show parseNumBody neg ('0' :: []) = finishNum neg ['0'] [] from rfl]
      rw [finishNum_numStop neg ['0'] (Or.inl rfl)]
    | cons c2 rest2 =>
      have hc2 : c2.isDigit = false := numStop_head_not_digit h c2 rest2 hr
      rw [show parseNumBody neg ('0' :: c2 :: rest2)
          = if c2.isDigit then none
            else finishNum neg ['0'] (c2 :: rest2) from rfl]
      rw [if_neg (by rw [hc2]; exact Bool.false_ne_true)]
      rw [← hr, finishNum_numStop neg ['0'] h, hr]
  · obtain ⟨d, D, hdD, hdz, hdd, hDd⟩ := natLex_pos_head n h0
    rw [hdD, List.cons_append]
    rw [show parseNumBody neg (d :: (D ++ rest))
        = if d = '0' then
            (match D ++ rest with
             | [] => finishNum neg ['0'] []
             | c2 :: rest2 =>
                 if c2.isDigit then none
                 else finishNum neg ['0'] (c2 :: rest2))
          else if d.isDigit then
            finishNum neg (d :: (takeDigits (D ++ rest)).1)
              (takeDigits (D ++ rest)).2
          else none from rfl]
    rw [if_neg hdz, if_pos hdd]
    rw [takeDigits_digits D rest hDd (numStop_head_not_digit h)]
    rw [finishNum_numStop neg (d :: D) h]

theorem parseNum_natLex (n : Nat) {rest : List Char} (h : numStop rest) :
    parseNum ((natLex n).data ++ rest)
      = some (Json.num (natLex n), rest) := by
  have hhead : ∃ d D, (natLex n).data = d :: D ∧ d.isDigit = true := by
    by_cases h0 : n = 0
    · subst h0
      exact ⟨'0', [], rfl, by decide⟩
    · obtain ⟨d, D, hdD, _, hdd, _⟩ := natLex_pos_head n h0
      exact ⟨d, D, hdD, hdd⟩
  obtain ⟨d, D, hdD, hdd⟩ := hhead
  have hdm : ¬d = '-' := by
    intro hc
    rw [hc] at hdd
    exact absurd hdd (by decide)
  rw [hdD, List.cons_append]
  rw [show parseNum (d :: (D ++ rest))
      = if d = '-' then parseNumBody ['-'] (D ++ rest)
        else parseNumBody [] (d :: (D ++ rest)) from rfl]
  rw [if_neg hdm, ← List.cons_append, ← hdD,
    parseNumBody_natLex [] n h]
  rw [List.nil_append]

theorem parseNum_intLex (i : Int) {rest : List Char} (h : numStop rest) :
    parseNum ((intLex i).data ++ rest)
      = some (Json.num (intLex i), rest) := by
  cases i with
  | ofNat n => exact parseNum_natLex n h
  | negSucc n =>
    rw [show (intLex (Int.negSucc n)).data
        = '-' :: (natLex (n + 1)).data from rfl]
    rw [List.cons_append]
    rw [show parseNum ('-' :: ((natLex (n + 1)).data ++ rest))
        = parseNumBody ['-'] ((natLex (n + 1)).data ++ rest) from rfl]
    rw [parseNumBody_natLex ['-'] (n + 1) h]
    rfl

/-! ### One-step unfoldings of the recursive-descent parsers -/

theorem parseValue_succ (f : Nat) (cs : List Char) :
    parseValue (Nat.succ f) cs
      = match skipWs cs with
        | [] => none
        | c :: rest =>
            if c = 'n' then
              match rest with
              | 'u' :: 'l' :: 'l' :: r => some (Json.null, r)
              | _ => none
            else if c = 't' then
              match rest with
              | 'r' :: 'u' :: 'e' :: r => some (Json.bool true, r)
              | _ => none
            else if c = 'f' then
              match rest with
              | 'a' :: 'l' :: 's' :: 'e' :: r => some (Json.bool false, r)
              | _ => none
            else if c = '"' then
              match parseStr rest with
              | some (s, r) => some (Json.str s, r)
              | none => none
            else if c = '[' then parseArray f rest
            else if c = '{' then parseObj f rest
            else parseNum (c :: rest) := rfl

theorem parseArray_succ (f : Nat) (cs : List Char) :
    parseArray (Nat.succ f) cs
      = match skipWs cs with
        | [] => none
        | c :: rest =>
            if c = ']' then some (Json.arr [], rest)
            else
              match parseValue f (c :: rest) with
              | some (v, r) => parseArrayTail f [v] r
              | none => none := rfl

theorem parseArrayTail_succ (f : Nat) (acc : List Json) (cs : List Char) :
    parseArrayTail (Nat.succ f) acc cs
      = match skipWs cs with
        | [] => none
        | c :: rest =>
            if c = ',' then
              match parseValue f rest with
              | some (v, r2) => parseArrayTail f (acc ++ [v]) r2
              | none => none
            else if c = ']' then some (Json.arr acc, rest)
            else none := rfl

theorem parseObj_succ (f : Nat) (cs : List Char) :
    parseObj (Nat.succ f) cs
      = match skipWs cs with
        | [] => none
        | c :: rest =>
            if c = '}' then some (Json.obj [], rest)
            else if c = '"' then
              match parseStr rest with
              | some (k, r2) =>
                  (match skipWs r2 with
                   | [] => none
                   | c2 :: r3 =>
                       if c2 = ':' then
                         match parseValue f r3 with
                         | some (v, r4) => parseObjTail f [(k, v)] r4
                         | none => none
                       else none)
              | none => none
            else none := rfl

theorem parseObjTail_succ (f : Nat) (acc : List (String × Json))
    (cs : List Char) :
    parseObjTail (Nat.succ f) acc cs
      = match skipWs cs with
        | [] => none
        | c :: rest =>
            if c = ',' then
              match skipWs rest with
              | [] => none
              | c2 :: r2 =>
                  if c2 = '"' then
                    match parseStr r2 with
                    | some (k, r3) =>
                        (match skipWs r3 with
                         | [] => none
                         | c3 :: r4 =>
                             if c3 = ':' then
                               match parseValue f r4 with
                               | some (v, r5) =>
                                   parseObjTail f (acc ++ [(k, v)]) r5
                               | none => none
                             else none)
                    | none => none
                  else none
            else if c = '}' then some (Json.obj acc, rest)
            else none := rfl

theorem skipWs_ws_append {W : List Char} (h : ∀ c ∈ W, isWsChar c = true)
    (cs : List Char) : skipWs (W ++ cs) = skipWs cs := by
  induction W with
  | nil => rfl
  | cons w W ih =>
    rw [List.cons_append, skipWs, if_pos (h w (List.mem_cons_self _ _))]
    exact ih (fun c hc => h c (List.mem_cons_of_mem _ hc))

theorem skipWs_not_ws {c : Char} (h : isWsChar c = false) (cs : List Char) :
    skipWs (c :: cs) = c :: cs := by
  rw [skipWs]
  simp [h]

/-! ### The state documents are `RTval` -/

theorem rtval_jsonOfLesson (l : LessonState) : RTval (jsonOfLesson l) := by
  refine RTval.obj _ ?_
  intro kv hkv
  simp only [List.mem_append] at hkv
  rcases hkv with ((((((h | h) | h) | h) | h) | h) | h)
  · simp only [List.mem_cons, List.not_mem_nil, or_false] at h
    rcases h with h | h | h | h | h <;> subst h <;>
      first
        | exact RTval.str _
        | exact RTval.numInt _
  · split at h
    · simp only [List.mem_singleton] at h
      subst h
      exact RTval.str _
    · simp at h
  · split at h
    · simp only [List.mem_singleton] at h
      subst h
      exact RTval.str _
    · simp at h
  · simp only [List.mem_singleton] at h
    subst h
    exact RTval.str _
  · split at h
    · simp only [List.mem_singleton] at h
      subst h
      exact RTval.str _
    · simp at h
  · split at h
    · simp only [List.mem_singleton] at h
      subst h
      exact RTval.str _
    · simp at h
  · simp only [List.mem_singleton] at h
    subst h
    exact RTval.numNat _

theorem rtval_jsonOfCourseState (st : CourseState) :
    RTval (jsonOfCourseState st) := by
  refine RTval.obj _ ?_
  intro kv hkv
  simp only [List.mem_cons, List.not_mem_nil, or_false] at hkv
  rcases hkv with h | h | h | h | h <;> subst h
  · exact RTval.str _
  · exact RTval.str _
  · exact RTval.str _
  · exact RTval.str _
  · refine RTval.arr _ ?_
    intro x hx
    rcases List.mem_map.mp hx with ⟨l, _, rfl⟩
    exact rtval_jsonOfLesson l

/-! ### Head characters of rendered values -/

theorem digit_not_ws {c : Char} (h : c.isDigit = true) :
    isWsChar c = false := by
  cases hw : isWsChar c
  · rfl
  · simp only [isWsChar, Bool.or_eq_true, decide_eq_true_eq] at hw
    rcases hw with ((rfl | rfl) | rfl) | rfl <;> exact absurd h (by decide)

theorem digit_or_minus_facts {d : Char} (hd : d.isDigit = true ∨ d = '-') :
    isWsChar d = false ∧ ¬d = 'n' ∧ ¬d = 't' ∧ ¬d = 'f' ∧ ¬d = '"'
      ∧ ¬d = '[' ∧ ¬d = '{' ∧ ¬d = ']' ∧ ¬d = '}' ∧ ¬d = ',' := by
  rcases hd with hd | rfl
  · refine ⟨digit_not_ws hd, ?_, ?_, ?_, ?_, ?_, ?_, ?_, ?_, ?_⟩ <;>
      (intro hc; rw [hc] at hd; exact absurd hd (by decide))
  · refine ⟨?_, ?_, ?_, ?_, ?_, ?_, ?_, ?_, ?_, ?_⟩ <;> decide

theorem natLex_head_digit (n : Nat) :
    ∃ d D, (natLex n).data = d :: D ∧ d.isDigit = true := by
  by_cases h0 : n = 0
  · subst h0
    exact ⟨'0', [], rfl, by decide⟩
  · obtain ⟨d, D, hdD, _, hdd, _⟩ := natLex_pos_head n h0
    exact ⟨d, D, hdD, hdd⟩

theorem intLex_head (i : Int) :
    ∃ d D, (intLex i).data = d :: D ∧ (d.isDigit = true ∨ d = '-') := by
  cases i with
  | ofNat n =>
    obtain ⟨d, D, h1, h2⟩ := natLex_head_digit n
    exact ⟨d, D, h1, Or.inl h2⟩
  | negSucc n => exact ⟨'-', (natLex (n + 1)).data, rfl, Or.inr rfl⟩

theorem renderJson_head (v : Json) (ind : String) (hv : RTval v) :
    ∃ c cs, (renderJson v ind).data = c :: cs
      ∧ isWsChar c = false ∧ ¬c = ']' ∧ ¬c = '}' := by
  cases hv with
  | null => exact ⟨'n', ['u', 'l', 'l'], rfl, by decide, by decide, by decide⟩
  | bool b =>
    cases b
    · exact ⟨'f', ['a', 'l', 's', 'e'], rfl, by decide, by decide, by decide⟩
    · exact ⟨'t', ['r', 'u', 'e'], rfl, by decide, by decide, by decide⟩
  | str s =>
    exact ⟨'"', escString s.data ++ ['"'], rfl, by decide, by decide,
      by decide⟩
  | numInt i =>
    obtain ⟨d, D, hdD, hd⟩ := intLex_head i
    obtain ⟨h1, _, _, _, _, _, _, h8, h9, _⟩ := digit_or_minus_facts hd
    exact ⟨d, D, hdD, h1, h8, h9⟩
  | numNat n =>
    obtain ⟨d, D, hdD, hd⟩ := natLex_head_digit n
    obtain ⟨h1, _, _, _, _, _, _, h8, h9, _⟩ :=
      digit_or_minus_facts (Or.inl hd)
    exact ⟨d, D, hdD, h1, h8, h9⟩
  | arr xs h =>
    cases xs with
    | nil => exact ⟨'[', [']'], rfl, by decide, by decide, by decide⟩
    | cons x ys =>
      have hdata : (renderJson (Json.arr (x :: ys)) ind).data
          = '[' :: ('\n' :: ((renderElems (x :: ys) (ind ++ "  ")).data
              ++ ('\n' :: (ind.data ++ [']'])))) := by
        simp only [renderJson]
        simp [String.data_append]
      exact ⟨'[', _, hdata, by decide, by decide, by decide⟩
  | obj fs h =>
    cases fs with
    | nil => exact ⟨'\x7b', ['\x7d'], rfl, by decide, by decide, by decide⟩
    | cons f gs =>
      have hdata : (renderJson (Json.obj (f :: gs)) ind).data
          = '\x7b' :: ('\n' :: ((renderFields (f :: gs) (ind ++ "  ")).data
              ++ ('\n' :: (ind.data ++ ['\x7d'])))) := by
        simp only [renderJson]
        simp [String.data_append]
      exact ⟨'\x7b', _, hdata, by decide, by decide, by decide⟩

theorem parseValue_num {lex : String} {rest : List Char} (f : Nat)
    {d : Char} {D : List Char}
    (hdD : lex.data = d :: D) (hd : d.isDigit = true ∨ d = '-')
    (hnum : parseNum (lex.data ++ rest) = some (Json.num lex, rest)) :
    parseValue (Nat.succ f) (lex.data ++ rest)
      = some (Json.num lex, rest) := by
  obtain ⟨hws, hn, ht, hf, hq, hbk, hbc, _, _, _⟩ := digit_or_minus_facts hd
  rw [hdD, List.cons_append, parseValue_succ, skipWs_not_ws hws]
  simp only [if_neg hn, if_neg ht, if_neg hf, if_neg hq, if_neg hbk,
    if_neg hbc]
  rw [← List.cons_append, ← hdD, hnum]

theorem parseValue_ws_append {W : List Char}
    (hW : ∀ c ∈ W, isWsChar c = true) (f : Nat) (cs : List Char) :
    parseValue (Nat.succ f) (W ++ cs) = parseValue (Nat.succ f) cs := by
  rw [parseValue_succ, parseValue_succ, skipWs_ws_append hW]

/-! ### The parser reads back a rendered element list -/

theorem parseArrayTail_elems :
    ∀ (zs acc : List Json) (ind2 ind : String) (rest : List Char)
      (f : Nat) (input : List Char),
      (∀ z ∈ zs, ∀ (r2 : List Char) (g : Nat), numStop r2 →
        (renderJson z ind2).data.length + r2.length + 1 ≤ g →
        parseValue g ((renderJson z ind2).data ++ r2) = some (z, r2)) →
      (∀ c ∈ ind2.data, isWsChar c = true) →
      (∀ c ∈ ind.data, isWsChar c = true) →
      input = (match zs with
        | [] => '\n' :: (ind.data ++ (']' :: rest))
        | _ :: _ => ',' :: ('\n' :: ((renderElems zs ind2).data
            ++ ('\n' :: (ind.data ++ (']' :: rest)))))) →
      input.length + 1 ≤ f →
      parseArrayTail f acc input = some (Json.arr (acc ++ zs), rest) := by
  intro zs
  induction zs with
  | nil =>
    intro acc ind2 ind rest f input hPV hws2 hws hin hfuel
    have heq : input = '\n' :: (ind.data ++ (']' :: rest)) := hin
    subst heq
    obtain ⟨f1, rfl⟩ : ∃ k, f = k + 1 := ⟨f - 1, by omega⟩
    rw [parseArrayTail_succ]
    rw [show ('\n' :: (ind.data ++ (']' :: rest)))
        = ('\n' :: ind.data) ++ (']' :: rest) from rfl]
    have hWnl : ∀ c ∈ '\n' :: ind.data, isWsChar c = true := by
      intro c hc
      rcases List.mem_cons.mp hc with rfl | hc
      · decide
      · exact hws c hc
    rw [skipWs_ws_append hWnl, skipWs_not_ws (by decide)]
    simp
  | cons z zs' ih =>
    intro acc ind2 ind rest f input hPV hws2 hws hin hfuel
    have heq : input = ',' :: ('\n' :: ((renderElems (z :: zs') ind2).data
        ++ ('\n' :: (ind.data ++ (']' :: rest))))) := hin
    subst heq
    simp only [List.length_cons, List.length_append] at hfuel
    obtain ⟨f1, rfl⟩ : ∃ k, f = k + 1 := ⟨f - 1, by omega⟩
    rw [parseArrayTail_succ, skipWs_not_ws (by decide)]
    show (match parseValue f1 ('\n'
        :: ((renderElems (z :: zs') ind2).data
          ++ ('\n' :: (ind.data ++ (']' :: rest))))) with
      | some (v, r2) => parseArrayTail f1 (acc ++ [v]) r2
      | none => none) = some (Json.arr (acc ++ (z :: zs')), rest)
    have hWnl2 : ∀ c ∈ '\n' :: ind2.data, isWsChar c = true := by
      intro c hc
      rcases List.mem_cons.mp hc with rfl | hc
      · decide
      · exact hws2 c hc
    cases zs' with
    | nil =>
      have hE : (renderElems [z] ind2).data
          = ind2.data ++ (renderJson z ind2).data := by
        simp only [renderElems]
        simp [String.data_append]
      have hlenE := congrArg List.length hE
      simp only [List.length_append] at hlenE
      rw [hE, List.append_assoc]
      rw [show ('\n' :: (ind2.data ++ ((renderJson z ind2).data
            ++ ('\n' :: (ind.data ++ (']' :: rest))))))
          = ('\n' :: ind2.data) ++ ((renderJson z ind2).data
            ++ ('\n' :: (ind.data ++ (']' :: rest)))) from rfl]
      obtain ⟨f2, rfl⟩ : ∃ k, f1 = k + 1 := ⟨f1 - 1, by omega⟩
      rw [parseValue_ws_append hWnl2 f2]
      rw [hPV z (List.mem_cons_self _ _) _ (f2 + 1)
        (Or.inr ⟨'\n', _, rfl, by decide⟩)
        (by simp only [List.length_cons, List.length_append]; omega)]
      show parseArrayTail (f2 + 1) (acc ++ [z])
          ('\n' :: (ind.data ++ (']' :: rest)))
        = some (Json.arr (acc ++ [z]), rest)
      refine (ih (acc ++ [z]) ind2 ind rest (f2 + 1) _
        (fun z' hz' => absurd hz' (by simp)) hws2 hws rfl ?_).trans ?_
      · simp only [List.length_cons, List.length_append]
        omega
      · simp
    | cons z2 zs2 =>
      have hE : (renderElems (z :: z2 :: zs2) ind2).data
          = ind2.data ++ ((renderJson z ind2).data
            ++ (',' :: ('\n' :: (renderElems (z2 :: zs2) ind2).data))) := by
        simp only [renderElems]
        simp [String.data_append]
      have hlenE := congrArg List.length hE
      simp only [List.length_append, List.length_cons] at hlenE
      rw [hE]
      simp only [List.append_assoc, List.cons_append]
      rw [show ('\n' :: (ind2.data ++ ((renderJson z ind2).data
            ++ (',' :: ('\n' :: ((renderElems (z2 :: zs2) ind2).data
              ++ ('\n' :: (ind.data ++ (']' :: rest)))))))))
          = ('\n' :: ind2.data) ++ ((renderJson z ind2).data
            ++ (',' :: ('\n' :: ((renderElems (z2 :: zs2) ind2).data
              ++ ('\n' :: (ind.data ++ (']' :: rest))))))) from rfl]
      obtain ⟨f2, rfl⟩ : ∃ k, f1 = k + 1 := ⟨f1 - 1, by omega⟩
      rw [parseValue_ws_append hWnl2 f2]
      rw [hPV z (List.mem_cons_self _ _) _ (f2 + 1)
        (Or.inr ⟨',', _, rfl, by decide⟩)
        (by simp only [List.length_cons, List.length_append]; omega)]
      show parseArrayTail (f2 + 1) (acc ++ [z])
          (',' :: ('\n' :: ((renderElems (z2 :: zs2) ind2).data
            ++ ('\n' :: (ind.data ++ (']' :: rest))))))
        = some (Json.arr (acc ++ (z :: z2 :: zs2)), rest)
      refine (ih (acc ++ [z]) ind2 ind rest (f2 + 1) _
        (fun z' hz' => hPV z' (List.mem_cons_of_mem _ hz')) hws2 hws rfl
        ?_).trans ?_
      · simp only [List.length_cons, List.length_append]
        omega
      · simp

/-! ### The parser reads back a rendered member list -/

theorem parseObjTail_fields :
    ∀ (gs acc : List (String × Json)) (ind2 ind : String)
      (rest : List Char) (f : Nat) (input : List Char),
      (∀ kv ∈ gs, ∀ (r2 : List Char) (g : Nat), numStop r2 →
        (renderJson kv.2 ind2).data.length + r2.length + 1 ≤ g →
        parseValue g ((renderJson kv.2 ind2).data ++ r2)
          = some (kv.2, r2)) →
      (∀ c ∈ ind2.data, isWsChar c = true) →
      (∀ c ∈ ind.data, isWsChar c = true) →
      input = (match gs with
        | [] => '\n' :: (ind.data ++ ('\x7d' :: rest))
        | _ :: _ => ',' :: ('\n' :: ((renderFields gs ind2).data
            ++ ('\n' :: (ind.data ++ ('\x7d' :: rest)))))) →
      input.length + 1 ≤ f →
      parseObjTail f acc input = some (Json.obj (acc ++ gs), rest) := by
  intro gs
  induction gs with
  | nil =>
    intro acc ind2 ind rest f input hPV hws2 hws hin hfuel
    have heq : input = '\n' :: (ind.data ++ ('\x7d' :: rest)) := hin
    subst heq
    obtain ⟨f1, rfl⟩ : ∃ k, f = k + 1 := ⟨f - 1, by omega⟩
    rw [parseObjTail_succ]
    rw [show ('\n' :: (ind.data ++ ('\x7d' :: rest)))
        = ('\n' :: ind.data) ++ ('\x7d' :: rest) from rfl]
    have hWnl : ∀ c ∈ '\n' :: ind.data, isWsChar c = true := by
      intro c hc
      rcases List.mem_cons.mp hc with rfl | hc
      · decide
      · exact hws c hc
    rw [skipWs_ws_append hWnl, skipWs_not_ws (by decide)]
    simp
  | cons kv gs' ih =>
    obtain ⟨k, v⟩ := kv
    intro acc ind2 ind rest f input hPV hws2 hws hin hfuel
    have heq : input
        = ',' :: ('\n' :: ((renderFields ((k, v) :: gs') ind2).data
          ++ ('\n' :: (ind.data ++ ('\x7d' :: rest))))) := hin
    subst heq
    simp only [List.length_cons, List.length_append] at hfuel
    obtain ⟨f1, rfl⟩ : ∃ j, f = j + 1 := ⟨f - 1, by omega⟩
    rw [parseObjTail_succ, skipWs_not_ws (by decide)]
    show (match skipWs ('\n'
        :: ((renderFields ((k, v) :: gs') ind2).data
          ++ ('\n' :: (ind.data ++ ('\x7d' :: rest))))) with
      | [] => none
      | c2 :: r2 =>
          if c2 = '"' then
            match parseStr r2 with
            | some (k2, r3) =>
                (match skipWs r3 with
                 | [] => none
                 | c3 :: r4 =>
                     if c3 = ':' then
                       match parseValue f1 r4 with
                       | some (v2, r5) =>
                           parseObjTail f1 (acc ++ [(k2, v2)]) r5
                       | none => none
                     else none)
            | none => none
          else none)
      = some (Json.obj (acc ++ ((k, v) :: gs')), rest)
    have hWnl2 : ∀ c ∈ '\n' :: ind2.data, isWsChar c = true := by
      intro c hc
      rcases List.mem_cons.mp hc with rfl | hc
      · decide
      · exact hws2 c hc
    cases gs' with
    | nil =>
      have hE : (renderFields [(k, v)] ind2).data
          = ind2.data ++ ('"' :: (escString k.data
              ++ ('"' :: (':' :: (' ' :: (renderJson v ind2).data))))) := by
        simp only [renderFields]
        simp [jsonQuote, String.data_append]
      have hlenE := congrArg List.length hE
      simp only [List.length_append, List.length_cons] at hlenE
      rw [hE]
      simp only [List.append_assoc, List.cons_append]
      rw [show ('\n' :: (ind2.data ++ ('"' :: (escString k.data
            ++ ('"' :: (':' :: (' ' :: ((renderJson v ind2).data
              ++ ('\n' :: (ind.data ++ ('\x7d' :: rest)))))))))))
          = ('\n' :: ind2.data) ++ ('"' :: (escString k.data
            ++ ('"' :: (':' :: (' ' :: ((renderJson v ind2).data
              ++ ('\n' :: (ind.data ++ ('\x7d' :: rest))))))))) from rfl]
      rw [skipWs_ws_append hWnl2, skipWs_not_ws (by decide)]
      show (match parseStr (escString k.data
          ++ ('"' :: (':' :: (' ' :: ((renderJson v ind2).data
            ++ ('\n' :: (ind.data ++ ('\x7d' :: rest)))))))) with
        | some (k2, r3) =>
            (match skipWs r3 with
             | [] => none
             | c3 :: r4 =>
                 if c3 = ':' then
                   match parseValue f1 r4 with
                   | some (v2, r5) =>
                       parseObjTail f1 (acc ++ [(k2, v2)]) r5
                   | none => none
                 else none)
        | none => none)
        = some (Json.obj (acc ++ [(k, v)]), rest)
      rw [parseStr_escString k.data]
      show (match parseValue f1 (' ' :: ((renderJson v ind2).data
          ++ ('\n' :: (ind.data ++ ('\x7d' :: rest))))) with
        | some (v2, r5) =>
            parseObjTail f1 (acc ++ [(String.mk k.data, v2)]) r5
        | none => none)
        = some (Json.obj (acc ++ [(k, v)]), rest)
      obtain ⟨f2, rfl⟩ : ∃ j, f1 = j + 1 := ⟨f1 - 1, by omega⟩
      rw [show (' ' :: ((renderJson v ind2).data
            ++ ('\n' :: (ind.data ++ ('\x7d' :: rest)))))
          = [' '] ++ ((renderJson v ind2).data
            ++ ('\n' :: (ind.data ++ ('\x7d' :: rest)))) from rfl]
      rw [parseValue_ws_append (by intro c hc; simp at hc; rw [hc]; decide)
        f2]
      have hpv : parseValue (f2 + 1) ((renderJson v ind2).data
          ++ ('\n' :: (ind.data ++ ('\x7d' :: rest))))
          = some (v, '\n' :: (ind.data ++ ('\x7d' :: rest))) :=
        hPV (k, v) (List.mem_cons_self _ _) _ (f2 + 1)
          (Or.inr ⟨'\n', _, rfl, by decide⟩)
          (by rw [show ((k, v) : String × Json).2 = v from rfl]
              simp only [List.length_cons, List.length_append]; omega)
      rw [hpv]
      show parseObjTail (f2 + 1) (acc ++ [(String.mk k.data, v)])
          ('\n' :: (ind.data ++ ('\x7d' :: rest)))
        = some (Json.obj (acc ++ [(k, v)]), rest)
      rw [show String.mk k.data = k from rfl]
      refine (ih (acc ++ [(k, v)]) ind2 ind rest (f2 + 1) _
        (fun kv' hkv' => absurd hkv' (by simp)) hws2 hws rfl ?_).trans ?_
      · simp only [List.length_cons, List.length_append]
        omega
      · simp
    | cons g2 gs2 =>
      have hE : (renderFields ((k, v) :: g2 :: gs2) ind2).data
          = ind2.data ++ ('"' :: (escString k.data
              ++ ('"' :: (':' :: (' ' :: ((renderJson v ind2).data
                ++ (',' :: ('\n'
                  :: (renderFields (g2 :: gs2) ind2).data)))))))) := by
        simp only [renderFields]
        simp [jsonQuote, String.data_append]
      have hlenE := congrArg List.length hE
      simp only [List.length_append, List.length_cons] at hlenE
      rw [hE]
      simp only [List.append_assoc, List.cons_append]
      rw [show ('\n' :: (ind2.data ++ ('"' :: (escString k.data
            ++ ('"' :: (':' :: (' ' :: ((renderJson v ind2).data
              ++ (',' :: ('\n' :: ((renderFields (g2 :: gs2) ind2).data
                ++ ('\n' :: (ind.data ++ ('\x7d' :: rest))))))))))))))
          = ('\n' :: ind2.data) ++ ('"' :: (escString k.data
            ++ ('"' :: (':' :: (' ' :: ((renderJson v ind2).data
              ++ (',' :: ('\n' :: ((renderFields (g2 :: gs2) ind2).data
                ++ ('\n' :: (ind.data
                  ++ ('\x7d' :: rest)))))))))))) from rfl]
      rw [skipWs_ws_append hWnl2, skipWs_not_ws (by decide)]
      show (match parseStr (escString k.data
          ++ ('"' :: (':' :: (' ' :: ((renderJson v ind2).data
            ++ (',' :: ('\n' :: ((renderFields (g2 :: gs2) ind2).data
              ++ ('\n' :: (ind.data ++ ('\x7d' :: rest))))))))))) with
        | some (k2, r3) =>
            (match skipWs r3 with
             | [] => none
             | c3 :: r4 =>
                 if c3 = ':' then
                   match parseValue f1 r4 with
                   | some (v2, r5) =>
                       parseObjTail f1 (acc ++ [(k2, v2)]) r5
                   | none => none
                 else none)
        | none => none)
        = some (Json.obj (acc ++ ((k, v) :: g2 :: gs2)), rest)
      rw [parseStr_escString k.data]
      show (match parseValue f1 (' ' :: ((renderJson v ind2).data
          ++ (',' :: ('\n' :: ((renderFields (g2 :: gs2) ind2).data
            ++ ('\n' :: (ind.data ++ ('\x7d' :: rest)))))))) with
        | some (v2, r5) =>
            parseObjTail f1 (acc ++ [(String.mk k.data, v2)]) r5
        | none => none)
        = some (Json.obj (acc ++ ((k, v) :: g2 :: gs2)), rest)
      obtain ⟨f2, rfl⟩ : ∃ j, f1 = j + 1 := ⟨f1 - 1, by omega⟩
      rw [show (' ' :: ((renderJson v ind2).data
            ++ (',' :: ('\n' :: ((renderFields (g2 :: gs2) ind2).data
              ++ ('\n' :: (ind.data ++ ('\x7d' :: rest))))))))
          = [' '] ++ ((renderJson v ind2).data
            ++ (',' :: ('\n' :: ((renderFields (g2 :: gs2) ind2).data
              ++ ('\n' :: (ind.data ++ ('\x7d' :: rest))))))) from rfl]
      rw [parseValue_ws_append (by intro c hc; simp at hc; rw [hc]; decide)
        f2]
      have hpv : parseValue (f2 + 1) ((renderJson v ind2).data
          ++ (',' :: ('\n' :: ((renderFields (g2 :: gs2) ind2).data
            ++ ('\n' :: (ind.data ++ ('\x7d' :: rest)))))))
          = some (v, ',' :: ('\n' :: ((renderFields (g2 :: gs2) ind2).data
            ++ ('\n' :: (ind.data ++ ('\x7d' :: rest)))))) :=
        hPV (k, v) (List.mem_cons_self _ _) _ (f2 + 1)
          (Or.inr ⟨',', _, rfl, by decide⟩)
          (by rw [show ((k, v) : String × Json).2 = v from rfl]
              simp only [List.length_cons, List.length_append]; omega)
      rw [hpv]
      show parseObjTail (f2 + 1) (acc ++ [(String.mk k.data, v)])
          (',' :: ('\n' :: ((renderFields (g2 :: gs2) ind2).data
            ++ ('\n' :: (ind.data ++ ('\x7d' :: rest))))))
        = some (Json.obj (acc ++ ((k, v) :: g2 :: gs2)), rest)
      rw [show String.mk k.data = k from rfl]
      refine (ih (acc ++ [(k, v)]) ind2 ind rest (f2 + 1) _
        (fun kv' hkv' => hPV kv' (List.mem_cons_of_mem _ hkv')) hws2 hws
        rfl ?_).trans ?_
      · simp only [List.length_cons, List.length_append]
        omega
      · simp

/-! ### The parser reads back any rendered value -/

theorem parseValue_render : ∀ (N : Nat) (v : Json) (ind : String)
    (rest : List Char) (f : Nat), sizeOf v < N → RTval v →
    (∀ c ∈ ind.data, isWsChar c = true) → numStop rest →
    (renderJson v ind).data.length + rest.length + 1 ≤ f →
    parseValue f ((renderJson v ind).data ++ rest) = some (v, rest) := by
  intro N
  induction N with
  | zero =>
    intro v ind rest f hsz
    exact absurd hsz (by omega)
  | succ N ihN =>
    intro v ind rest f hsz hv hws hstop hf
    obtain ⟨f1, rfl⟩ : ∃ k, f = k + 1 := ⟨f - 1, by omega⟩
    cases hv with
    | null =>
      rw [show (renderJson Json.null ind).data ++ rest
          = 'n' :: ('u' :: ('l' :: ('l' :: rest))) from rfl]
      rw [parseValue_succ, skipWs_not_ws (by decide)]
      simp
    | bool b =>
      cases b
      · rw [show (renderJson (Json.bool false) ind).data ++ rest
            = 'f' :: ('a' :: ('l' :: ('s' :: ('e' :: rest)))) from rfl]
        rw [parseValue_succ, skipWs_not_ws (by decide)]
        simp
      · rw [show (renderJson (Json.bool true) ind).data ++ rest
            = 't' :: ('r' :: ('u' :: ('e' :: rest))) from rfl]
        rw [parseValue_succ, skipWs_not_ws (by decide)]
        simp
    | str s =>
      have hshape : (renderJson (Json.str s) ind).data ++ rest
          = '"' :: (escString s.data ++ ('"' :: rest)) := by
        rw [show (renderJson (Json.str s) ind).data
            = '"' :: (escString s.data ++ ['"']) from rfl]
        simp
      rw [hshape, parseValue_succ, skipWs_not_ws (by decide)]
      show (match parseStr (escString s.data ++ ('"' :: rest)) with
        | some (s2, r) => some (Json.str s2, r)
        | none => none) = some (Json.str s, rest)
      rw [parseStr_escString s.data rest]
    | numInt i =>
      obtain ⟨d, D, hdD, hd⟩ := intLex_head i
      exact parseValue_num f1 hdD hd (parseNum_intLex i hstop)
    | numNat n =>
      obtain ⟨d, D, hdD, hd⟩ := natLex_head_digit n
      exact parseValue_num f1 hdD (Or.inl hd) (parseNum_natLex n hstop)
    | arr xs h =>
      cases xs with
      | nil =>
        have hlen : (renderJson (Json.arr []) ind).data.length = 2 := rfl
        obtain ⟨f2, rfl⟩ : ∃ k, f1 = k + 1 := ⟨f1 - 1, by omega⟩
        rw [show (renderJson (Json.arr []) ind).data ++ rest
            = '[' :: (']' :: rest) from rfl]
        rw [parseValue_succ, skipWs_not_ws (by decide)]
        show parseArray (f2 + 1) (']' :: rest) = some (Json.arr [], rest)
        rw [parseArray_succ, skipWs_not_ws (by decide)]
        simp
      | cons x ys =>
        have hws2 : ∀ c ∈ (ind ++ "  ").data, isWsChar c = true :=
          ws_append_ind hws
        have hWnl2 : ∀ c ∈ '\n' :: (ind ++ "  ").data, isWsChar c = true := by
          intro c hc
          rcases List.mem_cons.mp hc with rfl | hc
          · decide
          · exact hws2 c hc
        have hPV : ∀ z ∈ x :: ys, ∀ (r2 : List Char) (g : Nat),
            numStop r2 →
            (renderJson z (ind ++ "  ")).data.length + r2.length + 1 ≤ g →
            parseValue g ((renderJson z (ind ++ "  ")).data ++ r2)
              = some (z, r2) := by
          intro z hz r2 g hst hg
          refine ihN z (ind ++ "  ") r2 g ?_ (h z hz) hws2 hst hg
          have hs1 : sizeOf (Json.arr (x :: ys)) = 1 + sizeOf (x :: ys) := by
            simp
          have hs2 := List.sizeOf_lt_of_mem hz
          omega
        cases ys with
        | nil =>
          have hdata : (renderJson (Json.arr [x]) ind).data
              = '[' :: ('\n' :: ((renderElems [x] (ind ++ "  ")).data
                  ++ ('\n' :: (ind.data ++ [']'])))) := by
            simp only [renderJson]
            simp [String.data_append]
          have hEdata : (renderElems [x] (ind ++ "  ")).data
              = (ind ++ "  ").data ++ (renderJson x (ind ++ "  ")).data := by
            simp only [renderElems]
            simp [String.data_append]
          have hshape : (renderJson (Json.arr [x]) ind).data ++ rest
              = '[' :: (('\n' :: (ind ++ "  ").data)
                  ++ ((renderJson x (ind ++ "  ")).data
                    ++ ('\n' :: (ind.data ++ (']' :: rest))))) := by
            rw [hdata, hEdata]
            simp
          have hlen := congrArg List.length hshape
          simp only [List.length_cons, List.length_append] at hlen
          rw [hshape, parseValue_succ, skipWs_not_ws (by decide)]
          show parseArray f1 (('\n' :: (ind ++ "  ").data)
              ++ ((renderJson x (ind ++ "  ")).data
                ++ ('\n' :: (ind.data ++ (']' :: rest)))))
            = some (Json.arr [x], rest)
          obtain ⟨f2, rfl⟩ : ∃ k, f1 = k + 1 := ⟨f1 - 1, by omega⟩
          rw [parseArray_succ, skipWs_ws_append hWnl2]
          obtain ⟨cx, CX, hx, hxws, hxbk, _⟩ :=
            renderJson_head x (ind ++ "  ") (h x (List.mem_cons_self _ _))
          rw [hx, List.cons_append, skipWs_not_ws hxws]
          simp only [if_neg hxbk]
          rw [← List.cons_append, ← hx]
          have hpx : parseValue f2 ((renderJson x (ind ++ "  ")).data
              ++ ('\n' :: (ind.data ++ (']' :: rest))))
              = some (x, '\n' :: (ind.data ++ (']' :: rest))) :=
            hPV x (List.mem_cons_self _ _) _ f2
              (Or.inr ⟨'\n', _, rfl, by decide⟩)
              (by simp only [List.length_cons, List.length_append]; omega)
          rw [hpx]
          show parseArrayTail f2 [x] ('\n' :: (ind.data ++ (']' :: rest)))
            = some (Json.arr [x], rest)
          refine (parseArrayTail_elems [] [x] (ind ++ "  ") ind rest f2 _
            (fun z hz => absurd hz (by simp)) hws2 hws rfl ?_).trans ?_
          · simp only [List.length_cons, List.length_append]
            omega
          · simp
        | cons y zs =>
          have hdata : (renderJson (Json.arr (x :: y :: zs)) ind).data
              = '[' :: ('\n'
                  :: ((renderElems (x :: y :: zs) (ind ++ "  ")).data
                  ++ ('\n' :: (ind.data ++ [']'])))) := by
            simp only [renderJson]
            simp [String.data_append]
          have hEdata : (renderElems (x :: y :: zs) (ind ++ "  ")).data
              = (ind ++ "  ").data ++ ((renderJson x (ind ++ "  ")).data
                  ++ (',' :: ('\n'
                    :: (renderElems (y :: zs) (ind ++ "  ")).data))) := by
            simp only [renderElems]
            simp [String.data_append]
          have hshape : (renderJson (Json.arr (x :: y :: zs)) ind).data
                ++ rest
              = '[' :: (('\n' :: (ind ++ "  ").data)
                  ++ ((renderJson x (ind ++ "  ")).data
                    ++ (',' :: ('\n'
                      :: ((renderElems (y :: zs) (ind ++ "  ")).data
                        ++ ('\n' :: (ind.data ++ (']' :: rest)))))))) := by
            rw [hdata, hEdata]
            simp
          have hlen := congrArg List.length hshape
          simp only [List.length_cons, List.length_append] at hlen
          rw [hshape, parseValue_succ, skipWs_not_ws (by decide)]
          show parseArray f1 (('\n' :: (ind ++ "  ").data)
              ++ ((renderJson x (ind ++ "  ")).data
                ++ (',' :: ('\n'
                  :: ((renderElems (y :: zs) (ind ++ "  ")).data
                    ++ ('\n' :: (ind.data ++ (']' :: rest))))))))
            = some (Json.arr (x :: y :: zs), rest)
          obtain ⟨f2, rfl⟩ : ∃ k, f1 = k + 1 := ⟨f1 - 1, by omega⟩
          rw [parseArray_succ, skipWs_ws_append hWnl2]
          obtain ⟨cx, CX, hx, hxws, hxbk, _⟩ :=
            renderJson_head x (ind ++ "  ") (h x (List.mem_cons_self _ _))
          rw [hx, List.cons_append, skipWs_not_ws hxws]
          simp only [if_neg hxbk]
          rw [← List.cons_append, ← hx]
          have hpx : parseValue f2 ((renderJson x (ind ++ "  ")).data
              ++ (',' :: ('\n'
                :: ((renderElems (y :: zs) (ind ++ "  ")).data
                  ++ ('\n' :: (ind.data ++ (']' :: rest)))))))
              = some (x, ',' :: ('\n'
                :: ((renderElems (y :: zs) (ind ++ "  ")).data
                  ++ ('\n' :: (ind.data ++ (']' :: rest)))))) :=
            hPV x (List.mem_cons_self _ _) _ f2
              (Or.inr ⟨',', _, rfl, by decide⟩)
              (by simp only [List.length_cons, List.length_append]; omega)
          rw [hpx]
          show parseArrayTail f2 [x] (',' :: ('\n'
              :: ((renderElems (y :: zs) (ind ++ "  ")).data
                ++ ('\n' :: (ind.data ++ (']' :: rest))))))
            = some (Json.arr (x :: y :: zs), rest)
          refine (parseArrayTail_elems (y :: zs) [x] (ind ++ "  ") ind rest
            f2 _ (fun z hz => hPV z (List.mem_cons_of_mem _ hz)) hws2 hws
            rfl ?_).trans ?_
          · simp only [List.length_cons, List.length_append]
            omega
          · simp
    | obj fs h =>
      cases fs with
      | nil =>
        have hlen : (renderJson (Json.obj []) ind).data.length = 2 := rfl
        obtain ⟨f2, rfl⟩ : ∃ k, f1 = k + 1 := ⟨f1 - 1, by omega⟩
        rw [show (renderJson (Json.obj []) ind).data ++ rest
            = '\x7b' :: ('\x7d' :: rest) from rfl]
        rw [parseValue_succ, skipWs_not_ws (by decide)]
        show parseObj (f2 + 1) ('\x7d' :: rest) = some (Json.obj [], rest)
        rw [parseObj_succ, skipWs_not_ws (by decide)]
        simp
      | cons kv gs =>
        obtain ⟨k, v⟩ := kv
        have hws2 : ∀ c ∈ (ind ++ "  ").data, isWsChar c = true :=
          ws_append_ind hws
        have hWnl2 : ∀ c ∈ '\n' :: (ind ++ "  ").data, isWsChar c = true := by
          intro c hc
          rcases List.mem_cons.mp hc with rfl | hc
          · decide
          · exact hws2 c hc
        have hPV : ∀ kv2 ∈ (k, v) :: gs, ∀ (r2 : List Char) (g : Nat),
            numStop r2 →
            (renderJson kv2.2 (ind ++ "  ")).data.length + r2.length + 1 ≤ g →
            parseValue g ((renderJson kv2.2 (ind ++ "  ")).data ++ r2)
              = some (kv2.2, r2) := by
          intro kv2 hkv2 r2 g hst hg
          obtain ⟨k2, v2⟩ := kv2
          refine ihN v2 (ind ++ "  ") r2 g ?_ (h (k2, v2) hkv2) hws2 hst hg
          have hs1 : sizeOf (Json.obj ((k, v) :: gs))
              = 1 + sizeOf ((k, v) :: gs) := by
            simp
          have hs2 := List.sizeOf_lt_of_mem hkv2
          have hs3 : sizeOf ((k2, v2) : String × Json)
              = 1 + sizeOf k2 + sizeOf v2 := by
            simp
          omega
        cases gs with
        | nil =>
          have hdata : (renderJson (Json.obj [(k, v)]) ind).data
              = '\x7b' :: ('\n'
                  :: ((renderFields [(k, v)] (ind ++ "  ")).data
                  ++ ('\n' :: (ind.data ++ ['\x7d'])))) := by
            simp only [renderJson]
            simp [String.data_append]
          have hFdata : (renderFields [(k, v)] (ind ++ "  ")).data
              = (ind ++ "  ").data ++ ('"' :: (escString k.data
                  ++ ('"' :: (':' :: (' '
                    :: (renderJson v (ind ++ "  ")).data))))) := by
            simp only [renderFields]
            simp [jsonQuote, String.data_append]
          have hshape : (renderJson (Json.obj [(k, v)]) ind).data ++ rest
              = '\x7b' :: (('\n' :: (ind ++ "  ").data)
                  ++ ('"' :: (escString k.data
                    ++ ('"' :: (':' :: (' '
                      :: ((renderJson v (ind ++ "  ")).data
                        ++ ('\n' :: (ind.data ++ ('\x7d' :: rest)))))))))) := by
            rw [hdata, hFdata]
            simp
          have hlen := congrArg List.length hshape
          simp only [List.length_cons, List.length_append] at hlen
          rw [hshape, parseValue_succ, skipWs_not_ws (by decide)]
          show parseObj f1 (('\n' :: (ind ++ "  ").data)
              ++ ('"' :: (escString k.data
                ++ ('"' :: (':' :: (' '
                  :: ((renderJson v (ind ++ "  ")).data
                    ++ ('\n' :: (ind.data ++ ('\x7d' :: rest))))))))))
            = some (Json.obj [(k, v)], rest)
          obtain ⟨f2, rfl⟩ : ∃ j, f1 = j + 1 := ⟨f1 - 1, by omega⟩
          rw [parseObj_succ, skipWs_ws_append hWnl2,
            skipWs_not_ws (by decide)]
          show (match parseStr (escString k.data
              ++ ('"' :: (':' :: (' '
                :: ((renderJson v (ind ++ "  ")).data
                  ++ ('\n' :: (ind.data ++ ('\x7d' :: rest)))))))) with
            | some (k2, r2) =>
                (match skipWs r2 with
                 | [] => none
                 | c2 :: r3 =>
                     if c2 = ':' then
                       match parseValue f2 r3 with
                       | some (v2, r4) => parseObjTail f2 [(k2, v2)] r4
                       | none => none
                     else none)
            | none => none)
            = some (Json.obj [(k, v)], rest)
          rw [parseStr_escString k.data]
          show (match parseValue f2 (' '
              :: ((renderJson v (ind ++ "  ")).data
                ++ ('\n' :: (ind.data ++ ('\x7d' :: rest))))) with
            | some (v2, r4) =>
                parseObjTail f2 [(String.mk k.data, v2)] r4
            | none => none)
            = some (Json.obj [(k, v)], rest)
          obtain ⟨f3, rfl⟩ : ∃ j, f2 = j + 1 := ⟨f2 - 1, by omega⟩
          rw [show (' ' :: ((renderJson v (ind ++ "  ")).data
                ++ ('\n' :: (ind.data ++ ('\x7d' :: rest)))))
              = [' '] ++ ((renderJson v (ind ++ "  ")).data
                ++ ('\n' :: (ind.data ++ ('\x7d' :: rest)))) from rfl]
          rw [parseValue_ws_append
            (by intro c hc; simp at hc; rw [hc]; decide) f3]
          have hpv : parseValue (f3 + 1)
              ((renderJson v (ind ++ "  ")).data
                ++ ('\n' :: (ind.data ++ ('\x7d' :: rest))))
              = some (v, '\n' :: (ind.data ++ ('\x7d' :: rest))) :=
            hPV (k, v) (List.mem_cons_self _ _) _ (f3 + 1)
              (Or.inr ⟨'\n', _, rfl, by decide⟩)
              (by rw [show ((k, v) : String × Json).2 = v from rfl]
                  simp only [List.length_cons, List.length_append]; omega)
          rw [hpv]
          show parseObjTail (f3 + 1) [(String.mk k.data, v)]
              ('\n' :: (ind.data ++ ('\x7d' :: rest)))
            = some (Json.obj [(k, v)], rest)
          rw [show String.mk k.data = k from rfl]
          refine (parseObjTail_fields [] [(k, v)] (ind ++ "  ") ind rest
            (f3 + 1) _ (fun kv' hkv' => absurd hkv' (by simp)) hws2 hws
            rfl ?_).trans ?_
          · simp only [List.length_cons, List.length_append]
            omega
          · simp
        | cons g2 gs2 =>
          have hdata : (renderJson (Json.obj ((k, v) :: g2 :: gs2)) ind).data
              = '\x7b' :: ('\n'
                  :: ((renderFields ((k, v) :: g2 :: gs2)
                      (ind ++ "  ")).data
                  ++ ('\n' :: (ind.data ++ ['\x7d'])))) := by
            simp only [renderJson]
            simp [String.data_append]
          have hFdata : (renderFields ((k, v) :: g2 :: gs2)
                (ind ++ "  ")).data
              = (ind ++ "  ").data ++ ('"' :: (escString k.data
                  ++ ('"' :: (':' :: (' '
                    :: ((renderJson v (ind ++ "  ")).data
                      ++ (',' :: ('\n'
                        :: (renderFields (g2 :: gs2)
                            (ind ++ "  ")).data)))))))) := by
            simp only [renderFields]
            simp [jsonQuote, String.data_append]
          have hshape : (renderJson (Json.obj ((k, v) :: g2 :: gs2))
                ind).data ++ rest
              = '\x7b' :: (('\n' :: (ind ++ "  ").data)
                  ++ ('"' :: (escString k.data
                    ++ ('"' :: (':' :: (' '
                      :: ((renderJson v (ind ++ "  ")).data
                        ++ (',' :: ('\n'
                          :: ((renderFields (g2 :: gs2) (ind ++ "  ")).data
                            ++ ('\n' :: (ind.data
                              ++ ('\x7d' :: rest))))))))))))) := by
            rw [hdata, hFdata]
            simp
          have hlen := congrArg List.length hshape
          simp only [List.length_cons, List.length_append] at hlen
          rw [hshape, parseValue_succ, skipWs_not_ws (by decide)]
          show parseObj f1 (('\n' :: (ind ++ "  ").data)
              ++ ('"' :: (escString k.data
                ++ ('"' :: (':' :: (' '
                  :: ((renderJson v (ind ++ "  ")).data
                    ++ (',' :: ('\n'
                      :: ((renderFields (g2 :: gs2) (ind ++ "  ")).data
                        ++ ('\n' :: (ind.data
                          ++ ('\x7d' :: rest)))))))))))))
            = some (Json.obj ((k, v) :: g2 :: gs2), rest)
          obtain ⟨f2, rfl⟩ : ∃ j, f1 = j + 1 := ⟨f1 - 1, by omega⟩
          rw [parseObj_succ, skipWs_ws_append hWnl2,
            skipWs_not_ws (by decide)]
          show (match parseStr (escString k.data
              ++ ('"' :: (':' :: (' '
                :: ((renderJson v (ind ++ "  ")).data
                  ++ (',' :: ('\n'
                    :: ((renderFields (g2 :: gs2) (ind ++ "  ")).data
                      ++ ('\n' :: (ind.data
                        ++ ('\x7d' :: rest))))))))))) with
            | some (k2, r2) =>
                (match skipWs r2 with
                 | [] => none
                 | c2 :: r3 =>
                     if c2 = ':' then
                       match parseValue f2 r3 with
                       | some (v2, r4) => parseObjTail f2 [(k2, v2)] r4
                       | none => none
                     else none)
            | none => none)
            = some (Json.obj ((k, v) :: g2 :: gs2), rest)
          rw [parseStr_escString k.data]
          show (match parseValue f2 (' '
              :: ((renderJson v (ind ++ "  ")).data
                ++ (',' :: ('\n'
                  :: ((renderFields (g2 :: gs2) (ind ++ "  ")).data
                    ++ ('\n' :: (ind.data ++ ('\x7d' :: rest)))))))) with
            | some (v2, r4) =>
                parseObjTail f2 [(String.mk k.data, v2)] r4
            | none => none)
            = some (Json.obj ((k, v) :: g2 :: gs2), rest)
          obtain ⟨f3, rfl⟩ : ∃ j, f2 = j + 1 := ⟨f2 - 1, by omega⟩
          rw [show (' ' :: ((renderJson v (ind ++ "  ")).data
                ++ (',' :: ('\n'
                  :: ((renderFields (g2 :: gs2) (ind ++ "  ")).data
                    ++ ('\n' :: (ind.data ++ ('\x7d' :: rest))))))))
              = [' '] ++ ((renderJson v (ind ++ "  ")).data
                ++ (',' :: ('\n'
                  :: ((renderFields (g2 :: gs2) (ind ++ "  ")).data
                    ++ ('\n' :: (ind.data ++ ('\x7d' :: rest))))))) from
            rfl]
          rw [parseValue_ws_append
            (by intro c hc; simp at hc; rw [hc]; decide) f3]
          have hpv : parseValue (f3 + 1)
              ((renderJson v (ind ++ "  ")).data
                ++ (',' :: ('\n'
                  :: ((renderFields (g2 :: gs2) (ind ++ "  ")).data
                    ++ ('\n' :: (ind.data ++ ('\x7d' :: rest)))))))
              = some (v, ',' :: ('\n'
                  :: ((renderFields (g2 :: gs2) (ind ++ "  ")).data
                    ++ ('\n' :: (ind.data ++ ('\x7d' :: rest)))))) :=
            hPV (k, v) (List.mem_cons_self _ _) _ (f3 + 1)
              (Or.inr ⟨',', _, rfl, by decide⟩)
              (by rw [show ((k, v) : String × Json).2 = v from rfl]
                  simp only [List.length_cons, List.length_append]; omega)
          rw [hpv]
          show parseObjTail (f3 + 1) [(String.mk k.data, v)]
              (',' :: ('\n'
                :: ((renderFields (g2 :: gs2) (ind ++ "  ")).data
                  ++ ('\n' :: (ind.data ++ ('\x7d' :: rest))))))
            = some (Json.obj ((k, v) :: g2 :: gs2), rest)
          rw [show String.mk k.data = k from rfl]
          refine (parseObjTail_fields (g2 :: gs2) [(k, v)] (ind ++ "  ")
            ind rest (f3 + 1) _
            (fun kv' hkv' => hPV kv' (List.mem_cons_of_mem _ hkv')) hws2
            hws rfl ?_).trans ?_
          · simp only [List.length_cons, List.length_append]
            omega
          · simp

/-- Round trip for any value this program stringifies: `JSON.parse`
recovers it exactly. -/
theorem parse_render (v : Json) (hv : RTval v) :
    Json.parse (renderJson v "") = some v := by
  have hmain : parseValue (2 * (renderJson v "").length + 8)
      ((renderJson v "").data ++ []) = some (v, []) := by
    have hlen : (renderJson v "").length
        = (renderJson v "").data.length := rfl
    refine parseValue_render (sizeOf v + 1) v "" [] _ (by omega) hv
      (by intro c hc; simp at hc) (Or.inl rfl) ?_
    simp only [List.length_nil]
    omega
  rw [List.append_nil] at hmain
  unfold Json.parse
  rw [hmain]
  rfl

/-- The full round trip: `JSON.parse` applied to
`JSON.stringify(state, null, 2)` returns exactly the serialized
document. -/
theorem parse_serializeCourseState (st : CourseState) :
    Json.parse (serializeCourseState st) = some (jsonOfCourseState st) := by
  have hmain : parseValue (2 * (serializeCourseState st).length + 8)
      ((renderJson (jsonOfCourseState st) "").data ++ [])
      = some (jsonOfCourseState st, []) := by
    have hlen : (serializeCourseState st).length
        = (renderJson (jsonOfCourseState st) "").data.length := rfl
    refine parseValue_render (sizeOf (jsonOfCourseState st) + 1)
      (jsonOfCourseState st) "" [] _ (by omega)
      (rtval_jsonOfCourseState st) (by intro c hc; simp at hc)
      (Or.inl rfl) ?_
    simp only [List.length_nil]
    omega
  rw [List.append_nil] at hmain
  unfold Json.parse
  rw [show (serializeCourseState st).data
      = (renderJson (jsonOfCourseState st) "").data from rfl]
  rw [hmain]
  rfl

/-- C2 as amended: `save` stamps `lastUpdated` and writes the serialized
full state directly to `statePath` (one `mkdir -p` plus one `writeFile`,
never a rename), so the write itself is not crash-atomic; the safeguard
is in `load`, which treats any content that fails JSON parsing — in
particular every strict prefix of what `save` writes, i.e. every
partially-written state file — as "no existing progress", leaving the
in-memory state untouched; conversely the complete written content
always parses back to exactly the serialized document, so a finished
`save` is always loaded as valid. -/
theorem c2_direct_write_load_rejects (statePath now : String)
    (st : CourseState) :
    (save statePath now st).2
        = [FsOp.mkdirp (dirname statePath),
           FsOp.writeFile statePath
             (serializeCourseState { st with lastUpdated := now })]
      ∧ (∀ op ∈ (save statePath now st).2, FsOp.isRename op = false)
      ∧ (∀ (prev : Json) (s : String), Json.parse s = none →
          loadJson prev (FileRead.content s) = (false, prev))
      ∧ (∀ (prev : Json) (p q : List Char),
          (serializeCourseState { st with lastUpdated := now }).data
              = p ++ q →
          q ≠ [] →
          loadJson prev (FileRead.content (String.mk p))
            = (false, prev))
      ∧ (∀ prev : Json,
          loadJson prev (FileRead.content
              (serializeCourseState { st with lastUpdated := now }))
            = (true,
              jsonOfCourseState { st with lastUpdated := now })) := by
  refine ⟨rfl, ?_, ?_, ?_, ?_⟩
  · intro op hop
    simp only [save, List.mem_cons, List.not_mem_nil, or_false] at hop
    rcases hop with h | h <;> rw [h] <;> rfl
  · intro prev s h
    simp [loadJson, h]
  · intro prev p q hpq hqne
    have hnone := serialize_strict_prefix_no_parse _ p q hpq hqne
    simp [loadJson, hnone]
  · intro prev
    simp [loadJson, parse_serializeCourseState]

set_option maxRecDepth 8000 in
/-- C2 witness: the trace shape at a concrete path; `load` rejecting a
concrete non-JSON content; and `load` rejecting a concrete
partially-written state file (the serialized sample state cut off right
after its `lastUpdated` member, before the `lessons` array); and `load`
accepting the complete written content of that same state. -/
theorem c2_direct_write_load_rejects_witness :
    (∀ op ∈ (save "d/x.json" "T1" sampleState).2, FsOp.isRename op = false)
      ∧ loadJson (Json.obj []) (FileRead.content "garbage")
          = (false, Json.obj [])
      ∧ loadJson (Json.obj [])
          (FileRead.content (String.mk
            ("\x7b\n  \"url\": \"\",\n  \"courseName\": \"\",\n  \"startedAt\": \"2024-01-01T00:00:00Z\",\n  \"lastUpdated\": \"T1\",\n").data))
          = (false, Json.obj [])
      ∧ loadJson (Json.obj [])
          (FileRead.content
            (serializeCourseState { sampleState with lastUpdated := "T1" }))
          = (true,
            jsonOfCourseState { sampleState with lastUpdated := "T1" }) :=
  ⟨(c2_direct_write_load_rejects "d/x.json" "T1" sampleState).2.1,
   (c2_direct_write_load_rejects "d/x.json" "T1" sampleState).2.2.1
     (Json.obj []) "garbage" (by rfl),
   (c2_direct_write_load_rejects "d/x.json" "T1" sampleState).2.2.2.1
     (Json.obj [])
     ("\x7b\n  \"url\": \"\",\n  \"courseName\": \"\",\n  \"startedAt\": \"2024-01-01T00:00:00Z\",\n  \"lastUpdated\": \"T1\",\n").data
     ("  \"lessons\": [\n    \x7b\n      \"id\": \"a\",\n      \"moduleIndex\": 0,\n      \"lessonIndex\": 0,\n      \"moduleTitle\": \"m\",\n      \"lessonTitle\": \"t\",\n      \"status\": \"pending\",\n      \"attempts\": 0\n    \x7d\n  ]\n\x7d").data
     (by rfl) (by decide),
   (c2_direct_write_load_rejects "d/x.json" "T1" sampleState).2.2.2.2
     (Json.obj [])⟩

/-- The `id` probe on a serialized lesson object is exactly an id
comparison. -/
theorem elHasId_jsonOfLesson (l : LessonState) (id : String) :
    elHasId (jsonOfLesson l) id = (l.id == id) := rfl

/-- Adequacy of the raw-document `addLesson`: run against any serialized
course state it succeeds and agrees with the record-level `addLesson`. -/
theorem jsAddLesson_sim (st : CourseState) (seed : LessonSeed) :
    jsAddLesson (jsonOfCourseState st) seed
      = some (jsonOfCourseState (addLesson st seed)) := by
  have hany : ∀ ls : List LessonState, (ls.map jsonOfLesson).any
        (fun el => elHasId el seed.id)
      = ls.any (fun l => l.id == seed.id) := by
    intro ls
    induction ls with
    | nil => rfl
    | cons a as ih =>
      simp only [List.map_cons, List.any_cons, ih]
      rfl
  have hred : jsAddLesson (jsonOfCourseState st) seed
      = (if (st.lessons.map jsonOfLesson).any
            (fun el => elHasId el seed.id)
        then some (jsonOfCourseState st)
        else some (Json.obj
          [("url", Json.str st.url),
           ("courseName", Json.str st.courseName),
           ("startedAt", Json.str st.startedAt),
           ("lastUpdated", Json.str st.lastUpdated),
           ("lessons", Json.arr (st.lessons.map jsonOfLesson
             ++ [jsonOfLesson seed.toLesson]))])) := rfl
  rw [hred, hany st.lessons]
  cases hf : st.lessons.find? (fun x => x.id == seed.id) with
  | some y =>
    have hpy0 := List.find?_some hf
    have hmy := List.mem_of_find?_eq_some hf
    have hany2 : st.lessons.any (fun l => l.id == seed.id) = true :=
      List.any_eq_true.mpr ⟨y, hmy, hpy0⟩
    rw [if_pos hany2]
    simp only [addLesson, hf]
  | none =>
    have hany2 : st.lessons.any (fun l => l.id == seed.id) = false := by
      cases hA : st.lessons.any (fun l => l.id == seed.id)
      · rfl
      · obtain ⟨x, hx, hpx⟩ := List.any_eq_true.mp hA
        exact absurd hpx (List.find?_eq_none.mp hf x hx)
    rw [if_neg (by rw [hany2]; exact Bool.false_ne_true)]
    simp only [addLesson, hf]
    simp [jsonOfCourseState, List.map_append]

theorem getLast?_append_some {α : Type} (l : List α) {m : List α} {u : α}
    (h : m.getLast? = some u) : (l ++ m).getLast? = some u := by
  have hm : m ≠ [] := by
    intro he
    rw [he] at h
    exact Option.noConfusion h
  rw [List.getLast?_append_of_ne_nil _ hm, h]

/-- Invariants of the media executor's argument list: the target URL is
always the very last argument, and the retry / no-overwrite / playlist
flags are always present regardless of provider and options. -/
theorem buildArgs_shape (o : DownloadOptions) :
    (buildArgs o).getLast? = some o.url
      ∧ "--no-overwrites" ∈ buildArgs o
      ∧ "--no-playlist" ∈ buildArgs o
      ∧ "--retries" ∈ buildArgs o := by
  refine ⟨?_, ?_, ?_, ?_⟩
  · unfold buildArgs
    exact getLast?_append_some _ (by rfl)
  · unfold buildArgs
    simp
  · unfold buildArgs
    simp
  · unfold buildArgs
    simp

/-- Every resolved `downloadResource` result reports the original link
URL (not the converted download URL). -/
theorem downloadResource_url (gdrive : String → Option String)
    (dropbox : String → String) (safeName : String → String)
    (net : String → NetOutcome) (urlOk : String → Bool)
    (resolveUrl : String → String → Option String)
    (getFname : String → Option String → String)
    (link : ExtractedLink) (outputDir : String) (index : Nat)
    (r : ResourceResult)
    (h : downloadResource gdrive dropbox safeName net urlOk resolveUrl
        getFname link outputDir index = Except.ok r) :
    r.url = link.url := by
  unfold downloadResource at h
  split_ifs at h with hn
  · cases h
    rfl
  · dsimp only [] at h
    split at h
    · exact Except.noConfusion h
    · split_ifs at h <;> (cases h; rfl)

/-- `downloadModuleResources` returns one result per link, each
reporting its link's URL, and an `external`-typed link that does not
look like a file is recorded as skipped with reason
"External link (not a file)" without any download. -/
theorem downloadModuleResources_spec (gdrive : String → Option String)
    (dropbox : String → String) (safeName : String → String)
    (net : String → NetOutcome) (urlOk : String → Bool)
    (resolveUrl : String → String → Option String)
    (getFname : String → Option String → String)
    (toLower : String → String) (outputDir : String) :
    ∀ (links : List ExtractedLink) (i : Nat) (rs : List ResourceResult),
      downloadModuleResources gdrive dropbox safeName net urlOk resolveUrl
          getFname toLower outputDir i links = Except.ok rs →
      rs.length = links.length
        ∧ (∀ (j : Nat) (hj : j < rs.length) (hj2 : j < links.length),
            (rs.get ⟨j, hj⟩).url = (links.get ⟨j, hj2⟩).url)
        ∧ (∀ (j : Nat) (hj : j < links.length) (hj2 : j < rs.length),
            (links.get ⟨j, hj⟩).type = LinkType.extLink →
            isLikelyFile toLower (links.get ⟨j, hj⟩).url = false →
            rs.get ⟨j, hj2⟩ = extLinkSkip (links.get ⟨j, hj⟩).url) := by
  intro links
  induction links with
  | nil =>
    intro i rs h
    rw [downloadModuleResources] at h
    cases h
    refine ⟨rfl, ?_, ?_⟩
    · intro j hj hj2
      exact absurd hj2 (by simp)
    · intro j hj
      exact absurd hj (by simp)
  | cons link rest ih =>
    intro i rs h
    rw [downloadModuleResources] at h
    split_ifs at h with hc
    · cases hrec : downloadModuleResources gdrive dropbox safeName net
          urlOk resolveUrl getFname toLower outputDir (i + 1) rest with
      | error e =>
        rw [hrec] at h
        exact Except.noConfusion h
      | ok rs2 =>
        rw [hrec] at h
        cases h
        obtain ⟨hlen, hurl, hskip⟩ := ih (i + 1) rs2 hrec
        refine ⟨by simp [hlen], ?_, ?_⟩
        · intro j hj hj2
          cases j with
          | zero => rfl
          | succ j => exact hurl j (by simpa using hj) (by simpa using hj2)
        · intro j hj hj2 ht hf
          cases j with
          | zero => rfl
          | succ j =>
            exact hskip j (by simpa using hj) (by simpa using hj2) ht hf
    · cases hdr : downloadResource gdrive dropbox safeName net urlOk
          resolveUrl getFname link outputDir i with
      | error e =>
        rw [hdr] at h
        exact Except.noConfusion h
      | ok r =>
        rw [hdr] at h
        cases hrec : downloadModuleResources gdrive dropbox safeName net
            urlOk resolveUrl getFname toLower outputDir (i + 1) rest with
        | error e =>
          rw [hrec] at h
          exact Except.noConfusion h
        | ok rs2 =>
          rw [hrec] at h
          cases h
          obtain ⟨hlen, hurl, hskip⟩ := ih (i + 1) rs2 hrec
          refine ⟨by simp [hlen], ?_, ?_⟩
          · intro j hj hj2
            cases j with
            | zero =>
              exact downloadResource_url gdrive dropbox safeName net urlOk
                resolveUrl getFname link outputDir i r hdr
            | succ j =>
              exact hurl j (by simpa using hj) (by simpa using hj2)
          · intro j hj hj2 ht hf
            cases j with
            | zero => exact absurd ⟨ht, hf⟩ hc
            | succ j =>
              exact hskip j (by simpa using hj) (by simpa using hj2) ht hf

/-- Adequacy of the first-occurrence replacement: when the pattern does not
occur in the input, `replace` is the identity (character-list level). -/
theorem replaceFirstAux_no_occ (pat rep : List Char) :
    ∀ cs, containsChars pat cs = false → replaceFirstAux pat rep cs = cs := by
  intro cs
  induction cs with
  | nil => intro _; rfl
  | cons c cs ih =>
      intro h
      simp only [containsChars, Bool.or_eq_false_iff] at h
      simp [replaceFirstAux, h.1, ih h.2]

/-- String-level corollary: `s.replace(pat, rep) = s` when `s` does not
include `pat`. -/
theorem replaceFirst_no_occ (s pat rep : String)
    (h : strIncludes s pat = false) : replaceFirst s pat rep = s := by
  unfold replaceFirst
  rw [replaceFirstAux_no_occ pat.data rep.data s.data h]

/-- A URL that contains neither `dl=0` nor `www.dropbox.com` passes through
`getDropboxDirectUrl` unchanged (both `.replace` calls find no match). -/
theorem getDropboxDirectUrl_id (url : String)
    (h1 : strIncludes url "dl=0" = false)
    (h2 : strIncludes url "www.dropbox.com" = false) :
    getDropboxDirectUrl url = url := by
  unfold getDropboxDirectUrl
  rw [replaceFirst_no_occ url _ _ h1, replaceFirst_no_occ url _ _ h2]

/-- Concrete evaluation: a standard Dropbox share link is rewritten to the
direct-download host with `dl=1`. -/
theorem getDropboxDirectUrl_share_link :
    getDropboxDirectUrl "https://www.dropbox.com/s/abc123/notes.pdf?dl=0"
      = "https://dl.dropboxusercontent.com/s/abc123/notes.pdf?dl=1" := by
  decide

/-- Only the FIRST occurrence is replaced (JS `String.replace` with a string
pattern): a URL containing `dl=0` twice keeps the second occurrence. -/
theorem getDropboxDirectUrl_first_only :
    getDropboxDirectUrl "https://www.dropbox.com/s/x/dl=0dl=0"
      = "https://dl.dropboxusercontent.com/s/x/dl=1dl=0" := by
  decide

/-- `downloadResource` instantiated with the real `getDropboxDirectUrl`:
for a non-Google Dropbox link the fetched URL is the converted one. -/
theorem effectiveUrl_dropbox (gdrive : String → Option String)
    (link : ExtractedLink)
    (hty : ¬(link.type = LinkType.googleDrive ∨ link.type = LinkType.googleDoc))
    (h : strIncludes link.url "dropbox.com" = true) :
    effectiveUrl gdrive getDropboxDirectUrl link
      = getDropboxDirectUrl link.url := by
  simp [effectiveUrl, hty, h]

/-- If the pattern's literal part never occurs in the input, the
`lit([a-zA-Z0-9_-]+)` regex finds no match. -/
theorem matchLitThenId_none (lit : List Char) :
    ∀ cs, containsChars lit cs = false → matchLitThenId lit cs = none := by
  intro cs
  induction cs with
  | nil => intro _; rfl
  | cons c cs ih =>
      intro h
      simp only [containsChars, Bool.or_eq_false_iff] at h
      simp [matchLitThenId, h.1, ih h.2]

/-- Every successful capture of `lit([a-zA-Z0-9_-]+)` is a nonempty run
of id characters. -/
theorem matchLitThenId_some (lit : List Char) :
    ∀ cs fid, matchLitThenId lit cs = some fid →
      fid ≠ [] ∧ fid.all isIdChar = true := by
  intro cs
  induction cs with
  | nil => intro fid h; cases h
  | cons c cs ih =>
      intro fid h
      rw [matchLitThenId] at h
      split at h
      · split at h
        · exact ih fid h
        · cases h
          exact ⟨by assumption, List.all_takeWhile⟩
      · exact ih fid h

/-- A URL containing none of the three Drive patterns' literals maps to
`null`. -/
theorem getGoogleDriveDirectUrl_none (url : String)
    (h1 : strIncludes url "/file/d/" = false)
    (h2 : strIncludes url "id=" = false)
    (h3 : strIncludes url "/d/" = false) :
    getGoogleDriveDirectUrl url = none := by
  have g1 : containsChars "/file/d/".data url.data = false := h1
  have g2 : containsChars "id=".data url.data = false := h2
  have g3 : containsChars "/d/".data url.data = false := h3
  unfold getGoogleDriveDirectUrl
  rw [matchLitThenId_none _ _ g1, matchLitThenId_none _ _ g2,
    matchLitThenId_none _ _ g3]

/-- Whenever `getGoogleDriveDirectUrl` returns a URL, it is the
`uc?export=download` endpoint with a nonempty captured file id made of
id characters only. -/
theorem getGoogleDriveDirectUrl_shape (url s : String)
    (h : getGoogleDriveDirectUrl url = some s) :
    ∃ fid, fid ≠ [] ∧ fid.all isIdChar = true ∧
      s = "https://drive.google.com/uc?export=download&id="
        ++ String.mk fid := by
  unfold getGoogleDriveDirectUrl at h
  cases hm1 : matchLitThenId "/file/d/".data url.data with
  | some fid =>
      rw [hm1] at h
      cases h
      exact ⟨fid, (matchLitThenId_some _ _ _ hm1).1,
        (matchLitThenId_some _ _ _ hm1).2, rfl⟩
  | none =>
      rw [hm1] at h
      cases hm2 : matchLitThenId "id=".data url.data with
      | some fid =>
          rw [hm2] at h
          cases h
          exact ⟨fid, (matchLitThenId_some _ _ _ hm2).1,
            (matchLitThenId_some _ _ _ hm2).2, rfl⟩
      | none =>
          rw [hm2] at h
          cases hm3 : matchLitThenId "/d/".data url.data with
          | some fid =>
              rw [hm3] at h
              cases h
              exact ⟨fid, (matchLitThenId_some _ _ _ hm3).1,
                (matchLitThenId_some _ _ _ hm3).2, rfl⟩
          | none => rw [hm3] at h; cases h

/-- Concrete evaluation: a standard Drive share link is rewritten to the
direct-download endpoint with the captured file id. -/
theorem getGoogleDriveDirectUrl_share_link :
    getGoogleDriveDirectUrl
        "https://drive.google.com/file/d/1AbC_x-9/view?usp=sharing"
      = some "https://drive.google.com/uc?export=download&id=1AbC_x-9" := by
  decide

/-- Concrete evaluation: the `open?id=` format is handled by the second
pattern. -/
theorem getGoogleDriveDirectUrl_open_id :
    getGoogleDriveDirectUrl "https://drive.google.com/open?id=XYZ_12"
      = some "https://drive.google.com/uc?export=download&id=XYZ_12" := by
  decide

/-- `effectiveUrl` instantiated with the real converters: a Drive/Doc
link is fetched either unchanged (no pattern matched) or through the
direct-download endpoint with a well-formed file id. -/
theorem effectiveUrl_gdrive_shape (link : ExtractedLink)
    (hty : link.type = LinkType.googleDrive ∨ link.type = LinkType.googleDoc) :
    effectiveUrl getGoogleDriveDirectUrl getDropboxDirectUrl link = link.url ∨
    ∃ fid, fid ≠ [] ∧ fid.all isIdChar = true ∧
      effectiveUrl getGoogleDriveDirectUrl getDropboxDirectUrl link
        = "https://drive.google.com/uc?export=download&id="
          ++ String.mk fid := by
  unfold effectiveUrl
  rw [if_pos hty]
  cases hm : getGoogleDriveDirectUrl link.url with
  | none => left; simp [hm]
  | some d =>
      right
      obtain ⟨fid, h1, h2, h3⟩ := getGoogleDriveDirectUrl_shape _ _ hm
      exact ⟨fid, h1, h2, by simp [hm, h3]⟩

/-- Concrete evaluation: a content type with parameters is split at `;`
and trimmed before the lookup. -/
theorem getExtensionFromContentType_pdf :
    getExtensionFromContentType "application/pdf; charset=UTF-8" = ".pdf" := by
  decide

/-- Concrete evaluation: the lookup is case-insensitive via
`toLowerCase`. -/
theorem getExtensionFromContentType_case :
    getExtensionFromContentType "Text/HTML" = ".html" := by
  decide

/-- Concrete evaluation: an unknown MIME type yields the empty
extension. -/
theorem getExtensionFromContentType_unknown :
    getExtensionFromContentType "application/octet-stream" = "" := by
  decide

/-- Branch combinator: a disjunctive property that holds of both arms
holds of the `if`. -/
theorem dotChoice (c : Prop) [Decidable c] (a b : String)
    (ha : a = "" ∨ a.data.head? = some '.')
    (hb : b = "" ∨ b.data.head? = some '.') :
    (if c then a else b) = "" ∨
    (if c then a else b).data.head? = some '.' := by
  split
  · exact ha
  · exact hb

/-- Every output of `getExtensionFromContentType` is either empty or a
dot-extension (so appending it to `outputPath` in `downloadFile` always
forms a well-formed suffix). -/
theorem getExtensionFromContentType_dot (ct : String) :
    getExtensionFromContentType ct = "" ∨
    (getExtensionFromContentType ct).data.head? = some '.' := by
  unfold getExtensionFromContentType mimeToExt
  repeat
    first
      | exact Or.inl rfl
      | exact Or.inr rfl
      | apply dotChoice

/-- A found video file exists (per the filesystem predicate) and is
`basePath` plus one of the four probed extensions. -/
theorem findVideoFileAux_some (fe : String → Bool) (bp : String) :
    ∀ exts p, findVideoFileAux fe bp exts = some p →
      fe p = true ∧ ∃ ext, ext ∈ exts ∧ p = bp ++ ext := by
  intro exts
  induction exts with
  | nil => intro p h; cases h
  | cons e rest ih =>
      intro p h
      rw [findVideoFileAux] at h
      split at h
      · cases h
        exact ⟨by assumption, e, List.mem_cons_self e rest, rfl⟩
      · obtain ⟨h1, ext, hm, he⟩ := ih p h
        exact ⟨h1, ext, List.mem_cons_of_mem _ hm, he⟩

/-- `findVideoFile` at string level: a hit exists and carries one of
`.mp4/.mkv/.webm/.mov`. -/
theorem findVideoFile_some (fe : String → Bool) (bp p : String)
    (h : findVideoFile fe bp = some p) :
    fe p = true ∧ ∃ ext, ext ∈ videoExtensions ∧ p = bp ++ ext :=
  findVideoFileAux_some fe bp videoExtensions p h

/-- When none of the probed paths exists, the search returns `null`. -/
theorem findVideoFileAux_none (fe : String → Bool) (bp : String) :
    ∀ exts, (∀ ext ∈ exts, fe (bp ++ ext) = false) →
      findVideoFileAux fe bp exts = none := by
  intro exts
  induction exts with
  | nil => intro _; rfl
  | cons e rest ih =>
      intro h
      rw [findVideoFileAux]
      rw [h e (List.mem_cons_self e rest)]
      simp only [Bool.false_eq_true, if_false]
      exact ih (fun ext hm => h ext (List.mem_cons_of_mem _ hm))

/-- `findVideoFile` returns `null` exactly when no probe hits. -/
theorem findVideoFile_none (fe : String → Bool) (bp : String)
    (h : ∀ ext ∈ videoExtensions, fe (bp ++ ext) = false) :
    findVideoFile fe bp = none :=
  findVideoFileAux_none fe bp videoExtensions h

/-- Probe order: `.mp4` wins whenever it exists, regardless of the other
extensions. -/
theorem findVideoFile_mp4_first (fe : String → Bool) (bp : String)
    (h : fe (bp ++ ".mp4") = true) :
    findVideoFile fe bp = some (bp ++ ".mp4") := by
  unfold findVideoFile videoExtensions findVideoFileAux
  rw [h, if_pos rfl]

/-- `padStart(2, '0')` yields exactly two characters on inputs of length
at most two (all 1-based indices up to 99). -/
theorem padStart2_length (s : String) (h : s.length ≤ 2) :
    (padStart2 s).length = 2 := by
  unfold padStart2
  rw [String.length_append]
  show (List.replicate (2 - s.length) '0').length + s.length = 2
  rw [List.length_replicate]
  omega

/-- Concrete evaluation of the output-path template: 1-based zero-padded
module and lesson numbers. -/
theorem generateOutputPath_eval :
    generateOutputPath id "out" "Course" 0 "Intro" 4 "Lesson"
      = "out/Course/01_Intro/05_Lesson" := by
  decide

/-- The `unknown` member of the link-type union is dead code:
`detectLinkType` never produces it (every URL falls through to
`external`). -/
theorem detectLinkType_never_unknown (toLower : String → String)
    (url : String) :
    detectLinkType toLower url ≠ LinkType.unknownLink := by
  unfold detectLinkType
  split_ifs <;> decide

/-- Classification priority: a Google-Docs URL that mentions `.pdf` is
classified `pdf` (the first probe wins). -/
theorem detectLinkType_pdf_priority :
    detectLinkType jsToLower "https://docs.google.com/d/file.PDF"
      = LinkType.pdf := by
  decide

/-- `drive.google.com/file` URLs are classified `google-doc` (second
probe), not `google-drive`. -/
theorem detectLinkType_drive_file :
    detectLinkType jsToLower "https://drive.google.com/file/d/X"
      = LinkType.googleDoc := by
  decide

/-- Other `drive.google.com` URLs are classified `google-drive`. -/
theorem detectLinkType_drive_other :
    detectLinkType jsToLower "https://drive.google.com/open?id=ABC"
      = LinkType.googleDrive := by
  decide

/-- End to end: a plain Drive link is classified `google-drive` by the
extractor and then fetched by `downloadResource` through the
`uc?export=download` endpoint with the captured id. -/
theorem drive_link_end_to_end :
    detectLinkType jsToLower "https://drive.google.com/open?id=ABC"
        = LinkType.googleDrive
    ∧ effectiveUrl getGoogleDriveDirectUrl getDropboxDirectUrl
        { text := "File", url := "https://drive.google.com/open?id=ABC",
          type := LinkType.googleDrive }
      = "https://drive.google.com/uc?export=download&id=ABC" := by
  exact ⟨by decide, by decide⟩

/-- `saveModuleContent` always reports the module's markdown file as
`outputDir/content.md`. -/
theorem saveModuleContent_path (relative : String → String → String)
    (basename : String → String) (content : ModuleContent)
    (moduleTitle outputDir : String) (rs : List ResourceResult) :
    (saveModuleContent relative basename content moduleTitle outputDir
      rs).2 = outputDir ++ "/content.md" := rfl

/-- Shape lemma: a six-fold left-associated concatenation extends its
first component. -/
theorem exists_heading_rest (a b c d e f : String) :
    ∃ rest, ((((a ++ b) ++ c) ++ d) ++ e) ++ f = a ++ rest :=
  ⟨b ++ (c ++ (d ++ (e ++ f))), by simp [String.append_assoc]⟩

/-- The generated document always opens with the `# moduleTitle`
heading (applies the shape lemma to the six concatenated sections). -/
theorem saveModuleContent_heading (relative : String → String → String)
    (basename : String → String) (content : ModuleContent)
    (moduleTitle outputDir : String) (rs : List ResourceResult) :
    ∃ rest,
      (saveModuleContent relative basename content moduleTitle outputDir
        rs).1 = "# " ++ moduleTitle ++ "\n\n" ++ rest :=
  exists_heading_rest ("# " ++ moduleTitle ++ "\n\n") _ _ _ _ _

set_option maxRecDepth 8000 in
/-- Full concrete evaluation of the markdown document: section order,
the exclusion of embedded links that duplicate an attached resource,
the `./`-relative downloaded-file link, and the skip-reason/error
fallback in the Notes section. -/
theorem saveModuleContent_eval :
    (saveModuleContent (fun d p => replaceFirst p (d ++ "/") "")
        (fun p => String.mk (afterLastSlash p.data))
        ⟨"Desc", "", "Body",
         [⟨"Slides", "https://x.com/slides.pdf", "attachment"⟩],
         [⟨"Slides", "https://x.com/slides.pdf", LinkType.pdf⟩,
          ⟨"Site", "https://ex.org", LinkType.extLink⟩]⟩
        "Module 1" "out"
        [⟨"https://x.com/slides.pdf", true,
          some "out/resources/Slides.pdf", none, none, none⟩,
         ⟨"https://ex.org", false, none, some "HTTP 500", none, none⟩]).1
      = "# Module 1\n\n## Description\n\nDesc\n\n## Content\n\nBody\n\n## Resources & Links\n\n### Attached Resources\n\n- [Slides](https://x.com/slides.pdf)\n\n### Links in Content\n\n- [Site](https://ex.org) *(external)*\n\n## Downloaded Files\n\n- [Slides.pdf](./resources/Slides.pdf)\n\n## Notes\n\nSome resources could not be downloaded:\n- https://ex.org: HTTP 500\n\n" := by
  decide

/-- Matching a concatenated needle also matches its second part, a
needle-length further in. -/
theorem startsWithChars_append_drop :
    ∀ (a b cs : List Char), startsWithChars (a ++ b) cs = true →
      startsWithChars b (cs.drop a.length) = true := by
  intro a
  induction a with
  | nil => intro b cs h; simpa using h
  | cons x xs ih =>
      intro b cs h
      cases cs with
      | nil => simp [startsWithChars] at h
      | cons c cs =>
          simp only [List.cons_append, startsWithChars,
            Bool.and_eq_true] at h
          simpa using ih b cs h.2

/-- Occurrence is preserved by extending the haystack on the left. -/
theorem containsChars_cons (needle : List Char) (c : Char)
    (cs : List Char) (h : containsChars needle cs = true) :
    containsChars needle (c :: cs) = true := by
  simp [containsChars, h]

/-- Occurrence in a dropped tail gives occurrence in the whole. -/
theorem containsChars_drop (needle : List Char) :
    ∀ (cs : List Char) (k : Nat),
      containsChars needle (cs.drop k) = true →
      containsChars needle cs = true := by
  intro cs
  induction cs with
  | nil => intro k h; simpa using h
  | cons c cs ih =>
      intro k h
      cases k with
      | zero => simpa using h
      | succ j => exact containsChars_cons _ _ _ (ih j h)

/-- A nonempty needle that the haystack starts with occurs in it. -/
theorem contains_of_startsWith (needle : List Char) (hne : needle ≠ [])
    (cs : List Char) (h : startsWithChars needle cs = true) :
    containsChars needle cs = true := by
  cases needle with
  | nil => exact absurd rfl hne
  | cons x xs =>
      cases cs with
      | nil => simp [startsWithChars] at h
      | cons c cs => simp [containsChars, h]

/-- A needle that is the second part of an occurring concatenation
occurs itself. -/
theorem containsChars_sub (a b : List Char) (hb : b ≠ []) :
    ∀ cs, containsChars (a ++ b) cs = true →
      containsChars b cs = true := by
  intro cs
  induction cs with
  | nil =>
      intro h
      simp only [containsChars, List.isEmpty_eq_true,
        List.append_eq_nil] at h
      exact absurd h.2 hb
  | cons c cs ih =>
      intro h
      simp only [containsChars, Bool.or_eq_true] at h
      cases h with
      | inl h =>
          exact containsChars_drop b (c :: cs) a.length
            (contains_of_startsWith b hb _
              (startsWithChars_append_drop a b (c :: cs) h))
      | inr h => exact containsChars_cons _ _ _ (ih h)

/-- The `player.vimeo.com` probe in `detectProvider` is redundant: any
URL containing it already contains `vimeo.com`, so the first disjunct
alone decides the vimeo branch. -/
theorem player_vimeo_probe_subsumed (url : String)
    (h : strIncludes url "player.vimeo.com" = true) :
    strIncludes url "vimeo.com" = true := by
  have hsplit : ("player.vimeo.com").data
      = ("player.").data ++ ("vimeo.com").data := by decide
  have h2 : containsChars (("player.").data ++ ("vimeo.com").data)
      url.data = true := by
    rw [← hsplit]; exact h
  exact containsChars_sub _ _ (by decide) url.data h2

/-- Concrete provider classifications, including probe priority and the
`skool.com`/`.m3u8` native branch. -/
theorem detectProvider_evals :
    detectProvider "https://fast.wistia.net/embed/iframe/abc"
        = VideoProvider.wistia
    ∧ detectProvider "https://www.youtube.com/watch?v=x"
        = VideoProvider.youtube
    ∧ detectProvider "https://courses.skool.com/video/master.m3u8"
        = VideoProvider.native
    ∧ detectProvider "https://example.com/a.mp4"
        = VideoProvider.unknownProv := by
  exact ⟨by decide, by decide, by decide, by decide⟩

/-- A truthy optional string is not `none`. -/
theorem jsTruthy_ne_none (o : Option String) (h : jsTruthy o = true) :
    o ≠ none := by
  cases o with
  | none => simp [jsTruthy] at h
  | some s => simp

/-- The guard of `getDownloadableUrl`: with neither a captured URL nor
a video id, the result is `null`. -/
theorem getDownloadableUrl_guard (info : VideoInfo)
    (hu : jsTruthy info.url = false) (hv : jsTruthy info.videoId = false) :
    getDownloadableUrl info = none := by
  simp [getDownloadableUrl, hu, hv]

/-- Without a video id (but with a captured URL) every provider branch
falls back to `info.url` unchanged. -/
theorem getDownloadableUrl_url_fallback (info : VideoInfo)
    (hu : jsTruthy info.url = true) (hv : jsTruthy info.videoId = false) :
    getDownloadableUrl info = info.url := by
  unfold getDownloadableUrl
  cases info.provider <;> simp [hu, hv]

/-- For the id-based providers (wistia, vimeo, youtube, loom) a present
video id always yields a downloadable URL, never `null`. -/
theorem getDownloadableUrl_with_id (info : VideoInfo)
    (hid : jsTruthy info.videoId = true)
    (hp : info.provider = VideoProvider.wistia
        ∨ info.provider = VideoProvider.vimeo
        ∨ info.provider = VideoProvider.youtube
        ∨ info.provider = VideoProvider.loom) :
    ∃ s, getDownloadableUrl info = some s := by
  unfold getDownloadableUrl
  have hg : (!jsTruthy info.url && !jsTruthy info.videoId) = false := by
    rw [hid]; simp
  rcases hp with h | h | h | h <;> rw [h] <;> simp only [hg] <;>
    simp only [hid, Bool.false_eq_true, if_false, if_true, if_pos] <;>
    first
      | exact ⟨_, rfl⟩
      | (split
         · exact ⟨_, rfl⟩
         · exact ⟨_, rfl⟩)

/-- Quirk of the guard order: for provider `native` a present video id
defeats the `null` guard, yet the returned value is still the missing
`info.url` — `null` despite a usable id. -/
theorem getDownloadableUrl_native_quirk :
    getDownloadableUrl
        ⟨VideoProvider.native, none, none, some "x"⟩ = none
    ∧ jsTruthy (some "x") = true := by
  exact ⟨by decide, by decide⟩

/-- Concrete downloadable-URL constructions: the private-Vimeo
`id:hash` split, the YouTube watch URL, and the wistia fallback to the
captured URL when no id was found. -/
theorem getDownloadableUrl_evals :
    getDownloadableUrl
        ⟨VideoProvider.vimeo, none, none, some "123:abc"⟩
      = some "https://player.vimeo.com/video/123?h=abc"
    ∧ getDownloadableUrl
        ⟨VideoProvider.youtube, some "u", none, some "dQw4"⟩
      = some "https://www.youtube.com/watch?v=dQw4"
    ∧ getDownloadableUrl
        ⟨VideoProvider.wistia, some "https://w", none, none⟩
      = some "https://w" := by
  exact ⟨by decide, by decide, by decide⟩

/-- `isPubliclyDownloadable` and `isLikelyFile` disagree on file URLs
with a query string: the former requires the extension as an exact
suffix, the latter only as a substring. -/
theorem public_vs_likely_file_query_string :
    isPubliclyDownloadable jsToLower "https://x.com/file.pdf?v=2" = false
    ∧ isLikelyFile jsToLower "https://x.com/file.pdf?v=2" = true
    ∧ isPubliclyDownloadable jsToLower "https://x.com/Guide.PDF" = true := by
  exact ⟨by decide, by decide, by decide⟩

/-- The Notion rules of `isPubliclyDownloadable`: `notion.so` pages are
public unless the URL mentions `/login`. -/
theorem isPubliclyDownloadable_notion :
    isPubliclyDownloadable jsToLower "https://notion.so/login" = false
    ∧ isPubliclyDownloadable jsToLower "https://a.notion.so/page" = true := by
  exact ⟨by decide, by decide⟩

/-- The guard clauses of `parseResources`: `undefined`, the empty
string, and the literal `'[]'` all give the empty resource list. -/
theorem parseResources_empty :
    parseResources none = []
    ∧ parseResources (some "") = []
    ∧ parseResources (some "[]") = [] := by
  exact ⟨rfl, rfl, rfl⟩

/-- The caught failure paths of `parseResources`: malformed JSON, a
non-array document, and an array with a `null` element (whose property
access throws) all give `[]`. -/
theorem parseResources_caught :
    parseResources (some "[\x7b") = []
    ∧ parseResources (some "\x7b\"title\":\"A\"\x7d") = []
    ∧ parseResources (some "[null]") = [] := by
  exact ⟨rfl, rfl, rfl⟩

/-- Happy path of `parseResources`: each element's `title` and `link`
fields are read off; a missing field is `undefined`. -/
theorem parseResources_happy :
    parseResources
        (some "[\x7b\"title\":\"A\",\"link\":\"u\"\x7d,\x7b\"link\":\"v\"\x7d]")
      = [(some (Json.str "A"), some (Json.str "u")),
         (none, some (Json.str "v"))] := by
  rfl

/-- A video produces no migration actions exactly when its filename is
one of the three already-migrated names. -/
theorem planOne_nil_iff (ex : String → Bool) (v : String) :
    planOne ex v = [] ↔
    (String.mk (afterLastSlash v.data) = "video.mp4"
     ∨ String.mk (afterLastSlash v.data) = "video.mkv"
     ∨ String.mk (afterLastSlash v.data) = "video.webm") := by
  unfold planOne
  dsimp only []
  split_ifs with h
  · exact iff_of_true rfl h
  · exact iff_of_false (by simp) h

/-- The already-migrated check misses `.mov`: a `video.mov` that is
already in the new structure is re-planned into a nested directory on a
second run, while `video.mp4` is correctly skipped (`findVideoFiles`
collects `.mov` files, so they do reach `planMigration`). -/
theorem planOne_mov_gap :
    planOne (fun _ => false) "downloads/C/01_L/video.mov"
      = [("downloads/C/01_L/video.mov",
          "downloads/C/01_L/video/video.mov")]
    ∧ planOne (fun _ => false) "downloads/C/01_L/video.mp4" = [] := by
  exact ⟨by decide, by decide⟩

/-- Concrete migration plan: the video moves into a directory named
after its basename, and an existing `.en.srt` subtitle moves with it. -/
theorem planMigration_eval :
    planMigration (fun p => p = "downloads/C/01_S/01_Lesson.en.srt")
        ["downloads/C/01_S/01_Lesson.mp4"]
      = [("downloads/C/01_S/01_Lesson.mp4",
          "downloads/C/01_S/01_Lesson/video.mp4"),
         ("downloads/C/01_S/01_Lesson.en.srt",
          "downloads/C/01_S/01_Lesson/video.en.srt")] := by
  decide

/-- A found output file is a directory entry that starts with the
base name, joined back onto the directory. -/
theorem findOutputFile_some (files : List String) (basePath p : String)
    (h : findOutputFile (some files) basePath = some p) :
    ∃ m, m ∈ files
      ∧ startsWithChars (afterLastSlash basePath.data) m.data = true
      ∧ p = dirnameOf basePath ++ "/" ++ m := by
  unfold findOutputFile at h
  dsimp only [] at h
  cases hf : files.find? (fun f =>
      startsWithChars (afterLastSlash basePath.data) f.data) with
  | none => rw [hf] at h; cases h
  | some m =>
      rw [hf] at h
      dsimp only [] at h
      cases h
      have hmem := List.mem_of_find?_eq_some hf
      have hpred := List.find?_some hf
      exact ⟨m, hmem, hpred, rfl⟩

/-- A caught `readdir` error gives `undefined`. -/
theorem findOutputFile_err (basePath : String) :
    findOutputFile none basePath = none := rfl

/-- `startsWith` matching can pick up yt-dlp's partial-download
artifact: with a `.part` file listed first, `findOutputFile` returns it
instead of the finished video. -/
theorem findOutputFile_part_artifact :
    findOutputFile (some ["video.mp4.part", "video.mp4"]) "out/video.mp4"
      = some "out/video.mp4.part" := by
  decide

/-- If the slug pattern's literal never occurs, the slug regex finds no
match. -/
theorem matchLitThenNonSlash_none (lit : List Char) :
    ∀ cs, containsChars lit cs = false →
      matchLitThenNonSlash lit cs = none := by
  intro cs
  induction cs with
  | nil => intro _; rfl
  | cons c cs ih =>
      intro h
      simp only [containsChars, Bool.or_eq_false_iff] at h
      simp [matchLitThenNonSlash, h.1, ih h.2]

/-- Every successful slug capture is a nonempty run of non-slash
characters. -/
theorem matchLitThenNonSlash_some (lit : List Char) :
    ∀ cs cap, matchLitThenNonSlash lit cs = some cap →
      cap ≠ [] ∧ cap.all (fun c => !(c = '/')) = true := by
  intro cs
  induction cs with
  | nil => intro cap h; cases h
  | cons c cs ih =>
      intro cap h
      rw [matchLitThenNonSlash] at h
      split at h
      · split at h
        · exact ih cap h
        · cases h
          exact ⟨by assumption, List.all_takeWhile⟩
      · exact ih cap h

/-- Concrete slug extraction: the first path segment after
`skool.com/`. -/
theorem extractSlug_eval :
    extractSlug "https://www.skool.com/my-course/classroom/x"
      = "my-course" := by
  decide

/-- A URL without `skool.com/` yields the fallback slug `'unknown'`. -/
theorem extractSlug_unknown (url : String)
    (h : strIncludes url "skool.com/" = false) :
    extractSlug url = "unknown" := by
  have h2 : containsChars ("skool.com/").data url.data = false := h
  unfold extractSlug
  rw [matchLitThenNonSlash_none _ _ h2]

/-- Every extracted slug is `'unknown'` or a nonempty segment without a
slash. -/
theorem extractSlug_shape (url : String) :
    extractSlug url = "unknown" ∨
    ((extractSlug url).data ≠ []
     ∧ (extractSlug url).data.all (fun c => !(c = '/')) = true) := by
  unfold extractSlug
  cases hm : matchLitThenNonSlash ("skool.com/").data url.data with
  | none => left; rfl
  | some cap =>
      right
      obtain ⟨h1, h2⟩ := matchLitThenNonSlash_some _ _ _ hm
      have hne : ¬(String.mk cap = "") := by
        intro hc
        exact h1 (congrArg String.data hc)
      simp only [jsOrStr, if_neg hne]
      exact ⟨h1, h2⟩

/-- With no overrides, `getConfig` is exactly the default
configuration (concurrency 2, best quality, subtitles on, 2s page
delay, 1s download delay). -/
theorem getConfig_default (homedir : String) :
    getConfig homedir {} = defaultConfig homedir := rfl

/-- A provided override replaces only its own key: overriding `quality`
keeps the default concurrency and subtitle settings. -/
theorem getConfig_override (homedir : String) :
    (getConfig homedir { quality := some "720p" }).quality = "720p"
    ∧ (getConfig homedir { quality := some "720p" }).concurrency = 2
    ∧ (getConfig homedir { quality := some "720p" }).downloadSubs = true := by
  exact ⟨rfl, rfl, rfl⟩

end SkoolDl

